import Mathlib

/-! # EasyCompress: a Huffman file and folder compressor

A shallow embedding of the C++ sources (`BitStream.hpp`, `VarInt.hpp`,
`HuffmanNode.hpp`, `HuffmanTree.hpp`, `TreeSerializer.hpp`,
`FileCompressor.hpp`, `FolderCompressor.hpp`, `main.cpp`) and the properties
proved about them.

Conventions of the embedding:
* a byte (`char`, `unsigned char`, `uint8_t`) is a `Fin 256`;
* a `std::string` of `'0'`/`'1'` characters is a `List Char`;
* an input stream is the list of bytes not read yet; a read at the end of
  the stream fails and leaves the stream empty;
* an output stream is the list of bytes written so far;
* `int` arithmetic is done in `Int` and wrapped to 32 bits, `uint32_t`
  arithmetic is done in `Nat` modulo `2^32`;
* what the C++ standard library leaves open is a parameter: the order in
  which an `unordered_map` is iterated (`IterationOrder`) and the node that
  `priority_queue::top` returns among several of least frequency (`tie`);
* failures of the file system are left out: a compressor maps the content it
  reads to the bytes of the archive, a decompressor maps the bytes of the
  archive to the content it writes;
* the names of the files and what a function prints on `std::cerr` are kept
  apart from the bytes, in definitions of their own (`compressOutputFile`,
  `outputFolder`, `decodeWithRootLogged`, `encodeWarnings`).
-/

namespace EasyCompress

/-- One byte of a file or of a stream. -/
abbrev Byte := Fin 256

/-- An `std::string` whose characters are meant to be `'0'` and `'1'`. -/
abbrev BitString := List Char

/-! ## VarInt.hpp -/

namespace VarInt

/-- The `while (value >= 0x80)` loop of `VarInt::encode`, with the final
`push_back(value & 0x7F)`. The first argument bounds the number of
iterations; `encode` passes a bound that is never reached. -/
def encodeLoop : Nat → Nat → List Byte
  | 0, value => [Fin.ofNat (value &&& 0x7F)]
  | fuel + 1, value =>
    if value ≥ 0x80 then
      Fin.ofNat ((value &&& 0x7F) ||| 0x80) :: encodeLoop fuel (value >>> 7)
    else
      [Fin.ofNat (value &&& 0x7F)]

/-- `VarInt::encode(uint32_t value)`. -/
def encode (value : Nat) : List Byte :=
  encodeLoop value value

/-- The `while (true)` loop of `VarInt::decode`: `result` and `shift` are the
local variables, the list is the unread part of the stream. Returns the
decoded value and the rest of the stream. The shifted group is reduced to 32
bits when it is or-ed into `result`, so a group shifted by 32 or more
contributes nothing. -/
def decodeLoop : Nat → Nat → List Byte → Nat × List Byte
  | result, _, [] => (result, [])
  | result, shift, byte :: rest =>
    let result1 := (result ||| ((byte.val &&& 0x7F) <<< shift)) % 2 ^ 32
    if byte.val &&& 0x80 = 0 then (result1, rest)
    else decodeLoop result1 (shift + 7) rest

/-- `VarInt::decode(std::istream& in)`. -/
def decode (input : List Byte) : Nat × List Byte :=
  decodeLoop 0 0 input

/-- `VarInt::write(out, value)`: the bytes appended to the output. The
argument is converted to `uint32_t` by the call. -/
def write (out : List Byte) (value : Nat) : List Byte :=
  out ++ encode (value % 2 ^ 32)

/-- The loop of `VarInt::encodedSize`. -/
def encodedSizeLoop : Nat → Nat → Nat → Nat
  | 0, size, _ => size + 1
  | fuel + 1, size, value =>
    if value ≥ 0x80 then encodedSizeLoop fuel (size + 1) (value >>> 7)
    else size + 1

/-- `VarInt::encodedSize(uint32_t value)`. -/
def encodedSize (value : Nat) : Nat :=
  encodedSizeLoop value 0 value

end VarInt



/-! ## HuffmanNode.hpp -/

/-- A `HuffmanNode*`: the null pointer, or an owned node with the fields
`character`, `frequency`, `left` and `right`. -/
inductive HuffmanNode where
  | null : HuffmanNode
  | node (character : Byte) (frequency : Int) (left right : HuffmanNode) : HuffmanNode
  deriving DecidableEq

namespace HuffmanNode

/-- Field `character` (0 behind a null pointer, which the code never reads). -/
def character : HuffmanNode → Byte
  | null => 0
  | node c _ _ _ => c

/-- Field `frequency`. -/
def frequency : HuffmanNode → Int
  | null => 0
  | node _ f _ _ => f

/-- Field `left`. -/
def left : HuffmanNode → HuffmanNode
  | null => null
  | node _ _ l _ => l

/-- Field `right`. -/
def right : HuffmanNode → HuffmanNode
  | null => null
  | node _ _ _ r => r

/-- `HuffmanNode::isLeaf()`: both children are null. -/
def isLeaf : HuffmanNode → Bool
  | node _ _ null null => true
  | _ => false

end HuffmanNode

/-- The value an `int` holds after a result is reduced to 32 bits in two's
complement. -/
def toInt32 (x : Int) : Int :=
  (x + 2 ^ 31) % 2 ^ 32 - 2 ^ 31

/-! ## HuffmanTree.hpp -/

/-- The `std::unordered_map<char, std::string> codeTable`, as an association
list with at most one entry per key. -/
abbrev CodeTable := List (Byte × BitString)

/-- Lookup `codeTable.find(ch)`. -/
def CodeTable.find (table : CodeTable) (ch : Byte) : Option BitString :=
  List.lookup ch table

/-- Assignment `codeTable[ch] = code`, which replaces an earlier entry of `ch`. -/
def CodeTable.set (table : CodeTable) (ch : Byte) (code : BitString) : CodeTable :=
  (ch, code) :: table.filter (fun e => e.1 ≠ ch)

/-- `HuffmanTree::generateCodesRecursive(node, code)`, threading the table. -/
def generateCodesRecursive : HuffmanNode → BitString → CodeTable → CodeTable
  | .null, _, table => table
  | .node ch _ .null .null, code, table =>
    table.set ch (if code.isEmpty then ['0'] else code)
  | .node _ _ l r, code, table =>
    generateCodesRecursive r (code ++ ['1']) (generateCodesRecursive l (code ++ ['0']) table)

/-- The comparator `cmp` handed to `std::priority_queue`. -/
def cmp (left right : HuffmanNode) : Bool :=
  decide (left.frequency > right.frequency)

/-- The nodes `minHeap.top()` may return: those that `cmp` places before no
other node of the queue, which are the nodes of least frequency. -/
def topCandidates (heap : List HuffmanNode) : List HuffmanNode :=
  heap.filter (fun x => heap.all (fun y => !cmp x y))

/-- `minHeap.top()`. The queue is modelled by the list of its elements. Which
of several nodes of equal least frequency comes out is decided inside the
standard library; `tie` stands for that decision. -/
def heapTop (tie : Nat) (heap : List HuffmanNode) : HuffmanNode :=
  (topCandidates heap).getD (tie % (topCandidates heap).length) .null

/-- `minHeap.pop()`: removes the node that `top()` returned. -/
def heapPop (tie : Nat) (heap : List HuffmanNode) : List HuffmanNode :=
  heap.erase (heapTop tie heap)

/-- `minHeap.push(node)`. -/
def heapPush (heap : List HuffmanNode) (node : HuffmanNode) : List HuffmanNode :=
  node :: heap

/-- The first loop of `buildFromFrequencies`: one leaf is pushed per pair. -/
def pushLeaves (heap : List HuffmanNode) : List (Byte × Int) → List HuffmanNode
  | [] => heap
  | pair :: rest => pushLeaves (heapPush heap (.node pair.1 pair.2 .null .null)) rest

/-- The `while (minHeap.size() > 1)` loop of `buildFromFrequencies`. `k` counts
the calls of `top()` made so far, the `k`-th of which is resolved by `tie k`.
The first argument bounds the number of iterations. -/
def buildLoop (tie : Nat → Nat) : Nat → Nat → List HuffmanNode → Nat × List HuffmanNode
  | 0, k, heap => (k, heap)
  | fuel + 1, k, heap =>
    if heap.length > 1 then
      let left := heapTop (tie k) heap
      let heap1 := heapPop (tie k) heap
      let right := heapTop (tie (k + 1)) heap1
      let heap2 := heapPop (tie (k + 1)) heap1
      let merged := HuffmanNode.node 0 (toInt32 (left.frequency + right.frequency)) left right
      buildLoop tie fuel (k + 2) (heapPush heap2 merged)
    else (k, heap)

/-- `HuffmanTree::buildFromFrequencies(charFreqs)`: the new value of `root`. -/
def buildFromFrequencies (tie : Nat → Nat) (charFreqs : List (Byte × Int)) : HuffmanNode :=
  if charFreqs.isEmpty then .null
  else
    let heap := pushLeaves [] charFreqs
    let final := buildLoop tie heap.length 0 heap
    heapTop (tie final.1) final.2

/-- The state of a `HuffmanTree` object. -/
structure HuffmanTree where
  root : HuffmanNode
  codeTable : CodeTable

namespace HuffmanTree

/-- The constructor `HuffmanTree()`. -/
def new : HuffmanTree := ⟨.null, []⟩

/-- Method `buildFromFrequencies`. -/
def buildFromFrequencies (tree : HuffmanTree) (tie : Nat → Nat)
    (charFreqs : List (Byte × Int)) : HuffmanTree :=
  ⟨EasyCompress.buildFromFrequencies tie charFreqs, tree.codeTable⟩

/-- Method `generateCodeTable`: clears the table and fills it from the root. -/
def generateCodeTable (tree : HuffmanTree) : HuffmanTree :=
  ⟨tree.root, generateCodesRecursive tree.root [] []⟩

/-- Method `encode`: a byte without an entry is skipped (the code prints a
warning and goes on). -/
def encode (tree : HuffmanTree) : List Byte → BitString
  | [] => []
  | ch :: rest =>
    match tree.codeTable.find ch with
    | some code => code ++ encode tree rest
    | none => encode tree rest

end HuffmanTree

/-- The `for (char bit : encodedString)` loop of `decodeWithRoot` and of
`decode`, with the final `return decodedString`; an early `return ""` gives
the empty list. -/
def decodeLoop (root : HuffmanNode) : HuffmanNode → List Byte → BitString → List Byte
  | _, decoded, [] => decoded
  | current, decoded, bit :: rest =>
    if bit = '0' then
      match current.left with
      | .null => []
      | next =>
        if next.isLeaf then decodeLoop root root (decoded ++ [next.character]) rest
        else decodeLoop root next decoded rest
    else if bit = '1' then
      match current.right with
      | .null => []
      | next =>
        if next.isLeaf then decodeLoop root root (decoded ++ [next.character]) rest
        else decodeLoop root next decoded rest
    else []

/-- `HuffmanTree::decodeWithRoot(root, encodedString)`. -/
def decodeWithRoot (root : HuffmanNode) (encodedString : BitString) : List Byte :=
  match root with
  | .null => []
  | _ => decodeLoop root root [] encodedString

/-- Method `HuffmanTree::decode(encodedString)`. -/
def HuffmanTree.decode (tree : HuffmanTree) (encodedString : BitString) : List Byte :=
  decodeWithRoot tree.root encodedString

/-! ## Frequency tables -/

/-- The iteration order of a `std::unordered_map`, which the standard leaves
open: some rearrangement of the entries. -/
structure IterationOrder where
  apply : List (Byte × Int) → List (Byte × Int)
  perm : ∀ m, (apply m).Perm m

/-- The order in which the entries were first inserted. -/
def IterationOrder.insertion : IterationOrder := ⟨id, fun _ => List.Perm.refl _⟩

/-- `freqMap[ch]++` on a map whose counter type wraps as `wrap` says. -/
def freqIncrement (wrap : Int → Int) : List (Byte × Int) → Byte → List (Byte × Int)
  | [], ch => [(ch, wrap 1)]
  | (c, n) :: rest, ch =>
    if c = ch then (c, wrap (n + 1)) :: rest else (c, n) :: freqIncrement wrap rest ch

/-- `for (char ch : content) freqMap[ch]++;` -/
def countBytes (wrap : Int → Int) (freqMap : List (Byte × Int)) (content : List Byte) :
    List (Byte × Int) :=
  content.foldl (freqIncrement wrap) freqMap

/-- `getFrequenciesFromFile` and `FolderCompressor::getFrequencies`: the
`unordered_map<char, int>` of the content, copied into a vector. -/
def getFrequencies (order : IterationOrder) (content : List Byte) : List (Byte × Int) :=
  order.apply (countBytes toInt32 [] content)

/-- The three statements `HuffmanTree tree; tree.buildFromFrequencies(charFreqs);
tree.generateCodeTable();` of every compressor. The queue works the same way
on the same table, so its tie-breaking is a function of the table. -/
def makeTree (tie : List (Byte × Int) → Nat → Nat) (charFreqs : List (Byte × Int)) :
    HuffmanTree :=
  (HuffmanTree.new.buildFromFrequencies (tie charFreqs) charFreqs).generateCodeTable

/-! ## BitStream.hpp -/

/-- The state of a `BitWriter`: the bytes put on the output stream so far,
the `unsigned char buffer` and `bitCount`. -/
structure BitWriter where
  out : List Byte
  buffer : Byte
  bitCount : Nat

namespace BitWriter

/-- The constructor `BitWriter(output)`, on a stream that already holds `out`. -/
def new (out : List Byte) : BitWriter := ⟨out, 0, 0⟩

/-- `BitWriter::writeBit(bit)`. -/
def writeBit (w : BitWriter) (bit : Nat) : BitWriter :=
  let buffer : Byte := Fin.ofNat ((w.buffer.val <<< 1) ||| (bit &&& 1))
  let bitCount := w.bitCount + 1
  if bitCount = 8 then ⟨w.out ++ [buffer], 0, 0⟩ else ⟨w.out, buffer, bitCount⟩

/-- The body of the loop of `writeByte`, run for `i = n - 1` down to `0`. -/
def writeByteLoop (byte : Byte) : Nat → BitWriter → BitWriter
  | 0, w => w
  | i + 1, w => writeByteLoop byte i (w.writeBit ((byte.val >>> i) &&& 1))

/-- `BitWriter::writeByte(byte)`. -/
def writeByte (w : BitWriter) (byte : Byte) : BitWriter :=
  writeByteLoop byte 8 w

/-- `BitWriter::flush()`. -/
def flush (w : BitWriter) : BitWriter :=
  if w.bitCount > 0 then
    ⟨w.out ++ [Fin.ofNat (w.buffer.val <<< (8 - w.bitCount))], 0, 0⟩
  else w

end BitWriter

/-- The state of a `BitReader`: the bytes of the input stream not read yet,
the `unsigned char buffer` and `bitCount`. -/
structure BitReader where
  input : List Byte
  buffer : Byte
  bitCount : Nat

namespace BitReader

/-- The constructor `BitReader(input)`. -/
def new (input : List Byte) : BitReader := ⟨input, 0, 0⟩

/-- The end of `readBit`, once the buffer holds a bit. -/
def takeBit (r : BitReader) : Int × BitReader :=
  (((r.buffer.val >>> 7) &&& 1 : Nat),
    ⟨r.input, Fin.ofNat (r.buffer.val <<< 1), r.bitCount - 1⟩)

/-- `BitReader::readBit()`: the bit, or -1 at the end of the stream. -/
def readBit (r : BitReader) : Int × BitReader :=
  if r.bitCount = 0 then
    match r.input with
    | [] => (-1, r)
    | byte :: rest => takeBit ⟨rest, byte, 8⟩
  else takeBit r

/-- The loop of `readByte`, with `n` iterations left and `byte` collected. -/
def readByteLoop : Nat → Byte → BitReader → Int × BitReader
  | 0, byte, r => ((byte.val : Int), r)
  | n + 1, byte, r =>
    let res := r.readBit
    if res.1 = -1 then (-1, res.2)
    else readByteLoop n (Fin.ofNat ((byte.val <<< 1) ||| res.1.toNat)) res.2

/-- `BitReader::readByte()`: the byte, or -1 when the stream ends first. -/
def readByte (r : BitReader) : Int × BitReader :=
  readByteLoop 8 0 r

/-- Number of bits the reader can still deliver. -/
def bitsLeft (r : BitReader) : Nat :=
  r.bitCount + 8 * r.input.length

end BitReader

/-! ## TreeSerializer.hpp -/

namespace TreeSerializer

/-- `TreeSerializer::serialize(root, writer)`. -/
def serialize : HuffmanNode → BitWriter → BitWriter
  | .null, w => w
  | .node ch _ .null .null, w => (w.writeBit 0).writeByte ch
  | .node _ _ l r, w => serialize r (serialize l (w.writeBit 1))

/-- `TreeSerializer::deserialize(reader)` with a bound on the depth of the
recursion; `none` only when the bound is reached. The node is
`HuffmanNode.null` where the code returns `nullptr`. -/
def deserializeFuel : Nat → BitReader → Option (HuffmanNode × BitReader)
  | 0, _ => none
  | fuel + 1, r =>
    let res := r.readBit
    if res.1 = 0 then
      let chr := res.2.readByte
      if chr.1 = -1 then some (.null, chr.2)
      else some (.node (Fin.ofNat chr.1.toNat) 0 .null .null, chr.2)
    else if res.1 = 1 then
      match deserializeFuel fuel res.2 with
      | none => none
      | some (l, r1) =>
        match deserializeFuel fuel r1 with
        | none => none
        | some (rt, r2) => some (.node 0 0 l rt, r2)
    else some (.null, res.2)

/-- `TreeSerializer::deserialize(reader)`: the node returned and the reader
after the call. Every call that recurses has read a bit, so the depth is at
most the number of bits left plus one and the bound is not reached. -/
def deserialize (r : BitReader) : HuffmanNode × BitReader :=
  (deserializeFuel (r.bitsLeft + 1) r).getD (.null, r)

end TreeSerializer

/-! ## FileCompressor.hpp -/

/-- The four bytes `out.write(&bitCount, sizeof(bitCount))` puts out for an
`int`, least significant byte first (the byte order of the usual targets). -/
def int32Bytes (x : Int) : List Byte :=
  let u := (x % 2 ^ 32).toNat
  [Fin.ofNat u, Fin.ofNat (u >>> 8), Fin.ofNat (u >>> 16), Fin.ofNat (u >>> 24)]

/-- The `int` that `in.read(&bitCount, sizeof(bitCount))` finds in four bytes. -/
def int32OfBytes (b0 b1 b2 b3 : Byte) : Int :=
  toInt32 ((b0.val + 256 * b1.val + 65536 * b2.val + 16777216 * b3.val : Nat) : Int)

/-- The value of the `std::bitset<8>` of the packing loop, from index `j` on:
bit `7 - j` is set when the character at index `j` is `'1'`. -/
def bitsetValue : Nat → BitString → Nat
  | _, [] => 0
  | j, c :: rest => (if c = '1' then 2 ^ (7 - j) else 0) + bitsetValue (j + 1) rest

/-- One byte of the packing loop: the inner loop runs over `j < 8` and stops
at the end of the string. -/
def packByte (chunk : BitString) : Byte :=
  Fin.ofNat (bitsetValue 0 (chunk.take 8))

/-- The loop `for (i = 0; i < bits.length(); i += 8)` that packs eight
characters into a byte; `bits` is what remains from index `i` on. -/
def packLoop : Nat → BitString → List Byte
  | 0, _ => []
  | fuel + 1, bits =>
    if bits.isEmpty then [] else packByte bits :: packLoop fuel (bits.drop 8)

/-- The packed bytes of a bit string. -/
def packBits (bits : BitString) : List Byte :=
  packLoop bits.length bits

/-- The inner loop `for (j = 7; j >= 0; j--)` of `readBits`, run for
`j = n - 1` down to `0`: appends a character while fewer than `bitCount` are
there. -/
def unpackByte (bitCount : Nat) (ubyte : Byte) : Nat → BitString → BitString
  | 0, bits => bits
  | j + 1, bits =>
    unpackByte bitCount ubyte j
      (if bits.length < bitCount then
        bits ++ [if (ubyte.val >>> j) &&& 1 = 1 then '1' else '0']
      else bits)

/-- The loop `for (i = 0; i < bytesToRead; i++)` of `readBits`, with
`n` iterations left. Returns the bit string and the rest of the stream. -/
def unpackLoop (bitCount : Nat) : Nat → BitString → List Byte → BitString × List Byte
  | 0, bits, input => (bits, input)
  | _ + 1, bits, [] => (bits, [])
  | n + 1, bits, byte :: rest => unpackLoop bitCount n (unpackByte bitCount byte 8 bits) rest

namespace FileCompressor

/-- `FileCompressor::writeBits(bits, out)`: the stream after the call. -/
def writeBits (bits : BitString) (out : List Byte) : List Byte :=
  out ++ int32Bytes (toInt32 bits.length) ++ packBits bits

/-- The part of `readBits` after `bitCount` is known. -/
def readBitsBody (input : List Byte) (bitCount : Int) : BitString × List Byte :=
  let bytesToRead := Int.tdiv (toInt32 (bitCount + 7)) 8
  unpackLoop bitCount.toNat bytesToRead.toNat [] input

/-- `FileCompressor::readBits(in, bitCount)`; the default argument of the
code is `bitCount = -1`. Returns the bit string and the rest of the stream. -/
def readBits (input : List Byte) (bitCount : Int) : BitString × List Byte :=
  if bitCount < 0 then
    match input with
    | b0 :: b1 :: b2 :: b3 :: rest =>
      if int32OfBytes b0 b1 b2 b3 ≤ 0 then ([], rest)
      else readBitsBody rest (int32OfBytes b0 b1 b2 b3)
    | _ => ([], [])
  else readBitsBody input bitCount

/-- `FileCompressor::compress`, from the content of the input file to the
bytes of the archive; `none` is `return false`. -/
def compress (order : IterationOrder) (tie : List (Byte × Int) → Nat → Nat)
    (fileContent : List Byte) : Option (List Byte) :=
  let charFreqs := getFrequencies order fileContent
  if charFreqs.isEmpty then none
  else
    let tree := makeTree tie charFreqs
    let encodedData := tree.encode fileContent
    let treeWriter := (TreeSerializer.serialize tree.root (BitWriter.new [70])).flush
    some (writeBits encodedData treeWriter.out)

/-- `FileCompressor::decompress`, from the bytes of an archive whose name
ends in `.huf` to the bytes written to the output file; `none` is
`return false`. The tag of an empty archive is never assigned; the model
lets that read fail. -/
def decompress (archive : List Byte) : Option (List Byte) :=
  match archive with
  | [] => none
  | magic :: body =>
    if magic ≠ 70 then none
    else
      match TreeSerializer.deserialize (BitReader.new body) with
      | (.null, _) => none
      | (root, treeReader) =>
        some (decodeWithRoot root (readBits treeReader.input (-1)).1)

end FileCompressor

/-! ## FolderCompressor.hpp -/

/-- The `FileEntry` of a file of the folder: its `relativePath`, and the
content that `readFileContent` finds behind its `absolutePath`. The field
`size` is only printed. -/
structure FileEntry where
  relativePath : List Byte
  content : List Byte
  deriving DecidableEq

namespace FolderCompressor

/-- The two counting loops of `compressWithGlobalTree` over an
`unordered_map<char, uint64_t>`: first every path, then every content. -/
def globalFrequencies (files : List FileEntry) : List (Byte × Int) :=
  let wrap64 : Int → Int := fun x => x % 2 ^ 64
  let paths := files.foldl (fun m f => countBytes wrap64 m f.relativePath) []
  files.foldl (fun m f => countBytes wrap64 m f.content) paths

/-- The vector `charFreqs` of `compressWithGlobalTree`: the entries of the
map in iteration order, each count cast to `int`. -/
def globalCharFreqs (order : IterationOrder) (files : List FileEntry) : List (Byte × Int) :=
  (order.apply (globalFrequencies files)).map (fun p => (p.1, toInt32 p.2))

/-- The loop of `compressWithGlobalTree` that writes one record per file. -/
def writeGlobalRecords (tree : HuffmanTree) : List FileEntry → List Byte → List Byte
  | [], out => out
  | file :: rest, out =>
    let encodedPath := tree.encode file.relativePath
    let encodedContent := tree.encode file.content
    let out1 := VarInt.write out encodedPath.length
    let out2 := VarInt.write out1 encodedContent.length
    let out3 := FileCompressor.writeBits encodedPath out2
    let out4 := FileCompressor.writeBits encodedContent out3
    writeGlobalRecords tree rest out4

/-- `FolderCompressor::compressWithGlobalTree`, from the files of the folder
to the bytes of the archive; `none` is `return false`. -/
def compressWithGlobalTree (order : IterationOrder) (tie : List (Byte × Int) → Nat → Nat)
    (files : List FileEntry) : Option (List Byte) :=
  if files.isEmpty then none
  else
    let globalTree := makeTree tie (globalCharFreqs order files)
    let treeWriter := (TreeSerializer.serialize globalTree.root (BitWriter.new [71])).flush
    let out := VarInt.write treeWriter.out files.length
    some (writeGlobalRecords globalTree files out)

/-- The loop of `compressWithSeparateTrees`: per file a tree of its own, the
two lengths and the packed bits without a length header. -/
def writeSeparateRecords (order : IterationOrder) (tie : List (Byte × Int) → Nat → Nat) :
    List FileEntry → List Byte → List Byte
  | [], out => out
  | file :: rest, out =>
    let charFreqs := getFrequencies order (file.relativePath ++ file.content)
    let tree := makeTree tie charFreqs
    let treeWriter := (TreeSerializer.serialize tree.root (BitWriter.new out)).flush
    let encodedPath := tree.encode file.relativePath
    let encodedContent := tree.encode file.content
    let out1 := VarInt.write treeWriter.out encodedPath.length
    let out2 := VarInt.write out1 encodedContent.length
    let out3 := out2 ++ packBits encodedPath
    let out4 := out3 ++ packBits encodedContent
    writeSeparateRecords order tie rest out4

/-- `FolderCompressor::compressWithSeparateTrees`. -/
def compressWithSeparateTrees (order : IterationOrder) (tie : List (Byte × Int) → Nat → Nat)
    (files : List FileEntry) : Option (List Byte) :=
  if files.isEmpty then none
  else
    some (writeSeparateRecords order tie files (VarInt.write [83] files.length))

/-- The loop `for (i = 0; i < fileCount; i++)` of `decompressGlobal`, with
`n` iterations left: the files written, in order. -/
def readGlobalRecords (root : HuffmanNode) : Nat → List Byte → List FileEntry
  | 0, _ => []
  | n + 1, input =>
    let pathBits := VarInt.decode input
    let contentBits := VarInt.decode pathBits.2
    let encodedPath := FileCompressor.readBits contentBits.2 (-1)
    let relativePath := decodeWithRoot root encodedPath.1
    let encodedContent := FileCompressor.readBits encodedPath.2 (-1)
    let content := decodeWithRoot root encodedContent.1
    ⟨relativePath, content⟩ :: readGlobalRecords root n encodedContent.2

/-- `FolderCompressor::decompressGlobal`: the files written under the output
folder, each with the relative path it was written at; `none` is
`return false`. -/
def decompressGlobal (archive : List Byte) : Option (List FileEntry) :=
  match archive with
  | [] => none
  | magic :: body =>
    if magic ≠ 71 then none
    else
      match TreeSerializer.deserialize (BitReader.new body) with
      | (.null, _) => none
      | (root, treeReader) =>
        let fileCount := VarInt.decode treeReader.input
        some (readGlobalRecords root fileCount.1 fileCount.2)

/-- The loop of `decompressSeparate`, with `n` iterations left: the files
written, in order. The `uint32_t` lengths are passed to
`FileCompressor::readBits`, whose parameter is an `int`. -/
def readSeparateRecords : Nat → List Byte → List FileEntry
  | 0, _ => []
  | n + 1, input =>
    let tree := TreeSerializer.deserialize (BitReader.new input)
    let root := tree.1
    let pathBits := VarInt.decode tree.2.input
    let contentBits := VarInt.decode pathBits.2
    let encodedPath := FileCompressor.readBits contentBits.2 (toInt32 pathBits.1)
    let relativePath := decodeWithRoot root encodedPath.1
    let encodedContent := FileCompressor.readBits encodedPath.2 (toInt32 contentBits.1)
    let content := decodeWithRoot root encodedContent.1
    ⟨relativePath, content⟩ :: readSeparateRecords n encodedContent.2

/-- `FolderCompressor::decompressSeparate`. -/
def decompressSeparate (archive : List Byte) : Option (List FileEntry) :=
  match archive with
  | [] => none
  | magic :: body =>
    if magic ≠ 83 then none
    else
      let fileCount := VarInt.decode body
      some (readSeparateRecords fileCount.1 fileCount.2)

end FolderCompressor

/-! ## Notions used to state the properties -/

/-- A well-formed tree: not null, and every node is either a leaf or has two
well-formed children. -/
inductive Full : HuffmanNode → Prop
  | leaf (c : Byte) (f : Int) : Full (.node c f .null .null)
  | inner (c : Byte) (f : Int) (l r : HuffmanNode) :
      Full l → Full r → Full (.node c f l r)

/-- The `(character, frequency)` pairs of the leaves, left to right. -/
def leafPairs : HuffmanNode → List (Byte × Int)
  | .null => []
  | .node c f .null .null => [(c, f)]
  | .node _ _ l r => leafPairs l ++ leafPairs r

/-- The characters of the leaves, left to right. -/
def leafChars (t : HuffmanNode) : List Byte :=
  (leafPairs t).map (fun p => p.1)

/-- The leaves with their paths from the root: `'0'` for a step to the left
child, `'1'` for a step to the right child. -/
def paths : HuffmanNode → List (Byte × BitString)
  | .null => []
  | .node c _ .null .null => [(c, [])]
  | .node _ _ l r =>
    (paths l).map (fun p => (p.1, '0' :: p.2)) ++ (paths r).map (fun p => (p.1, '1' :: p.2))

/-- The lowest `n` bits of a byte, the most significant of them first. -/
def lowBits (b : Byte) : Nat → List Bool
  | 0 => []
  | i + 1 => decide ((b.val >>> i) &&& 1 = 1) :: lowBits b i

/-- The eight bits of a byte, most significant first. -/
def byteBits (b : Byte) : List Bool :=
  lowBits b 8

/-- The bits of a byte sequence, in the order a `BitReader` delivers them. -/
def bytesBits (bytes : List Byte) : List Bool :=
  bytes.flatMap byteBits

/-- The byte whose bits, most significant first, are the given ones. -/
def bitsByte (bits : List Bool) : Byte :=
  Fin.ofNat (bits.foldl (fun acc b => 2 * acc + (if b then 1 else 0)) 0)

/-- The bits `TreeSerializer::serialize` writes for a tree. -/
def treeBits : HuffmanNode → List Bool
  | .null => []
  | .node c _ .null .null => false :: byteBits c
  | .node _ _ l r => true :: (treeBits l ++ treeBits r)

/-- The tree with every frequency and the character of every inner node set
to 0: what is left of a tree after it went through a file. -/
def skeleton : HuffmanNode → HuffmanNode
  | .null => .null
  | .node c _ .null .null => .node c 0 .null .null
  | .node _ _ l r => .node 0 0 (skeleton l) (skeleton r)

/-- The bits a writer holds in its buffer. -/
def BitWriter.pending (w : BitWriter) : List Bool :=
  (byteBits w.buffer).drop (8 - w.bitCount)

/-- All bits a writer has accepted: those of the bytes it put out, then those
in its buffer. -/
def BitWriter.bits (w : BitWriter) : List Bool :=
  bytesBits w.out ++ w.pending

/-- The bits a reader will deliver: those left in its buffer, then those of
the bytes of the stream. -/
def BitReader.stream (r : BitReader) : List Bool :=
  (byteBits r.buffer).take r.bitCount ++ bytesBits r.input

/-- The character `readBits` produces for a bit. -/
def bitChar (b : Bool) : Char :=
  if b then '1' else '0'

/-- The bytes `serialize` followed by `flush` write for a tree on a fresh
stream. -/
def treeBytes (t : HuffmanNode) : List Byte :=
  (TreeSerializer.serialize t (BitWriter.new [])).flush.out

/-! ## Inputs used as examples -/

/-- The `i`-th file of a large folder: an empty file whose name is `ab`
followed by the four bytes of `i`. -/
def numberedFile (i : Nat) : FileEntry :=
  ⟨[97, 98, Fin.ofNat i, Fin.ofNat (i / 256), Fin.ofNat (i / 65536), Fin.ofNat (i / 16777216)], []⟩

/-- A small folder: a file in a subdirectory, an empty file and a file with
the content of the first. -/
def sampleFolder : List FileEntry :=
  [⟨[97, 47, 98], [1, 2, 3, 1, 1]⟩, ⟨[99, 100], []⟩, ⟨[101, 102], [1, 2, 3, 1, 1]⟩]

/-! ## Notions used to state the optimality of the tree -/

/-- The leaves of a tree with their `(character, frequency)` pair and their
path from the root. -/
def weightedPaths : HuffmanNode → List ((Byte × Int) × BitString)
  | .null => []
  | .node c f .null .null => [((c, f), [])]
  | .node _ _ l r =>
    (weightedPaths l).map (fun e => (e.1, '0' :: e.2)) ++
      (weightedPaths r).map (fun e => (e.1, '1' :: e.2))

/-- The weighted path length of a tree: the sum over the leaves of frequency
times depth. -/
def treeCost (t : HuffmanNode) : Int :=
  ((weightedPaths t).map (fun e => e.1.2 * (e.2.length : Int))).sum

/-- The sum of the frequencies of the leaves of a tree. -/
def treeWeight (t : HuffmanNode) : Int :=
  ((leafPairs t).map (fun p => p.2)).sum

/-- The multisets of depths of the leaves of the binary trees in which every
inner node has two children: a single leaf at depth 0, and from there any
leaf may be replaced by two leaves one level further down. -/
inductive Shape : Multiset Nat → Prop
  | single : Shape {0}
  | split (D : Multiset Nat) (d : Nat) : Shape (d ::ₘ D) → Shape ((d + 1) ::ₘ (d + 1) ::ₘ D)

/-- The cost of giving weights to depths: the sum of weight times depth. -/
def assignmentCost (M : Multiset (Int × Nat)) : Int :=
  (M.map (fun p => p.1 * (p.2 : Int))).sum

/-- What the loop keeps true of the queue when the counts are positive and
their total is below `2^31`: the trees are well formed, the frequency of a
root is the sum of the frequencies of its leaves, and no sum overflows. -/
def QueueSound (heap : List HuffmanNode) : Prop :=
  (∀ t ∈ heap, Full t ∧ t.frequency = treeWeight t ∧ ∀ p ∈ leafPairs t, 0 < p.2) ∧
    (heap.map treeWeight).sum < 2 ^ 31

/-- The invariant behind the optimality: the cost already built into the
trees of the queue plus the cost of some assignment of the root frequencies
to leaf depths stays below a fixed bound. -/
def CostBelow (bound : Int) (heap : List HuffmanNode) : Prop :=
  QueueSound heap ∧ ∃ M : Multiset (Int × Nat), Shape (M.map (fun p => p.2)) ∧
    M.map (fun p => p.1) = ((heap.map (fun t => t.frequency) : List Int) : Multiset Int) ∧
    (heap.map treeCost).sum + assignmentCost M ≤ bound

/-- The code words that start with the bit `b`, without that bit, each with
its weight. -/
def codesBelow (b : Bool) (A : List (Int × List Bool)) : List (Int × List Bool) :=
  A.filterMap (fun a =>
    match a.2 with
    | [] => none
    | c :: t => if c = b then some (a.1, t) else none)

/-! ## What the code prints on `std::cerr` -/

/-- The message a call of `decode` or `decodeWithRoot` prints on `std::cerr`:
nothing, the warning `编码字符串不完整` (the encoded string is incomplete) that
comes before `return decodedString`, or one of the three errors that come
before `return ""`. -/
inductive DecodeMessage where
  | silent
  | warnIncomplete
  | errorNullRoot
  | errorInvalidChar
  | errorInvalidPath
  deriving DecidableEq

/-- The loop of `decodeWithRoot` and of `decode` together with the check
`if (current != root)` that follows it: the string returned and the message
printed. `current` is `root` itself or a node below it, so comparing the
nodes compares the pointers. -/
def decodeLoopLogged (root : HuffmanNode) :
    HuffmanNode → List Byte → BitString → List Byte × DecodeMessage
  | current, decoded, [] =>
    (decoded, if current ≠ root then .warnIncomplete else .silent)
  | current, decoded, bit :: rest =>
    if bit = '0' then
      match current.left with
      | .null => ([], .errorInvalidPath)
      | next =>
        if next.isLeaf then decodeLoopLogged root root (decoded ++ [next.character]) rest
        else decodeLoopLogged root next decoded rest
    else if bit = '1' then
      match current.right with
      | .null => ([], .errorInvalidPath)
      | next =>
        if next.isLeaf then decodeLoopLogged root root (decoded ++ [next.character]) rest
        else decodeLoopLogged root next decoded rest
    else ([], .errorInvalidChar)

/-- `HuffmanTree::decodeWithRoot(root, encodedString)` with the message it
prints. -/
def decodeWithRootLogged (root : HuffmanNode) (encodedString : BitString) :
    List Byte × DecodeMessage :=
  match root with
  | .null => ([], .errorNullRoot)
  | _ => decodeLoopLogged root root [] encodedString

/-- Method `HuffmanTree::decode(encodedString)` with the message it prints. -/
def HuffmanTree.decodeLogged (tree : HuffmanTree) (encodedString : BitString) :
    List Byte × DecodeMessage :=
  decodeWithRootLogged tree.root encodedString

/-- The bytes for which `HuffmanTree::encode` prints its warning `不在编码表中`
(not in the code table), in the order of the text. -/
def HuffmanTree.encodeWarnings (tree : HuffmanTree) : List Byte → List Byte
  | [] => []
  | ch :: rest =>
    match tree.codeTable.find ch with
    | some _ => encodeWarnings tree rest
    | none => ch :: encodeWarnings tree rest

/-! ## FolderCompressor.hpp: the dispatcher and the bit helpers -/

namespace FolderCompressor

/-- `FolderCompressor::writeBits(bits, out)`, a copy of the one of
`FileCompressor`. -/
def writeBits (bits : BitString) (out : List Byte) : List Byte :=
  out ++ int32Bytes (toInt32 bits.length) ++ packBits bits

/-- `FolderCompressor::readBits(in, bitCount)` with `bitCount` a `uint32_t`:
`bitCount + 7` is computed in 32 bits without sign. Returns the bit string
and the rest of the stream. -/
def readBits (input : List Byte) (bitCount : Nat) : BitString × List Byte :=
  let bytesToRead := (bitCount + 7) % 2 ^ 32 / 8
  unpackLoop bitCount bytesToRead [] input

/-- `FolderCompressor::decompress(archivePath)`: reads the tag, closes the
file and hands the archive to the reader of its format, which reads it from
the start. The tag of an empty archive is never assigned; the model lets that
read fail. -/
def decompress (archive : List Byte) : Option (List FileEntry) :=
  match archive with
  | [] => none
  | magic :: _ =>
    if magic = 71 then decompressGlobal archive
    else if magic = 83 then decompressSeparate archive
    else if magic = 70 then none
    else none

end FolderCompressor

/-! ## main.cpp: the choice between the two folder archives -/

namespace Main

/-- The temporary archive that the folder branch of `main` renames to
`defaultOutput`; the other one is removed. -/
inductive Kept where
  | globalTemp
  | separateTemp
  deriving DecidableEq

/-- The test `if (globalSize <= separateSize)` of `main` with its two
branches. The sizes are what `fs::file_size` returns. -/
def keep (globalSize separateSize : Nat) : Kept :=
  if globalSize ≤ separateSize then .globalTemp else .separateTemp

/-- The bytes found under `defaultOutput` when the folder branch of `main`
is done, from the bytes of the two temporary archives. -/
def defaultOutput (globalTemp separateTemp : List Byte) : List Byte :=
  match keep globalTemp.length separateTemp.length with
  | .globalTemp => globalTemp
  | .separateTemp => separateTemp

/-- The folder branch of `main` from the first compressor call on: both
archives are written, then one is kept; `none` is `return 1`. -/
def compressFolder (order : IterationOrder) (tie : List (Byte × Int) → Nat → Nat)
    (files : List FileEntry) : Option (List Byte) :=
  match FolderCompressor.compressWithGlobalTree order tie files with
  | none => none
  | some globalTemp =>
    match FolderCompressor.compressWithSeparateTrees order tie files with
    | none => none
    | some separateTemp => some (defaultOutput globalTemp separateTemp)

end Main

/-! ## File names -/

/-- The string `".huf"`. -/
def hufExtension : List Byte := [46, 104, 117, 102]

/-- `text.find(pattern)` of `std::string`: the index of the first place where
`pattern` occurs in `text`, `none` for `npos`. -/
def stringFind (pattern : List Byte) : List Byte → Option Nat
  | [] => if pattern.isEmpty then some 0 else none
  | c :: rest =>
    if pattern.isPrefixOf (c :: rest) then some 0
    else (stringFind pattern rest).map (fun pos => pos + 1)

namespace FileCompressor

/-- The local `outputFile` of `compress`: `inputFile + ".huf"`. -/
def compressOutputFile (inputFile : List Byte) : List Byte :=
  inputFile ++ hufExtension

/-- The local `outputFile` of `decompress`: the name without its last four
characters; `none` is the `return false` for a name that does not end in
`.huf`. -/
def decompressOutputFile (inputFile : List Byte) : Option (List Byte) :=
  if inputFile.length < 4 ∨ inputFile.drop (inputFile.length - 4) ≠ hufExtension then none
  else some (inputFile.take (inputFile.length - 4))

end FileCompressor

namespace FolderCompressor

/-- The local `outputFile` of `compressWithGlobalTree` and of
`compressWithSeparateTrees`: `folderPath + ".huf"`. -/
def compressOutputFile (folderPath : List Byte) : List Byte :=
  folderPath ++ hufExtension

/-- The local `outputFolder` of `decompressGlobal` and of
`decompressSeparate`: the archive path up to the first `.huf` in it, or the
whole path when there is none. -/
def outputFolder (archivePath : List Byte) : List Byte :=
  match stringFind hufExtension archivePath with
  | some pos => archivePath.take pos
  | none => archivePath

end FolderCompressor

/-! ## Notions used to state the decoder's walk and the layout of the archives -/

/-- The walk of the decoder as the specification describes it: bit 0 moves to
the left child, bit 1 to the right child; on reaching a leaf its byte is
emitted and the walk is reset to the root. The result is `none` when a step
finds no child to move to; otherwise it holds the bytes emitted and the node
at which the walk ends. -/
def walk (root : HuffmanNode) : HuffmanNode → List Bool → Option (List Byte × HuffmanNode)
  | current, [] => some ([], current)
  | current, bit :: rest =>
    match (if bit then current.right else current.left) with
    | .null => none
    | next =>
      if next.isLeaf then (walk root root rest).map (fun res => (next.character :: res.1, res.2))
      else walk root next rest

/-- The number a sequence of raw bytes holds, least significant byte first. -/
def rawValue : List Byte → Nat
  | [] => 0
  | b :: rest => b.val + 256 * rawValue rest

/-- The bytes are the serialized tree `t`, padded with zero bits to a whole
number of bytes. -/
def IsPaddedTree (bytes : List Byte) (t : HuffmanNode) : Prop :=
  ∃ k, k < 8 ∧ bytesBits bytes = treeBits t ++ List.replicate k false

/-- The bytes are the number `n` as a 4-byte raw integer. -/
def IsRawLength (bytes : List Byte) (n : Nat) : Prop :=
  bytes.length = 4 ∧ rawValue bytes = n

/-- The bytes are the VarInt of the number `n` as the specification describes
the format: each byte holds the low 7 bits of the value that remains, the
value that remains is shifted right by 7 bits from one byte to the next, the
top bit is set on every byte but the last and clear on the last, and the last
byte is the first one at which the value that remains is below 128. A number
has one such byte sequence. -/
def IsVarInt : List Byte → Nat → Prop
  | [], _ => False
  | b :: rest, n =>
    if n < 128 then b.val = n ∧ rest = []
    else b.val = 128 + n % 128 ∧ IsVarInt rest (n / 128)

/-- The bytes hold the bit string packed from the most significant bit on,
in `ceil(length / 8)` bytes, the last one filled up with zero bits. -/
def IsPacked (bytes : List Byte) (bits : BitString) : Prop :=
  bytes.length = (bits.length + 7) / 8 ∧
    (bytesBits bytes).map bitChar = bits ++ List.replicate (8 * bytes.length - bits.length) '0'

/-- The bytes are the record of `file` in an archive with one tree: the
VarInt of the path's bit length, the VarInt of the content's bit length, the
packed path bits behind their 4-byte length and the packed content bits
behind their 4-byte length. -/
def IsGlobalRecord (tree : HuffmanTree) (file : FileEntry) (record : List Byte) : Prop :=
  ∃ pathCount contentCount pathLength pathPacked contentLength contentPacked : List Byte,
    record = pathCount ++ (contentCount ++ (pathLength ++ (pathPacked ++
      (contentLength ++ contentPacked)))) ∧
    IsVarInt pathCount (tree.encode file.relativePath).length ∧
    IsVarInt contentCount (tree.encode file.content).length ∧
    IsRawLength pathLength (tree.encode file.relativePath).length ∧
    IsPacked pathPacked (tree.encode file.relativePath) ∧
    IsRawLength contentLength (tree.encode file.content).length ∧
    IsPacked contentPacked (tree.encode file.content)

/-! ## More inputs used as examples -/

/-- A tree with the codes `0`, `10` and `11` for the bytes `a`, `b` and `c`. -/
def sampleTree : HuffmanNode :=
  .node 0 0 (.node 97 0 .null .null)
    (.node 0 0 (.node 98 0 .null .null) (.node 99 0 .null .null))

/-- The name `my.huffman`. -/
def sampleName : List Byte := [109, 121, 46, 104, 117, 102, 102, 109, 97, 110]

/-! ## Notions used to state the properties of the bit streams and of the tree -/

/-- The bit sequence `bits` handed to `writeBit` one call after the other,
each bit as the argument 0 or 1. -/
def BitWriter.writeBitList (w : BitWriter) (bits : List Bool) : BitWriter :=
  bits.foldl (fun acc b => acc.writeBit (if b then 1 else 0)) w

/-- The results of `n` calls of `readBit` one after the other, and the
reader after them. -/
def BitReader.readBitList : Nat → BitReader → List Int × BitReader
  | 0, r => ([], r)
  | n + 1, r =>
    let res := r.readBit
    let more := readBitList n res.2
    (res.1 :: more.1, more.2)

/-- The value that `readBit` returns for a bit. -/
def bitValue (b : Bool) : Int :=
  if b then 1 else 0

/-- A tree in which every inner node has two children and holds the sum of
the frequencies of its children. -/
inductive Summed : HuffmanNode → Prop
  | leaf (c : Byte) (f : Int) : Summed (.node c f .null .null)
  | inner (c : Byte) (l r : HuffmanNode) :
      Summed l → Summed r → Summed (.node c (l.frequency + r.frequency) l r)

/-- What the loop of `buildFromFrequencies` keeps true of the queue when no
count is negative and the total is below `2^31`: every tree is well formed,
every inner node holds the sum of the frequencies of its children, the
frequency of a root is the sum of the frequencies of its leaves, and no sum
overflows. -/
def QueueSummed (heap : List HuffmanNode) : Prop :=
  (∀ t ∈ heap, Full t ∧ Summed t ∧ t.frequency = treeWeight t ∧ ∀ p ∈ leafPairs t, 0 ≤ p.2) ∧
    (heap.map treeWeight).sum < 2 ^ 31

/-- A table of five `int` counts, two of them negative, with the total
`2^31 - 3`. -/
def signedTable : List (Byte × Int) :=
  [(97, -2147483648), (98, -2147483648), (99, 2147483647), (100, 2147483647),
    (101, 2147483647)]

/-- The bytes are the record of `file` in an archive with one tree per file:
the serialized tree of the file padded to whole bytes, the VarInt of the
path's bit length, the VarInt of the content's bit length, the packed path
bits and the packed content bits. -/
def IsSeparateRecord (tree : HuffmanTree) (file : FileEntry) (record : List Byte) : Prop :=
  ∃ treeField pathCount contentCount pathPacked contentPacked : List Byte,
    record = treeField ++ (pathCount ++ (contentCount ++ (pathPacked ++ contentPacked))) ∧
    IsPaddedTree treeField tree.root ∧
    IsVarInt pathCount (tree.encode file.relativePath).length ∧
    IsVarInt contentCount (tree.encode file.content).length ∧
    IsPacked pathPacked (tree.encode file.relativePath) ∧
    IsPacked contentPacked (tree.encode file.content)
namespace VarInt

theorem and_7F (v : Nat) : v &&& 0x7F = v % 128 :=
  Nat.and_pow_two_sub_one_eq_mod v 7

theorem or_80 (a : Nat) (h : a < 128) : a ||| 0x80 = a + 128 := by
  have := Nat.mul_add_lt_is_or (i := 7) (b := a) (by simpa using h) 1
  simp only [Nat.reducePow, mul_one] at this
  rw [Nat.lor_comm, ← this]; omega

theorem and_80_eq_zero (a : Nat) (h : a < 128) : a &&& 0x80 = 0 := by
  have := Nat.and_two_pow a 7
  simp only [Nat.reducePow] at this
  rw [this, Nat.testBit_eq_false_of_lt (by simpa using h)]; rfl

theorem and_80_ne_zero (a : Nat) (h : a < 128) : (a + 128) &&& 0x80 ≠ 0 := by
  have := Nat.and_two_pow (a + 128) 7
  simp only [Nat.reducePow] at this
  rw [this]
  have : (a + 128).testBit 7 = true := by
    have h1 := Nat.testBit_two_pow_add_eq a 7
    have h2 : a.testBit 7 = false := Nat.testBit_eq_false_of_lt (by simpa using h)
    rw [h2] at h1
    rw [Nat.add_comm]; exact h1
  rw [this]; decide

theorem or_shift (r b s : Nat) (h : r < 2 ^ s) : r ||| (b <<< s) = r + b * 2 ^ s := by
  rw [Nat.shiftLeft_eq, Nat.lor_comm, Nat.mul_comm, ← Nat.mul_add_lt_is_or h]; omega

theorem decodeLoop_encodeLoop (fuel : Nat) : ∀ (v result shift : Nat) (rest : List Byte),
    v ≤ fuel → result < 2 ^ shift → result + v * 2 ^ shift < 2 ^ 32 →
    decodeLoop result shift (encodeLoop fuel v ++ rest) = (result + v * 2 ^ shift, rest) := by
  induction fuel with
  | zero =>
    intro v result shift rest hv hr hb
    have hv0 : v = 0 := by omega
    subst hv0
    simp [encodeLoop, decodeLoop, Fin.ofNat]
    omega
  | succ fuel ih =>
    intro v result shift rest hv hr hb
    unfold encodeLoop
    split
    · rename_i hge
      have hlt : v % 128 < 128 := Nat.mod_lt _ (by decide)
      have hbyte : (Fin.ofNat ((v &&& 0x7F) ||| 0x80) : Byte).val = v % 128 + 128 := by
        rw [and_7F, or_80 _ hlt]; simp [Fin.ofNat]; omega
      simp only [List.cons_append, decodeLoop, hbyte, List.append_eq]
      have h7 : (v % 128 + 128) &&& 0x7F = v % 128 := by rw [and_7F]; omega
      rw [h7, if_neg (and_80_ne_zero _ hlt), or_shift _ _ _ hr]
      have hpow : 2 ^ (shift + 7) = 2 ^ shift * 128 := by rw [pow_add]; rfl
      have hdiv : v >>> 7 = v / 128 := Nat.shiftRight_eq_div_pow v 7
      have hvv : v = v / 128 * 128 + v % 128 := by omega
      have hmul : v * 2 ^ shift = (v / 128) * (2 ^ shift * 128) + v % 128 * 2 ^ shift := by
        conv_lhs => rw [hvv]
        ring
      have hsmall : result + v % 128 * 2 ^ shift < 2 ^ 32 := by
        rw [hmul] at hb; omega
      rw [Nat.mod_eq_of_lt hsmall, hdiv, ih (v / 128) _ (shift + 7) rest (by omega)]
      · rw [hpow, hmul]; congr 1; ring
      · rw [hpow]
        have : v % 128 * 2 ^ shift ≤ 127 * 2 ^ shift := Nat.mul_le_mul_right _ (by omega)
        omega
      · rw [hpow]; rw [hmul] at hb; omega
    · rename_i hge
      have hlt : v < 128 := by omega
      have hbyte : (Fin.ofNat (v &&& 0x7F) : Byte).val = v := by
        rw [and_7F]; simp [Fin.ofNat]; omega
      simp only [List.singleton_append, decodeLoop, hbyte, List.append_eq]
      rw [if_pos (and_80_eq_zero _ hlt), and_7F, Nat.mod_eq_of_lt hlt, or_shift _ _ _ hr,
        Nat.mod_eq_of_lt hb, List.nil_append]

theorem encodedSizeLoop_eq (fuel : Nat) : ∀ (size v : Nat),
    encodedSizeLoop fuel size v = size + (encodeLoop fuel v).length := by
  induction fuel with
  | zero => intro size v; simp [encodedSizeLoop, encodeLoop]
  | succ fuel ih =>
    intro size v
    unfold encodedSizeLoop encodeLoop
    split
    · rw [ih]; simp; omega
    · simp

/-- Decoding an encoded 32-bit value gives the value and the rest of the stream. -/
theorem decode_encode_append (v : Nat) (hv : v < 2 ^ 32) (rest : List Byte) :
    decode (encode v ++ rest) = (v, rest) := by
  have := decodeLoop_encodeLoop v v 0 0 rest le_rfl (by decide) (by simpa using hv)
  simpa [decode, encode] using this

end VarInt

/-- C6: for every 32-bit unsigned value `v` and every byte sequence `rest`,
`VarInt::decode` on the stream `encode(v) ++ rest` returns `v` and leaves
exactly `rest` unread. -/
theorem varint_decode_encode (v : Nat) (hv : v < 2 ^ 32) (rest : List Byte) :
    VarInt.decode (VarInt.encode v ++ rest) = (v, rest) :=
  VarInt.decode_encode_append v hv rest

theorem varint_decode_encode_witness :
    (300 : Nat) < 2 ^ 32 ∧
      VarInt.decode (VarInt.encode 300 ++ [7, 9]) = (300, [7, 9]) :=
  ⟨by decide, varint_decode_encode 300 (by decide) [7, 9]⟩

/-- C7: for every 32-bit unsigned value `v`, `VarInt::encodedSize(v)` is the
number of bytes of `VarInt::encode(v)`. -/
theorem varint_encodedSize_eq_length (v : Nat) :
    VarInt.encodedSize v = (VarInt.encode v).length := by
  simp [VarInt.encodedSize, VarInt.encode, VarInt.encodedSizeLoop_eq]


/-! ## The priority queue and the construction loop -/

theorem Full.ne_null {t : HuffmanNode} (h : Full t) : t ≠ .null := by
  cases h <;> simp

theorem Full.isLeaf_inner {c : Byte} {f : Int} {l r : HuffmanNode} (hl : Full l) :
    (HuffmanNode.node c f l r).isLeaf = false := by
  cases hl <;> simp [HuffmanNode.isLeaf]

theorem leafPairs_inner {c : Byte} {f : Int} {l r : HuffmanNode} (hl : Full l) :
    leafPairs (.node c f l r) = leafPairs l ++ leafPairs r := by
  cases hl <;> simp [leafPairs]

theorem paths_inner {c : Byte} {f : Int} {l r : HuffmanNode} (hl : Full l) :
    paths (.node c f l r) =
      (paths l).map (fun p => (p.1, '0' :: p.2)) ++ (paths r).map (fun p => (p.1, '1' :: p.2)) := by
  cases hl <;> simp [paths]

theorem leafPairs_ne_nil {t : HuffmanNode} (h : Full t) : leafPairs t ≠ [] := by
  induction h with
  | leaf c f => simp [leafPairs]
  | inner c f l r hl hr ihl ihr => rw [leafPairs_inner hl]; simp [ihl]

theorem leafPairs_length_pos {t : HuffmanNode} (h : Full t) : 0 < (leafPairs t).length :=
  List.length_pos.mpr (leafPairs_ne_nil h)

theorem mem_topCandidates {heap : List HuffmanNode} {x : HuffmanNode} :
    x ∈ topCandidates heap ↔ x ∈ heap ∧ ∀ y ∈ heap, x.frequency ≤ y.frequency := by
  simp [topCandidates, cmp]

theorem exists_least_frequency : ∀ (heap : List HuffmanNode), heap ≠ [] →
    ∃ x ∈ heap, ∀ y ∈ heap, x.frequency ≤ y.frequency
  | [], h => absurd rfl h
  | [a], _ => ⟨a, by simp, by simp⟩
  | a :: b :: rest, _ => by
    obtain ⟨x, hx, hmin⟩ := exists_least_frequency (b :: rest) (by simp)
    by_cases hax : a.frequency ≤ x.frequency
    · refine ⟨a, by simp, ?_⟩
      intro y hy
      rcases List.mem_cons.mp hy with rfl | hy
      · exact le_rfl
      · exact le_trans hax (hmin y hy)
    · refine ⟨x, List.mem_cons_of_mem _ hx, ?_⟩
      intro y hy
      rcases List.mem_cons.mp hy with rfl | hy
      · omega
      · exact hmin y hy

theorem topCandidates_ne_nil {heap : List HuffmanNode} (h : heap ≠ []) :
    topCandidates heap ≠ [] := by
  obtain ⟨x, hx, hmin⟩ := exists_least_frequency heap h
  exact List.ne_nil_of_mem (mem_topCandidates.mpr ⟨hx, hmin⟩)

theorem heapTop_mem_topCandidates (tie : Nat) {heap : List HuffmanNode} (h : heap ≠ []) :
    heapTop tie heap ∈ topCandidates heap := by
  have hpos : 0 < (topCandidates heap).length := List.length_pos.mpr (topCandidates_ne_nil h)
  have hlt : tie % (topCandidates heap).length < (topCandidates heap).length := Nat.mod_lt _ hpos
  unfold heapTop
  rw [List.getD_eq_getElem _ _ hlt]
  exact List.getElem_mem _

theorem heapTop_mem (tie : Nat) {heap : List HuffmanNode} (h : heap ≠ []) :
    heapTop tie heap ∈ heap :=
  (mem_topCandidates.mp (heapTop_mem_topCandidates tie h)).1

theorem heapTop_singleton (tie : Nat) (x : HuffmanNode) : heapTop tie [x] = x := by
  have := @heapTop_mem tie [x] (by simp)
  simpa using this

/-- An invariant of the queue that every merge step keeps holds for the one
node the loop ends with; in particular the loop ends with exactly one node. -/
theorem buildLoop_invariant (tie : Nat → Nat) (P : List HuffmanNode → Prop)
    (step : ∀ heap l r, P heap → l ∈ topCandidates heap → r ∈ topCandidates (heap.erase l) →
      P (.node 0 (toInt32 (l.frequency + r.frequency)) l r :: (heap.erase l).erase r)) :
    ∀ (fuel k : Nat) (heap : List HuffmanNode), P heap → heap ≠ [] → heap.length ≤ fuel + 1 →
      ∃ root, (buildLoop tie fuel k heap).2 = [root] ∧ P [root] := by
  intro fuel
  induction fuel with
  | zero =>
    intro k heap hP hne hlen
    match heap, hne, hlen with
    | [x], _, _ => exact ⟨x, rfl, hP⟩
    | _ :: _ :: _, _, hlen => simp at hlen
  | succ fuel ih =>
    intro k heap hP hne hlen
    unfold buildLoop
    by_cases h1 : heap.length > 1
    · rw [if_pos h1]
      have hl := heapTop_mem_topCandidates (tie k) hne
      have hlmem := heapTop_mem (tie k) hne
      have hlen1 : (heap.erase (heapTop (tie k) heap)).length = heap.length - 1 :=
        List.length_erase_of_mem hlmem
      have hne1 : heap.erase (heapTop (tie k) heap) ≠ [] := by
        intro h0; rw [h0] at hlen1; simp at hlen1; omega
      have hr := heapTop_mem_topCandidates (tie (k + 1)) hne1
      have hrmem := heapTop_mem (tie (k + 1)) hne1
      have hlen2 := List.length_erase_of_mem hrmem
      apply ih
      · exact step heap _ _ hP hl hr
      · simp [heapPush]
      · simp only [heapPush, heapPop, List.length_cons]
        rw [hlen2, hlen1]; omega
    · rw [if_neg h1]
      match heap, hne, h1 with
      | [x], _, _ => exact ⟨x, rfl, hP⟩
      | _ :: _ :: _, _, h1 => simp at h1

theorem pushLeaves_perm : ∀ (charFreqs : List (Byte × Int)) (heap : List HuffmanNode),
    (pushLeaves heap charFreqs).Perm
      (charFreqs.map (fun p => HuffmanNode.node p.1 p.2 .null .null) ++ heap)
  | [], heap => by simp [pushLeaves]
  | p :: rest, heap => by
    simp only [pushLeaves, heapPush, List.map_cons, List.cons_append]
    refine (pushLeaves_perm rest _).trans ?_
    exact List.perm_middle

theorem pushLeaves_nil_perm (charFreqs : List (Byte × Int)) :
    (pushLeaves [] charFreqs).Perm
      (charFreqs.map (fun p => HuffmanNode.node p.1 p.2 .null .null)) := by
  simpa using pushLeaves_perm charFreqs []

/-- The leaves of all trees of a queue. -/
theorem flatMap_leafPairs_leaves (charFreqs : List (Byte × Int)) :
    (charFreqs.map (fun p => HuffmanNode.node p.1 p.2 .null .null)).flatMap leafPairs
      = charFreqs := by
  induction charFreqs with
  | nil => rfl
  | cons p rest ih => simp [List.flatMap_cons, leafPairs, ih]

/-- The step of the loop keeps the trees well formed and keeps their leaves. -/
theorem merge_step_leaves (heap : List HuffmanNode) (l r : HuffmanNode) (leaves : List (Byte × Int))
    (h : (∀ t ∈ heap, Full t) ∧ (heap.flatMap leafPairs).Perm leaves)
    (hl : l ∈ topCandidates heap) (hr : r ∈ topCandidates (heap.erase l)) :
    (∀ t ∈ (.node 0 (toInt32 (l.frequency + r.frequency)) l r :: (heap.erase l).erase r), Full t) ∧
      ((HuffmanNode.node 0 (toInt32 (l.frequency + r.frequency)) l r ::
        (heap.erase l).erase r).flatMap leafPairs).Perm leaves := by
  obtain ⟨hfull, hperm⟩ := h
  have hlmem := (mem_topCandidates.mp hl).1
  have hrmem := (mem_topCandidates.mp hr).1
  have hlf := hfull l hlmem
  have hrf := hfull r (List.mem_of_mem_erase hrmem)
  constructor
  · intro t ht
    rcases List.mem_cons.mp ht with rfl | ht
    · exact Full.inner _ _ _ _ hlf hrf
    · exact hfull t (List.mem_of_mem_erase (List.mem_of_mem_erase ht))
  · have p1 : heap.Perm (l :: r :: (heap.erase l).erase r) :=
      (List.perm_cons_erase hlmem).trans ((List.perm_cons_erase hrmem).cons l)
    have p2 := (p1.flatMap_right leafPairs)
    refine List.Perm.trans ?_ (p2.symm.trans hperm)
    simp [List.flatMap_cons, leafPairs_inner hlf]

/-- The tree built from a non-empty frequency table is well formed and its
leaves are the entries of the table, each once. -/
theorem buildFromFrequencies_full (tie : Nat → Nat) (charFreqs : List (Byte × Int))
    (hne : charFreqs ≠ []) :
    Full (buildFromFrequencies tie charFreqs) ∧
      (leafPairs (buildFromFrequencies tie charFreqs)).Perm charFreqs := by
  have hperm := pushLeaves_nil_perm charFreqs
  have hheap : pushLeaves [] charFreqs ≠ [] := by
    intro h0; rw [h0] at hperm
    have := hperm.length_eq
    simp at this
    exact hne (List.length_eq_zero.mp this.symm)
  have h0 : (∀ t ∈ pushLeaves [] charFreqs, Full t) ∧
      ((pushLeaves [] charFreqs).flatMap leafPairs).Perm charFreqs := by
    constructor
    · intro t ht
      have := hperm.mem_iff.mp ht
      obtain ⟨p, _, rfl⟩ := List.mem_map.mp this
      exact Full.leaf _ _
    · have := hperm.flatMap_right leafPairs
      rw [flatMap_leafPairs_leaves] at this
      exact this
  obtain ⟨root, hroot, hfull, hleaves⟩ := buildLoop_invariant tie
    (fun heap => (∀ t ∈ heap, Full t) ∧ (heap.flatMap leafPairs).Perm charFreqs)
    (fun heap l r h hl hr => merge_step_leaves heap l r charFreqs h hl hr)
    (pushLeaves [] charFreqs).length 0 (pushLeaves [] charFreqs) h0 hheap (by omega)
  have hbuild : buildFromFrequencies tie charFreqs = root := by
    unfold buildFromFrequencies
    have : charFreqs.isEmpty = false := by
      cases charFreqs with
      | nil => exact absurd rfl hne
      | cons _ _ => rfl
    simp only [this, Bool.false_eq_true, if_false]
    rw [hroot, heapTop_singleton]
  rw [hbuild]
  exact ⟨hfull root (by simp), by simpa using hleaves⟩

/-! ## The code table and the decoder -/

theorem lookup_filter_ne (ch ch' : Byte) (h : ch' ≠ ch) (table : CodeTable) :
    List.lookup ch' (table.filter (fun e => e.1 ≠ ch)) = List.lookup ch' table := by
  induction table with
  | nil => rfl
  | cons e rest ih =>
    obtain ⟨c, code⟩ := e
    by_cases hc : c = ch
    · have h1 : (ch' == c) = false := by rw [hc]; simpa using h
      rw [List.filter_cons_of_neg (by simpa using hc), List.lookup_cons, h1]
      exact ih
    · rw [List.filter_cons_of_pos (by simpa using hc), List.lookup_cons, List.lookup_cons, ih]

theorem find_set (table : CodeTable) (ch ch' : Byte) (code : BitString) :
    (table.set ch code).find ch' = if ch' = ch then some code else table.find ch' := by
  unfold CodeTable.set CodeTable.find
  by_cases h : ch' = ch
  · subst h; simp [List.lookup_cons]
  · have h1 : (ch' == ch) = false := by simpa using h
    rw [List.lookup_cons, h1, if_neg h]
    exact lookup_filter_ne ch ch' h table

theorem generateCodesRecursive_inner {c : Byte} {f : Int} {l r : HuffmanNode} (hl : Full l)
    (code : BitString) (table : CodeTable) :
    generateCodesRecursive (.node c f l r) code table =
      generateCodesRecursive r (code ++ ['1']) (generateCodesRecursive l (code ++ ['0']) table) := by
  cases hl <;> simp [generateCodesRecursive]

theorem leafChars_inner {c : Byte} {f : Int} {l r : HuffmanNode} (hl : Full l) :
    leafChars (.node c f l r) = leafChars l ++ leafChars r := by
  simp [leafChars, leafPairs_inner hl]

theorem paths_map_fst : ∀ {t : HuffmanNode}, Full t → (paths t).map (fun p => p.1) = leafChars t := by
  intro t h
  induction h with
  | leaf c f => simp [paths, leafChars, leafPairs]
  | inner c f l r hl hr ihl ihr =>
    rw [paths_inner hl, leafChars_inner hl, ← ihl, ← ihr]
    simp [List.map_map, Function.comp_def]

/-- What `generateCodesRecursive` leaves in the table: a character of the
subtree gets the code of one of its leaves, every other entry is kept. -/
theorem find_generateCodesRecursive {t : HuffmanNode} (h : Full t) :
    ∀ (code : BitString) (table : CodeTable) (ch : Byte),
      (ch ∈ leafChars t → ∃ p, (ch, p) ∈ paths t ∧
        (generateCodesRecursive t code table).find ch =
          some (if (code ++ p).isEmpty then ['0'] else code ++ p)) ∧
      (ch ∉ leafChars t →
        (generateCodesRecursive t code table).find ch = table.find ch) := by
  induction h with
  | leaf c f =>
    intro code table ch
    simp only [generateCodesRecursive, find_set, leafChars, leafPairs, paths, List.map_cons,
      List.map_nil, List.mem_singleton, List.append_nil]
    constructor
    · intro hc; subst hc
      exact ⟨[], by simp, by simp⟩
    · intro hc; simp [hc]
  | inner c f l r hl hr ihl ihr =>
    intro code table ch
    rw [generateCodesRecursive_inner hl, leafChars_inner hl, paths_inner hl]
    have il := ihl (code ++ ['0']) table ch
    have ir := ihr (code ++ ['1']) (generateCodesRecursive l (code ++ ['0']) table) ch
    by_cases hr' : ch ∈ leafChars r
    · obtain ⟨p, hp, hfind⟩ := ir.1 hr'
      constructor
      · intro _
        refine ⟨'1' :: p, ?_, ?_⟩
        · exact List.mem_append_right _ (List.mem_map.mpr ⟨(ch, p), hp, rfl⟩)
        · rw [hfind]; simp
      · intro hn; exact absurd (List.mem_append_right _ hr') hn
    · rw [ir.2 hr']
      by_cases hl' : ch ∈ leafChars l
      · obtain ⟨p, hp, hfind⟩ := il.1 hl'
        constructor
        · intro _
          refine ⟨'0' :: p, ?_, ?_⟩
          · exact List.mem_append_left _ (List.mem_map.mpr ⟨(ch, p), hp, rfl⟩)
          · rw [hfind]; simp
        · intro hn; exact absurd (List.mem_append_left _ hl') hn
      · constructor
        · intro hm
          rcases List.mem_append.mp hm with h1 | h1
          · exact absurd h1 hl'
          · exact absurd h1 hr'
        · intro _; exact il.2 hl'

theorem paths_ne_nil_of_inner {c : Byte} {f : Int} {l r : HuffmanNode} (hl : Full l)
    {ch : Byte} {p : BitString} (hp : (ch, p) ∈ paths (.node c f l r)) : p ≠ [] := by
  rw [paths_inner hl] at hp
  rcases List.mem_append.mp hp with h | h
  · obtain ⟨q, _, hq⟩ := List.mem_map.mp h
    have := (Prod.mk.inj hq).2
    rw [← this]; simp
  · obtain ⟨q, _, hq⟩ := List.mem_map.mp h
    have := (Prod.mk.inj hq).2
    rw [← this]; simp

/-- Every character of a path is `'0'` or `'1'`. -/
theorem paths_binary {t : HuffmanNode} (h : Full t) :
    ∀ {ch : Byte} {p : BitString}, (ch, p) ∈ paths t → ∀ b ∈ p, b = '0' ∨ b = '1' := by
  induction h with
  | leaf c f =>
    intro ch p hp b hb
    simp [paths] at hp
    rw [hp.2] at hb; simp at hb
  | inner c f l r hl hr ihl ihr =>
    intro ch p hp b hb
    rw [paths_inner hl] at hp
    rcases List.mem_append.mp hp with h | h
    · obtain ⟨q, hq, he⟩ := List.mem_map.mp h
      have := (Prod.mk.inj he).2
      rw [← this] at hb
      rcases List.mem_cons.mp hb with rfl | hb
      · exact Or.inl rfl
      · exact @ihl q.1 q.2 hq b hb
    · obtain ⟨q, hq, he⟩ := List.mem_map.mp h
      have := (Prod.mk.inj he).2
      rw [← this] at hb
      rcases List.mem_cons.mp hb with rfl | hb
      · exact Or.inr rfl
      · exact @ihr q.1 q.2 hq b hb

/-- No path of a tree is an initial segment of the path of another leaf. -/
theorem paths_pairwise {t : HuffmanNode} (h : Full t) :
    (paths t).Pairwise (fun a b => ¬ a.2 <+: b.2 ∧ ¬ b.2 <+: a.2) := by
  induction h with
  | leaf c f => simp [paths]
  | inner c f l r hl hr ihl ihr =>
    rw [paths_inner hl, List.pairwise_append]
    refine ⟨?_, ?_, ?_⟩
    · rw [List.pairwise_map]
      refine ihl.imp ?_
      intro a b hab
      simpa [List.cons_prefix_cons] using hab
    · rw [List.pairwise_map]
      refine ihr.imp ?_
      intro a b hab
      simpa [List.cons_prefix_cons] using hab
    · intro a ha b hb
      obtain ⟨qa, _, rfl⟩ := List.mem_map.mp ha
      obtain ⟨qb, _, rfl⟩ := List.mem_map.mp hb
      simp [List.cons_prefix_cons]

/-- Walking down a path from an inner node emits the character of the leaf
and puts the decoder back at the root. -/
theorem decodeLoop_path (root : HuffmanNode) {t : HuffmanNode} (h : Full t) :
    ∀ {ch : Byte} {p : BitString}, (ch, p) ∈ paths t → t.isLeaf = false →
      ∀ (decoded : List Byte) (rest : BitString),
        decodeLoop root t decoded (p ++ rest) = decodeLoop root root (decoded ++ [ch]) rest := by
  induction h with
  | leaf c f => intro ch p _ hleaf; simp [HuffmanNode.isLeaf] at hleaf
  | inner c f l r hl hr ihl ihr =>
    intro ch p hp _ decoded rest
    rw [paths_inner hl] at hp
    rcases List.mem_append.mp hp with h | h
    · obtain ⟨q, hq, he⟩ := List.mem_map.mp h
      obtain ⟨h1, h2⟩ := Prod.mk.inj he
      subst h1; subst h2
      cases hl with
      | leaf c' f' =>
        simp only [paths, List.mem_singleton] at hq
        subst hq
        simp [decodeLoop, HuffmanNode.left, HuffmanNode.isLeaf, HuffmanNode.character]
      | inner c' f' l' r' hl' hr' =>
        have hnl := Full.isLeaf_inner (c := c') (f := f') (r := r') hl'
        have := ihl hq hnl decoded rest
        simp only [List.cons_append, decodeLoop, HuffmanNode.left, if_true, hnl]
        simpa using this
    · obtain ⟨q, hq, he⟩ := List.mem_map.mp h
      obtain ⟨h1, h2⟩ := Prod.mk.inj he
      subst h1; subst h2
      have h10 : ('1' : Char) ≠ '0' := by decide
      cases hr with
      | leaf c' f' =>
        simp only [paths, List.mem_singleton] at hq
        subst hq
        simp [decodeLoop, HuffmanNode.right, HuffmanNode.isLeaf, HuffmanNode.character, h10]
      | inner c' f' l' r' hl' hr' =>
        have hnl := Full.isLeaf_inner (c := c') (f := f') (r := r') hl'
        have := ihr hq hnl decoded rest
        simp only [List.cons_append, decodeLoop, HuffmanNode.right, if_true, hnl, h10, if_false]
        simpa using this

/-! ## Frequency tables -/

theorem mem_keys_freqIncrement (wrap : Int → Int) (ch c : Byte) :
    ∀ (m : List (Byte × Int)),
      c ∈ (freqIncrement wrap m ch).map (fun p => p.1) ↔ c = ch ∨ c ∈ m.map (fun p => p.1)
  | [] => by simp [freqIncrement]
  | (k, n) :: rest => by
    unfold freqIncrement
    by_cases hk : k = ch
    · subst hk; simp
    · rw [if_neg hk]
      simp only [List.map_cons, List.mem_cons, mem_keys_freqIncrement wrap ch c rest]
      tauto

theorem mem_keys_countBytes (wrap : Int → Int) (c : Byte) :
    ∀ (content : List Byte) (m : List (Byte × Int)),
      c ∈ (countBytes wrap m content).map (fun p => p.1) ↔ c ∈ content ∨ c ∈ m.map (fun p => p.1)
  | [], m => by simp [countBytes]
  | ch :: rest, m => by
    have ih := mem_keys_countBytes wrap c rest (freqIncrement wrap m ch)
    simp only [countBytes, List.foldl_cons] at ih ⊢
    rw [ih, mem_keys_freqIncrement]
    simp only [List.mem_cons]
    tauto

theorem nodup_keys_freqIncrement (wrap : Int → Int) (ch : Byte) :
    ∀ (m : List (Byte × Int)), (m.map (fun p => p.1)).Nodup →
      ((freqIncrement wrap m ch).map (fun p => p.1)).Nodup
  | [], _ => by simp [freqIncrement]
  | (k, n) :: rest, h => by
    unfold freqIncrement
    by_cases hk : k = ch
    · rw [if_pos hk]; simpa using h
    · rw [if_neg hk]
      simp only [List.map_cons, List.nodup_cons] at h ⊢
      refine ⟨?_, nodup_keys_freqIncrement wrap ch rest h.2⟩
      rw [mem_keys_freqIncrement]
      intro hc
      rcases hc with hc | hc
      · exact hk hc
      · exact h.1 hc

theorem nodup_keys_countBytes (wrap : Int → Int) :
    ∀ (content : List Byte) (m : List (Byte × Int)), (m.map (fun p => p.1)).Nodup →
      ((countBytes wrap m content).map (fun p => p.1)).Nodup
  | [], m, h => by simpa [countBytes] using h
  | ch :: rest, m, h => by
    have ih := nodup_keys_countBytes wrap rest (freqIncrement wrap m ch)
      (nodup_keys_freqIncrement wrap ch m h)
    simpa [countBytes] using ih

theorem mem_keys_getFrequencies (order : IterationOrder) (content : List Byte) (c : Byte) :
    c ∈ (getFrequencies order content).map (fun p => p.1) ↔ c ∈ content := by
  unfold getFrequencies
  rw [((order.perm _).map _).mem_iff, mem_keys_countBytes]
  simp

theorem nodup_keys_getFrequencies (order : IterationOrder) (content : List Byte) :
    ((getFrequencies order content).map (fun p => p.1)).Nodup := by
  unfold getFrequencies
  rw [((order.perm _).map _).nodup_iff]
  exact nodup_keys_countBytes _ _ _ (by simp)

/-- A list with two different members has at least two elements. -/
theorem two_le_length_of_mem_ne {α : Type} {l : List α} {a b : α} (ha : a ∈ l) (hb : b ∈ l)
    (hab : a ≠ b) : 2 ≤ l.length := by
  match l, ha, hb with
  | [x], ha, hb =>
    simp only [List.mem_singleton] at ha hb
    exact absurd (ha.trans hb.symm) hab
  | _ :: _ :: _, _, _ => simp

/-! ## Encoding and decoding with the table of the tree -/

theorem isLeaf_false_of_two_leaves {t : HuffmanNode} (h : Full t)
    (h2 : 2 ≤ (leafPairs t).length) : t.isLeaf = false := by
  cases h with
  | leaf c f => simp [leafPairs] at h2
  | inner c f l r hl hr => exact Full.isLeaf_inner hl

/-- The code of a character of an inner root is the path of one of its leaves. -/
theorem find_generateCodeTable {root : HuffmanNode} (h : Full root) (hroot : root.isLeaf = false)
    {ch : Byte} (hch : ch ∈ leafChars root) :
    ∃ p, (ch, p) ∈ paths root ∧ p ≠ [] ∧ (generateCodesRecursive root [] []).find ch = some p := by
  obtain ⟨p, hp, hfind⟩ := (find_generateCodesRecursive h [] [] ch).1 hch
  have hne : p ≠ [] := by
    cases h with
    | leaf c f => simp [HuffmanNode.isLeaf] at hroot
    | inner c f l r hl hr => exact paths_ne_nil_of_inner hl hp
  refine ⟨p, hp, hne, ?_⟩
  rw [hfind]
  cases p with
  | nil => exact absurd rfl hne
  | cons _ _ => simp

theorem encode_binary {root : HuffmanNode} (h : Full root) (hroot : root.isLeaf = false) :
    ∀ (text : List Byte),
      ∀ bit ∈ (HuffmanTree.mk root (generateCodesRecursive root [] [])).encode text,
        bit = '0' ∨ bit = '1'
  | [], bit, hbit => by simp [HuffmanTree.encode] at hbit
  | ch :: rest, bit, hbit => by
    unfold HuffmanTree.encode at hbit
    by_cases hch : ch ∈ leafChars root
    · obtain ⟨p, hp, _, hfind⟩ := find_generateCodeTable h hroot hch
      simp only [hfind] at hbit
      rcases List.mem_append.mp hbit with hb | hb
      · exact paths_binary h hp bit hb
      · exact encode_binary h hroot rest bit hb
    · have hnone : (generateCodesRecursive root [] []).find ch = none := by
        rw [(find_generateCodesRecursive h [] [] ch).2 hch]; rfl
      simp only [hnone] at hbit
      exact encode_binary h hroot rest bit hbit

theorem decodeLoop_encode {root : HuffmanNode} (h : Full root) (hroot : root.isLeaf = false) :
    ∀ (text : List Byte), (∀ ch ∈ text, ch ∈ leafChars root) → ∀ (decoded : List Byte),
      decodeLoop root root decoded
        ((HuffmanTree.mk root (generateCodesRecursive root [] [])).encode text) = decoded ++ text
  | [], _, decoded => by simp [HuffmanTree.encode, decodeLoop]
  | ch :: rest, htext, decoded => by
    obtain ⟨p, hp, _, hfind⟩ := find_generateCodeTable h hroot (htext ch (by simp))
    unfold HuffmanTree.encode
    simp only [hfind]
    rw [decodeLoop_path root h hp hroot,
      decodeLoop_encode h hroot rest (fun c hc => htext c (List.mem_cons_of_mem _ hc))]
    simp

/-- Decoding what the table of an inner tree encodes gives the text back,
for a text made of characters of the tree. -/
theorem decodeWithRoot_encode {root : HuffmanNode} (h : Full root) (hroot : root.isLeaf = false)
    (text : List Byte) (htext : ∀ ch ∈ text, ch ∈ leafChars root) :
    decodeWithRoot root
      ((HuffmanTree.mk root (generateCodesRecursive root [] [])).encode text) = text := by
  have := decodeLoop_encode h hroot text htext []
  cases h with
  | leaf c f => simp [HuffmanNode.isLeaf] at hroot
  | inner c f l r hl hr => simpa [decodeWithRoot] using this

/-- The tree built from a table with at least two entries has an inner root. -/
theorem buildFromFrequencies_inner (tie : Nat → Nat) (charFreqs : List (Byte × Int))
    (h2 : 2 ≤ charFreqs.length) : (buildFromFrequencies tie charFreqs).isLeaf = false := by
  have hne : charFreqs ≠ [] := by intro h0; rw [h0] at h2; simp at h2
  obtain ⟨hfull, hperm⟩ := buildFromFrequencies_full tie charFreqs hne
  exact isLeaf_false_of_two_leaves hfull (by rw [hperm.length_eq]; exact h2)

theorem leafChars_buildFromFrequencies (tie : Nat → Nat) (charFreqs : List (Byte × Int))
    (hne : charFreqs ≠ []) (ch : Byte) :
    ch ∈ leafChars (buildFromFrequencies tie charFreqs) ↔ ch ∈ charFreqs.map (fun p => p.1) := by
  unfold leafChars
  exact ((buildFromFrequencies_full tie charFreqs hne).2.map _).mem_iff

theorem two_le_length_getFrequencies (order : IterationOrder) (S : List Byte)
    (h2 : ∃ a ∈ S, ∃ b ∈ S, a ≠ b) : 2 ≤ (getFrequencies order S).length := by
  obtain ⟨a, ha, b, hb, hab⟩ := h2
  have h := two_le_length_of_mem_ne ((mem_keys_getFrequencies order S a).mpr ha)
    ((mem_keys_getFrequencies order S b).mpr hb) hab
  simpa using h

/-- C10: for every byte sequence `S` with at least two distinct byte values,
whatever the order of its frequency table and the tie-breaking of the queue,
`encode(S)` consists of `'0'` and `'1'` only and `decodeWithRoot(root,
encode(S))` is `S`. -/
theorem encode_decode_two_symbols (order : IterationOrder) (tie : Nat → Nat) (S : List Byte)
    (h2 : ∃ a ∈ S, ∃ b ∈ S, a ≠ b) :
    (∀ bit ∈ ((HuffmanTree.new.buildFromFrequencies tie
        (getFrequencies order S)).generateCodeTable).encode S, bit = '0' ∨ bit = '1') ∧
      decodeWithRoot ((HuffmanTree.new.buildFromFrequencies tie
        (getFrequencies order S)).generateCodeTable).root
        (((HuffmanTree.new.buildFromFrequencies tie
          (getFrequencies order S)).generateCodeTable).encode S) = S := by
  have hlen := two_le_length_getFrequencies order S h2
  have hne : getFrequencies order S ≠ [] := by intro h0; rw [h0] at hlen; simp at hlen
  have hfull := (buildFromFrequencies_full tie _ hne).1
  have hinner := buildFromFrequencies_inner tie _ hlen
  have hmem : ∀ ch ∈ S, ch ∈ leafChars (buildFromFrequencies tie (getFrequencies order S)) := by
    intro ch hch
    rw [leafChars_buildFromFrequencies tie _ hne]
    exact (mem_keys_getFrequencies order S ch).mpr hch
  simp only [HuffmanTree.generateCodeTable, HuffmanTree.buildFromFrequencies]
  exact ⟨encode_binary hfull hinner S, decodeWithRoot_encode hfull hinner S hmem⟩

theorem encode_decode_two_symbols_witness :
    (∃ a ∈ ([97, 97, 97, 97, 98, 98, 98, 99, 99, 100] : List Byte),
      ∃ b ∈ ([97, 97, 97, 97, 98, 98, 98, 99, 99, 100] : List Byte), a ≠ b) ∧
    ((∀ bit ∈ ((HuffmanTree.new.buildFromFrequencies (fun _ => 0)
        (getFrequencies IterationOrder.insertion
          [97, 97, 97, 97, 98, 98, 98, 99, 99, 100])).generateCodeTable).encode
            [97, 97, 97, 97, 98, 98, 98, 99, 99, 100], bit = '0' ∨ bit = '1') ∧
      decodeWithRoot ((HuffmanTree.new.buildFromFrequencies (fun _ => 0)
        (getFrequencies IterationOrder.insertion
          [97, 97, 97, 97, 98, 98, 98, 99, 99, 100])).generateCodeTable).root
        (((HuffmanTree.new.buildFromFrequencies (fun _ => 0)
          (getFrequencies IterationOrder.insertion
            [97, 97, 97, 97, 98, 98, 98, 99, 99, 100])).generateCodeTable).encode
              [97, 97, 97, 97, 98, 98, 98, 99, 99, 100])
        = [97, 97, 97, 97, 98, 98, 98, 99, 99, 100]) :=
  ⟨⟨97, by decide, 98, by decide, by decide⟩,
    encode_decode_two_symbols IterationOrder.insertion (fun _ => 0)
      [97, 97, 97, 97, 98, 98, 98, 99, 99, 100] ⟨97, by decide, 98, by decide, by decide⟩⟩

/-! ## The codes of different bytes -/

theorem find_some_mem_leafChars {root : HuffmanNode} (h : Full root) {ch : Byte}
    {code : BitString} (hfind : (generateCodesRecursive root [] []).find ch = some code) :
    ch ∈ leafChars root := by
  by_contra hn
  rw [(find_generateCodesRecursive h [] [] ch).2 hn] at hfind
  simp [CodeTable.find] at hfind

theorem codes_independent_of_full {root : HuffmanNode} (hfull : Full root)
    {a b : Byte} {ca cb : BitString} (hab : a ≠ b)
    (ha : (generateCodesRecursive root [] []).find a = some ca)
    (hb : (generateCodesRecursive root [] []).find b = some cb) :
    ca ≠ cb ∧ ¬ ca <+: cb ∧ ¬ cb <+: ca := by
  have hma := find_some_mem_leafChars hfull ha
  have hmb := find_some_mem_leafChars hfull hb
  have hinner : root.isLeaf = false := by
    cases hfull with
    | leaf c f =>
      simp only [leafChars, leafPairs, List.map_cons, List.map_nil, List.mem_singleton] at hma hmb
      exact absurd (hma.trans hmb.symm) hab
    | inner c f l r hl hr => exact Full.isLeaf_inner hl
  obtain ⟨pa, hpa, _, hfa⟩ := find_generateCodeTable hfull hinner hma
  obtain ⟨pb, hpb, _, hfb⟩ := find_generateCodeTable hfull hinner hmb
  rw [hfa] at ha
  rw [hfb] at hb
  have hea : pa = ca := Option.some.inj ha
  have heb : pb = cb := Option.some.inj hb
  subst hea; subst heb
  have hsymm : Symmetric (fun (x y : Byte × BitString) => ¬ x.2 <+: y.2 ∧ ¬ y.2 <+: x.2) :=
    fun x y hxy => ⟨hxy.2, hxy.1⟩
  have hind := (paths_pairwise hfull).forall hsymm hpa hpb
    (by intro he; exact hab (Prod.mk.inj he).1)
  refine ⟨?_, hind.1, hind.2⟩
  intro he
  apply hind.1
  simp only; rw [he]

/-- C8: in the code table that `generateCodeTable` derives from the tree of
`buildFromFrequencies`, two different bytes have different codes and neither
code is an initial segment of the other. It holds for every table handed to
`buildFromFrequencies`, so for every frequency table with distinct byte values. -/
theorem codeTable_codes_independent (tie : Nat → Nat) (charFreqs : List (Byte × Int))
    (a b : Byte) (ca cb : BitString) (hab : a ≠ b)
    (ha : ((HuffmanTree.new.buildFromFrequencies tie charFreqs).generateCodeTable).codeTable.find a
      = some ca)
    (hb : ((HuffmanTree.new.buildFromFrequencies tie charFreqs).generateCodeTable).codeTable.find b
      = some cb) :
    ca ≠ cb ∧ ¬ ca <+: cb ∧ ¬ cb <+: ca := by
  simp only [HuffmanTree.generateCodeTable, HuffmanTree.buildFromFrequencies] at ha hb
  by_cases hne : charFreqs = []
  · subst hne
    simp [buildFromFrequencies, generateCodesRecursive, CodeTable.find] at ha
  · exact codes_independent_of_full (buildFromFrequencies_full tie charFreqs hne).1 hab ha hb

set_option maxRecDepth 4000 in
theorem codeTable_codes_independent_witness :
    (97 : Byte) ≠ 98 ∧
    ((HuffmanTree.new.buildFromFrequencies (fun _ => 0)
      [(97, 4), (98, 3), (99, 2), (100, 1)]).generateCodeTable).codeTable.find 97 = some ['0'] ∧
    ((HuffmanTree.new.buildFromFrequencies (fun _ => 0)
      [(97, 4), (98, 3), (99, 2), (100, 1)]).generateCodeTable).codeTable.find 98
        = some ['1', '1'] ∧
    (['0'] ≠ ['1', '1'] ∧ ¬ ['0'] <+: ['1', '1'] ∧ ¬ ['1', '1'] <+: ['0']) :=
  ⟨by decide, by decide, by decide,
    codeTable_codes_independent (fun _ => 0) [(97, 4), (98, 3), (99, 2), (100, 1)] 97 98
      ['0'] ['1', '1'] (by decide) (by decide) (by decide)⟩

/-! ## The tree of a single byte value -/

theorem buildFromFrequencies_singleton (tie : Nat → Nat) (c : Byte) (n : Int) :
    buildFromFrequencies tie [(c, n)] = .node c n .null .null := by
  simp [buildFromFrequencies, pushLeaves, heapPush, buildLoop, heapTop_singleton]

theorem decodeLoop_leaf_root (c : Byte) (n : Int) (decoded : List Byte) (bit : Char)
    (rest : BitString) :
    decodeLoop (.node c n .null .null) (.node c n .null .null) decoded (bit :: rest) = [] := by
  simp [decodeLoop, HuffmanNode.left, HuffmanNode.right]

/-- C1 at the input `"xxxx"`: the table gives `x` the code `"0"` and `encode`
returns `"0000"`, but `decodeWithRoot` on the one-leaf tree returns the empty
string, whatever the order of the table and the tie-breaking. -/
theorem single_byte_value_not_decoded (order : IterationOrder) (tie : Nat → Nat) :
    ((HuffmanTree.new.buildFromFrequencies tie
        (getFrequencies order [120, 120, 120, 120])).generateCodeTable).encode
          [120, 120, 120, 120] = ['0', '0', '0', '0'] ∧
      decodeWithRoot ((HuffmanTree.new.buildFromFrequencies tie
        (getFrequencies order [120, 120, 120, 120])).generateCodeTable).root
        (((HuffmanTree.new.buildFromFrequencies tie
          (getFrequencies order [120, 120, 120, 120])).generateCodeTable).encode
            [120, 120, 120, 120]) = [] := by
  have hcount : countBytes toInt32 [] [120, 120, 120, 120] = [(120, 4)] := by decide
  have hfreq : getFrequencies order [120, 120, 120, 120] = [(120, 4)] := by
    unfold getFrequencies
    rw [hcount]
    exact List.perm_singleton.mp (order.perm _)
  rw [hfreq]
  simp only [HuffmanTree.generateCodeTable, HuffmanTree.buildFromFrequencies,
    buildFromFrequencies_singleton]
  have henc : (HuffmanTree.mk (.node 120 4 .null .null)
      (generateCodesRecursive (.node 120 4 .null .null) [] [])).encode [120, 120, 120, 120]
      = ['0', '0', '0', '0'] := by decide
  rw [henc]
  exact ⟨rfl, by simp [decodeWithRoot, decodeLoop_leaf_root]⟩

/-! ## Bits of bytes -/

set_option maxRecDepth 100000 in
theorem bitsByte_byteBits : ∀ b : Byte, bitsByte (byteBits b) = b := by decide

set_option maxRecDepth 100000 in
theorem byteBits_shift_or : ∀ (buf : Byte) (bit : Bool),
    byteBits (Fin.ofNat ((buf.val <<< 1) ||| (if bit then 1 else 0))) =
      (byteBits buf).tail ++ [bit] := by decide

set_option maxRecDepth 100000 in
theorem byteBits_head : ∀ (buf : Byte),
    (buf.val >>> 7) &&& 1 = if (byteBits buf).head! then 1 else 0 := by decide

theorem lowBits_length (b : Byte) : ∀ n, (lowBits b n).length = n
  | 0 => rfl
  | n + 1 => by simp [lowBits, lowBits_length b n]

theorem byteBits_length (b : Byte) : (byteBits b).length = 8 :=
  lowBits_length b 8

theorem byteBits_injective {a b : Byte} (h : byteBits a = byteBits b) : a = b := by
  rw [← bitsByte_byteBits a, ← bitsByte_byteBits b, h]

theorem bytesBits_cons (b : Byte) (rest : List Byte) :
    bytesBits (b :: rest) = byteBits b ++ bytesBits rest := by
  simp [bytesBits, List.flatMap_cons]

theorem bytesBits_append (a b : List Byte) : bytesBits (a ++ b) = bytesBits a ++ bytesBits b := by
  simp [bytesBits, List.flatMap_append]

theorem bytesBits_length (l : List Byte) : (bytesBits l).length = 8 * l.length := by
  induction l with
  | nil => rfl
  | cons b rest ih => rw [bytesBits_cons, List.length_append, byteBits_length, ih]; simp; omega

theorem bytesBits_injective : ∀ {a b : List Byte}, bytesBits a = bytesBits b → a = b
  | [], [], _ => rfl
  | [], y :: ys, h => by
    have := congrArg List.length h
    rw [bytesBits_length, bytesBits_length] at this
    simp at this
  | x :: xs, [], h => by
    have := congrArg List.length h
    rw [bytesBits_length, bytesBits_length] at this
    simp at this
  | x :: xs, y :: ys, h => by
    rw [bytesBits_cons, bytesBits_cons] at h
    have := List.append_inj h (by rw [byteBits_length, byteBits_length])
    rw [byteBits_injective this.1, bytesBits_injective this.2]

theorem byteBits_shift_one (buf : Byte) :
    byteBits (Fin.ofNat (buf.val <<< 1)) = (byteBits buf).tail ++ [false] := by
  have := byteBits_shift_or buf false
  simpa using this

theorem ofNat_shiftLeft_succ (n k : Nat) :
    (Fin.ofNat (n <<< (k + 1)) : Byte) = Fin.ofNat ((Fin.ofNat (n <<< k) : Byte).val <<< 1) := by
  apply Fin.ext
  simp only [Fin.ofNat, Nat.shiftLeft_eq, pow_succ, pow_one, ← Nat.mul_assoc]
  omega

theorem byteBits_shiftLeft (buf : Byte) : ∀ (k : Nat), k ≤ 8 →
    byteBits (Fin.ofNat (buf.val <<< k)) = (byteBits buf).drop k ++ List.replicate k false
  | 0, _ => by
    have : (Fin.ofNat (buf.val <<< 0) : Byte) = buf := by
      apply Fin.ext; simp [Fin.ofNat]
    rw [this]; simp
  | k + 1, hk => by
    rw [ofNat_shiftLeft_succ, byteBits_shift_one, byteBits_shiftLeft buf k (by omega)]
    have hlen := byteBits_length buf
    rw [List.tail_append_of_ne_nil]
    · rw [List.tail_drop, List.replicate_succ', List.append_assoc]
    · intro h0
      have := congrArg List.length h0
      simp at this
      omega

/-! ## BitWriter -/

theorem and_one_cases (bit : Nat) :
    bit &&& 1 = if decide (bit &&& 1 = 1) then 1 else 0 := by
  have h := Nat.and_pow_two_sub_one_eq_mod bit 1
  simp only [pow_one, Nat.add_one_sub_one] at h
  have hlt : bit % 2 < 2 := Nat.mod_lt _ (by decide)
  rw [h]
  by_cases h1 : bit % 2 = 1
  · simp [h1]
  · have : bit % 2 = 0 := by omega
    simp [this]

theorem writeBit_bits (w : BitWriter) (bit : Nat) (hw : w.bitCount < 8) :
    (w.writeBit bit).bits = w.bits ++ [decide (bit &&& 1 = 1)] ∧ (w.writeBit bit).bitCount < 8 := by
  have hb := byteBits_shift_or w.buffer (decide (bit &&& 1 = 1))
  rw [← and_one_cases] at hb
  have hlen := byteBits_length w.buffer
  unfold BitWriter.writeBit
  by_cases h8 : w.bitCount + 1 = 8
  · simp only [h8, if_true, BitWriter.bits, BitWriter.pending]
    have h7 : w.bitCount = 7 := by omega
    rw [bytesBits_append, h7]
    simp only [bytesBits, List.flatMap_cons, List.flatMap_nil, List.append_nil]
    rw [hb]
    simp [List.append_assoc, byteBits_length]
  · simp only [h8, if_false, BitWriter.bits, BitWriter.pending]
    refine ⟨?_, by omega⟩
    rw [hb, List.append_assoc]
    congr 1
    rw [← List.drop_one, List.drop_append_of_le_length (by simp [hlen]), List.drop_drop]
    congr 2
    omega

theorem writeByteLoop_bits (byte : Byte) : ∀ (n : Nat) (w : BitWriter), w.bitCount < 8 →
    (BitWriter.writeByteLoop byte n w).bits = w.bits ++ lowBits byte n ∧
      (BitWriter.writeByteLoop byte n w).bitCount < 8
  | 0, w, hw => by simp [BitWriter.writeByteLoop, lowBits, hw]
  | n + 1, w, hw => by
    have h1 := writeBit_bits w ((byte.val >>> n) &&& 1) hw
    have h2 := writeByteLoop_bits byte n _ h1.2
    simp only [BitWriter.writeByteLoop, lowBits]
    refine ⟨?_, h2.2⟩
    rw [h2.1, h1.1, List.append_assoc]
    congr 2
    simp [Nat.and_assoc]

theorem writeByte_bits (w : BitWriter) (byte : Byte) (hw : w.bitCount < 8) :
    (w.writeByte byte).bits = w.bits ++ byteBits byte ∧ (w.writeByte byte).bitCount < 8 :=
  writeByteLoop_bits byte 8 w hw

theorem flush_out_bits (w : BitWriter) (hw : w.bitCount < 8) :
    bytesBits w.flush.out = w.bits ++ List.replicate ((8 - w.bitCount) % 8) false := by
  unfold BitWriter.flush
  by_cases h0 : w.bitCount > 0
  · rw [if_pos h0]
    simp only [BitWriter.bits, BitWriter.pending]
    rw [bytesBits_append]
    simp only [bytesBits, List.flatMap_cons, List.flatMap_nil, List.append_nil]
    rw [byteBits_shiftLeft _ _ (by omega), Nat.mod_eq_of_lt (by omega), List.append_assoc]
  · rw [if_neg h0]
    have : w.bitCount = 0 := by omega
    simp [BitWriter.bits, BitWriter.pending, this, byteBits_length]

theorem serialize_bits : ∀ (t : HuffmanNode) (w : BitWriter), w.bitCount < 8 →
    (TreeSerializer.serialize t w).bits = w.bits ++ treeBits t ∧
      (TreeSerializer.serialize t w).bitCount < 8
  | .null, w, hw => by simp [TreeSerializer.serialize, treeBits, hw]
  | .node c f .null .null, w, hw => by
    have h1 := writeBit_bits w 0 hw
    have h2 := writeByte_bits _ c h1.2
    simp only [TreeSerializer.serialize, treeBits]
    refine ⟨?_, h2.2⟩
    rw [h2.1, h1.1]; simp
  | .node c f (.node c1 f1 l1 r1) r, w, hw => by
    have h1 := writeBit_bits w 1 hw
    have h2 := serialize_bits (.node c1 f1 l1 r1) _ h1.2
    have h3 := serialize_bits r _ h2.2
    simp only [TreeSerializer.serialize, treeBits]
    refine ⟨?_, h3.2⟩
    rw [h3.1, h2.1, h1.1]; simp
  | .node c f .null (.node c1 f1 l1 r1), w, hw => by
    have h1 := writeBit_bits w 1 hw
    have h3 := serialize_bits (.node c1 f1 l1 r1) _ h1.2
    simp only [TreeSerializer.serialize, treeBits]
    refine ⟨?_, h3.2⟩
    rw [h3.1, h1.1]; simp

/-! ## BitReader -/

theorem byteBits_eq_cons (buf : Byte) :
    byteBits buf = (byteBits buf).head! :: (byteBits buf).tail := by
  have hlen := byteBits_length buf
  match h : byteBits buf with
  | [] => rw [h] at hlen; simp at hlen
  | _ :: _ => rfl

theorem takeBit_stream (r : BitReader) (h1 : 1 ≤ r.bitCount) (h8 : r.bitCount ≤ 8) :
    r.stream = (byteBits r.buffer).head! :: r.takeBit.2.stream ∧
      r.takeBit.1 = (if (byteBits r.buffer).head! then 1 else 0) ∧ r.takeBit.2.bitCount < 8 := by
  have hlen := byteBits_length r.buffer
  have hcons := byteBits_eq_cons r.buffer
  have htail : (byteBits r.buffer).tail.length = 7 := by simp [hlen]
  refine ⟨?_, ?_, ?_⟩
  · simp only [BitReader.stream, BitReader.takeBit, byteBits_shift_one]
    obtain ⟨k, hk⟩ : ∃ k, r.bitCount = k + 1 := ⟨r.bitCount - 1, by omega⟩
    rw [hk, List.take_append_of_le_length (by rw [htail]; omega)]
    conv_lhs => rw [hcons]
    simp
  · simp only [BitReader.takeBit, byteBits_head]
    split <;> simp
  · simp only [BitReader.takeBit]; omega

theorem readBit_stream (r : BitReader) (hr : r.bitCount ≤ 8) (b : Bool) (s : List Bool)
    (hs : r.stream = b :: s) :
    r.readBit.1 = (if b then 1 else 0) ∧ r.readBit.2.stream = s ∧ r.readBit.2.bitCount < 8 := by
  unfold BitReader.readBit
  by_cases h0 : r.bitCount = 0
  · rw [if_pos h0]
    match hin : r.input with
    | [] =>
      simp [BitReader.stream, h0, hin, bytesBits] at hs
    | byte :: rest =>
      simp only
      have ht := takeBit_stream ⟨rest, byte, 8⟩ (by simp) (by simp)
      have hst : r.stream = (BitReader.mk rest byte 8).stream := by
        simp [BitReader.stream, h0, hin, bytesBits_cons, byteBits_length]
      rw [hst, ht.1] at hs
      obtain ⟨hb, hs'⟩ := List.cons.inj hs
      rw [← hb, ← hs']
      exact ⟨ht.2.1, rfl, ht.2.2⟩
  · rw [if_neg h0]
    have ht := takeBit_stream r (by omega) hr
    rw [ht.1] at hs
    obtain ⟨hb, hs'⟩ := List.cons.inj hs
    rw [← hb, ← hs']
    exact ⟨ht.2.1, rfl, ht.2.2⟩

theorem readBit_stream_nil (r : BitReader) (hs : r.stream = []) :
    r.readBit = (-1, r) := by
  have hlen := byteBits_length r.buffer
  simp only [BitReader.stream, List.append_eq_nil, List.take_eq_nil_iff] at hs
  have h0 : r.bitCount = 0 := by
    rcases hs.1 with h | h
    · exact h
    · rw [h] at hlen; simp at hlen
  have hin : r.input = [] := by
    have := congrArg List.length hs.2
    rw [bytesBits_length] at this
    simp at this
    exact this
  simp [BitReader.readBit, h0, hin]

theorem stream_length (r : BitReader) (hr : r.bitCount ≤ 8) : r.stream.length = r.bitsLeft := by
  simp [BitReader.stream, BitReader.bitsLeft, bytesBits_length, byteBits_length, hr]

theorem readByteLoop_stream : ∀ (n : Nat) (acc : Byte) (r : BitReader) (bs s : List Bool),
    r.bitCount ≤ 8 → bs.length = n → n ≤ 8 → r.stream = bs ++ s →
    ∃ final r', BitReader.readByteLoop n acc r = ((final.val : Int), r') ∧
      byteBits final = (byteBits acc).drop n ++ bs ∧ r'.stream = s ∧
      (r.bitCount < 8 ∨ 0 < n → r'.bitCount < 8)
  | 0, acc, r, bs, s, hr, hlen, _, hs => by
    have : bs = [] := List.length_eq_zero.mp hlen
    subst this
    exact ⟨acc, r, rfl, by simp, by simpa using hs, by intro h; omega⟩
  | n + 1, acc, r, bs, s, hr, hlen, hn, hs => by
    match bs, hlen with
    | b :: bs', hlen =>
      have hrb := readBit_stream r hr b (bs' ++ s) (by simpa using hs)
      have hne : r.readBit.1 ≠ -1 := by rw [hrb.1]; split <;> simp
      have htn : r.readBit.1.toNat = if b then 1 else 0 := by rw [hrb.1]; split <;> simp
      obtain ⟨final, r', hloop, hbits, hst, hbc⟩ := readByteLoop_stream n
        (Fin.ofNat ((acc.val <<< 1) ||| r.readBit.1.toNat)) r.readBit.2 bs' s
        (by omega) (by simpa using hlen) (by omega) hrb.2.1
      refine ⟨final, r', ?_, ?_, hst, fun _ => hbc (Or.inl hrb.2.2)⟩
      · simp only [BitReader.readByteLoop, if_neg hne]
        exact hloop
      · rw [hbits, htn, byteBits_shift_or]
        have hl := byteBits_length acc
        rw [List.drop_append_of_le_length (by simp [hl]; omega), ← List.drop_one, List.drop_drop]
        simp [Nat.add_comm]

theorem readByte_stream (r : BitReader) (hr : r.bitCount ≤ 8) (c : Byte) (s : List Bool)
    (hs : r.stream = byteBits c ++ s) :
    ∃ r', r.readByte = ((c.val : Int), r') ∧ r'.stream = s ∧ r'.bitCount < 8 := by
  obtain ⟨final, r', hloop, hbits, hst, hbc⟩ :=
    readByteLoop_stream 8 0 r (byteBits c) s hr (byteBits_length c) le_rfl hs
  have hl := byteBits_length (0 : Byte)
  rw [List.drop_eq_nil_of_le (by rw [hl]), List.nil_append] at hbits
  have := byteBits_injective hbits
  subst this
  exact ⟨r', hloop, hst, hbc (Or.inr (by decide))⟩

/-! ## TreeSerializer -/

theorem treeBits_inner {c : Byte} {f : Int} {l r : HuffmanNode} (hl : Full l) :
    treeBits (.node c f l r) = true :: (treeBits l ++ treeBits r) := by
  cases hl <;> simp [treeBits]

theorem skeleton_inner {c : Byte} {f : Int} {l r : HuffmanNode} (hl : Full l) :
    skeleton (.node c f l r) = .node 0 0 (skeleton l) (skeleton r) := by
  cases hl <;> simp [skeleton]

theorem skeleton_full {t : HuffmanNode} (h : Full t) : Full (skeleton t) := by
  induction h with
  | leaf c f => exact Full.leaf c 0
  | inner c f l r hl hr ihl ihr => rw [skeleton_inner hl]; exact Full.inner _ _ _ _ ihl ihr

theorem paths_skeleton {t : HuffmanNode} (h : Full t) : paths (skeleton t) = paths t := by
  induction h with
  | leaf c f => simp [skeleton, paths]
  | inner c f l r hl hr ihl ihr =>
    rw [skeleton_inner hl, paths_inner hl, paths_inner (skeleton_full hl), ihl, ihr]

theorem skeleton_isLeaf {t : HuffmanNode} (h : Full t) : (skeleton t).isLeaf = t.isLeaf := by
  cases h with
  | leaf c f => simp [skeleton, HuffmanNode.isLeaf]
  | inner c f l r hl hr =>
    rw [skeleton_inner hl, Full.isLeaf_inner hl, Full.isLeaf_inner (skeleton_full hl)]

/-- Reading the bits of a well-formed tree gives its skeleton and leaves the
reader right behind those bits. -/
theorem deserializeFuel_treeBits {t : HuffmanNode} (h : Full t) :
    ∀ (fuel : Nat) (r : BitReader) (s : List Bool), r.bitCount ≤ 8 →
      (treeBits t).length ≤ fuel → r.stream = treeBits t ++ s →
      ∃ r', TreeSerializer.deserializeFuel fuel r = some (skeleton t, r') ∧ r'.stream = s ∧
        r'.bitCount < 8 := by
  induction h with
  | leaf c f =>
    intro fuel r s hr hfuel hs
    simp only [treeBits, List.length_cons, List.cons_append] at hfuel hs
    obtain ⟨fuel', rfl⟩ : ∃ k, fuel = k + 1 := ⟨fuel - 1, by omega⟩
    have hrb := readBit_stream r hr false _ hs
    obtain ⟨r', hbyte, hst, hbc⟩ := readByte_stream r.readBit.2 (by omega) c s hrb.2.1
    refine ⟨r', ?_, hst, hbc⟩
    have h0 : r.readBit.1 = 0 := by simpa using hrb.1
    have hne : ((c.val : Nat) : Int) ≠ -1 := by omega
    have hc : (Fin.ofNat ((c.val : Nat) : Int).toNat : Byte) = c := by
      apply Fin.ext; simp [Fin.ofNat]
    simp only [TreeSerializer.deserializeFuel, h0, if_true, hbyte, if_neg hne, hc, skeleton]
  | inner c f l r hl hr ihl ihr =>
    intro fuel rd s hrd hfuel hs
    rw [treeBits_inner hl] at hfuel hs
    simp only [List.length_cons, List.length_append, List.cons_append, List.append_assoc] at hfuel hs
    obtain ⟨fuel', rfl⟩ : ∃ k, fuel = k + 1 := ⟨fuel - 1, by omega⟩
    have hrb := readBit_stream rd hrd true _ hs
    have h1 : rd.readBit.1 = 1 := by simpa using hrb.1
    obtain ⟨r1, hd1, hst1, hbc1⟩ := ihl fuel' rd.readBit.2 (treeBits r ++ s) (by omega) (by omega)
      hrb.2.1
    obtain ⟨r2, hd2, hst2, hbc2⟩ := ihr fuel' r1 s (by omega) (by omega) hst1
    refine ⟨r2, ?_, hst2, hbc2⟩
    have h10 : (1 : Int) ≠ 0 := by decide
    simp only [TreeSerializer.deserializeFuel, h1, if_neg h10, if_true, hd1, hd2,
      skeleton_inner hl]

theorem deserialize_treeBits {t : HuffmanNode} (h : Full t) (r : BitReader) (s : List Bool)
    (hr : r.bitCount ≤ 8) (hs : r.stream = treeBits t ++ s) :
    ∃ r', TreeSerializer.deserialize r = (skeleton t, r') ∧ r'.stream = s ∧ r'.bitCount < 8 := by
  have hlen : (treeBits t).length ≤ r.bitsLeft + 1 := by
    rw [← stream_length r hr, hs, List.length_append]; omega
  obtain ⟨r', hd, hst, hbc⟩ := deserializeFuel_treeBits h _ r s hr hlen hs
  exact ⟨r', by simp [TreeSerializer.deserialize, hd], hst, hbc⟩

/-- Where the underlying stream stands once the reader has delivered all bits
but a rest of fewer than eight that is followed by whole bytes. -/
theorem input_of_stream (r : BitReader) (hr : r.bitCount < 8) (pad : List Bool)
    (rest : List Byte) (hpad : pad.length < 8) (hs : r.stream = pad ++ bytesBits rest) :
    r.input = rest := by
  have hlen := congrArg List.length hs
  have hb := byteBits_length r.buffer
  simp only [BitReader.stream, List.length_append, List.length_take, hb, bytesBits_length] at hlen
  have hmin : min r.bitCount 8 = r.bitCount := by omega
  rw [hmin] at hlen
  have h1 : ((byteBits r.buffer).take r.bitCount).length = pad.length := by
    rw [List.length_take, hb, hmin]; omega
  exact bytesBits_injective (List.append_inj hs h1).2

/-- The bytes `serialize` and `flush` append to a stream for a tree. -/
theorem prepend_writeBit (out : List Byte) (w : BitWriter) (bit : Nat) :
    (BitWriter.mk (out ++ w.out) w.buffer w.bitCount).writeBit bit =
      ⟨out ++ (w.writeBit bit).out, (w.writeBit bit).buffer, (w.writeBit bit).bitCount⟩ := by
  unfold BitWriter.writeBit
  simp only
  split <;> simp

theorem prepend_writeByteLoop (out : List Byte) (byte : Byte) : ∀ (n : Nat) (w : BitWriter),
    BitWriter.writeByteLoop byte n ⟨out ++ w.out, w.buffer, w.bitCount⟩ =
      ⟨out ++ (BitWriter.writeByteLoop byte n w).out, (BitWriter.writeByteLoop byte n w).buffer,
        (BitWriter.writeByteLoop byte n w).bitCount⟩
  | 0, w => rfl
  | n + 1, w => by
    simp only [BitWriter.writeByteLoop]
    rw [prepend_writeBit, prepend_writeByteLoop out byte n]

theorem prepend_serialize (out : List Byte) : ∀ (t : HuffmanNode) (w : BitWriter),
    TreeSerializer.serialize t ⟨out ++ w.out, w.buffer, w.bitCount⟩ =
      ⟨out ++ (TreeSerializer.serialize t w).out, (TreeSerializer.serialize t w).buffer,
        (TreeSerializer.serialize t w).bitCount⟩
  | .null, w => rfl
  | .node c f .null .null, w => by
    simp only [TreeSerializer.serialize, BitWriter.writeByte]
    rw [prepend_writeBit, prepend_writeByteLoop]
  | .node c f (.node c1 f1 l1 r1) r, w => by
    simp only [TreeSerializer.serialize]
    rw [prepend_writeBit, prepend_serialize out (.node c1 f1 l1 r1), prepend_serialize out r]
  | .node c f .null (.node c1 f1 l1 r1), w => by
    simp only [TreeSerializer.serialize]
    rw [prepend_writeBit, prepend_serialize out (.node c1 f1 l1 r1)]

theorem serialize_flush_out (out : List Byte) (t : HuffmanNode) :
    (TreeSerializer.serialize t (BitWriter.new out)).flush.out = out ++ treeBytes t := by
  unfold treeBytes
  have h := prepend_serialize out t (BitWriter.new [])
  simp only [BitWriter.new, List.append_nil] at h ⊢
  rw [h]
  unfold BitWriter.flush
  simp only
  split <;> simp

/-- Reading back the bytes written for a well-formed tree gives its skeleton
and leaves the stream at the first byte behind the tree. -/
theorem deserialize_serialize {t : HuffmanNode} (h : Full t) (rest : List Byte) :
    ∃ r', TreeSerializer.deserialize (BitReader.new (treeBytes t ++ rest))
        = (skeleton t, r') ∧ r'.input = rest := by
  unfold treeBytes
  have hw : (BitWriter.new []).bitCount < 8 := by simp [BitWriter.new]
  have hser := serialize_bits t (BitWriter.new []) hw
  have hflush := flush_out_bits _ hser.2
  rw [hser.1] at hflush
  have hbits0 : (BitWriter.new []).bits = [] := by
    simp [BitWriter.new, BitWriter.bits, BitWriter.pending, bytesBits, byteBits_length]
  rw [hbits0, List.nil_append] at hflush
  obtain ⟨r', hd, hst, hbc⟩ := deserialize_treeBits h
    (BitReader.new ((TreeSerializer.serialize t (BitWriter.new [])).flush.out ++ rest))
    (List.replicate ((8 - (TreeSerializer.serialize t (BitWriter.new [])).bitCount) % 8) false
      ++ bytesBits rest)
    (by simp [BitReader.new])
    (by simp [BitReader.new, BitReader.stream, bytesBits_append, hflush])
  refine ⟨r', hd, input_of_stream r' hbc _ rest ?_ hst⟩
  simp only [List.length_replicate]
  omega

/-- C5: for every tree built by `buildFromFrequencies` from a non-empty
frequency table, `deserialize` on the bytes that `serialize` followed by
`flush` wrote returns a tree with the leaves of the built tree at the same
paths: the built tree with its frequencies cleared. -/
theorem tree_serialization_roundtrip (tie : Nat → Nat) (charFreqs : List (Byte × Int))
    (hne : charFreqs ≠ []) :
    (TreeSerializer.deserialize (BitReader.new
        (TreeSerializer.serialize (buildFromFrequencies tie charFreqs)
          (BitWriter.new [])).flush.out)).1 = skeleton (buildFromFrequencies tie charFreqs) ∧
      Full (skeleton (buildFromFrequencies tie charFreqs)) ∧
      paths (skeleton (buildFromFrequencies tie charFreqs)) =
        paths (buildFromFrequencies tie charFreqs) := by
  have hfull := (buildFromFrequencies_full tie charFreqs hne).1
  obtain ⟨r', hd, _⟩ := deserialize_serialize hfull []
  simp only [treeBytes, List.append_nil] at hd
  rw [hd]
  exact ⟨rfl, skeleton_full hfull, paths_skeleton hfull⟩

theorem tree_serialization_roundtrip_witness :
    ([(97, 4), (98, 3), (99, 2)] : List (Byte × Int)) ≠ [] ∧
    ((TreeSerializer.deserialize (BitReader.new
        (TreeSerializer.serialize (buildFromFrequencies (fun _ => 0) [(97, 4), (98, 3), (99, 2)])
          (BitWriter.new [])).flush.out)).1
        = skeleton (buildFromFrequencies (fun _ => 0) [(97, 4), (98, 3), (99, 2)]) ∧
      Full (skeleton (buildFromFrequencies (fun _ => 0) [(97, 4), (98, 3), (99, 2)])) ∧
      paths (skeleton (buildFromFrequencies (fun _ => 0) [(97, 4), (98, 3), (99, 2)])) =
        paths (buildFromFrequencies (fun _ => 0) [(97, 4), (98, 3), (99, 2)])) :=
  ⟨by decide, tree_serialization_roundtrip (fun _ => 0) [(97, 4), (98, 3), (99, 2)] (by decide)⟩

/-! ## Packed bit strings -/

theorem toInt32_of_range (x : Int) (h1 : -2 ^ 31 ≤ x) (h2 : x < 2 ^ 31) : toInt32 x = x := by
  unfold toInt32
  omega

theorem int32OfBytes_int32Bytes (x : Int) (h1 : -2 ^ 31 ≤ x) (h2 : x < 2 ^ 31)
    (rest : List Byte) :
    ∃ b0 b1 b2 b3, int32Bytes x ++ rest = b0 :: b1 :: b2 :: b3 :: rest ∧
      int32OfBytes b0 b1 b2 b3 = x := by
  refine ⟨_, _, _, _, rfl, ?_⟩
  simp only [int32OfBytes, Fin.ofNat, Nat.shiftRight_eq_div_pow]
  have hu : (x % 2 ^ 32).toNat < 2 ^ 32 := by omega
  have hx : (((x % 2 ^ 32).toNat : Nat) : Int) = x % 2 ^ 32 := by omega
  generalize (x % 2 ^ 32).toNat = u at hu hx
  have hsum : u % (255 + 1) + 256 * (u / 2 ^ 8 % (255 + 1)) + 65536 * (u / 2 ^ 16 % (255 + 1))
      + 16777216 * (u / 2 ^ 24 % (255 + 1)) = u := by
    norm_num at hu ⊢
    omega
  rw [hsum, hx]
  unfold toInt32
  omega

theorem bitsetValue_append_zeros : ∀ (cs : BitString) (j m : Nat),
    bitsetValue j (cs ++ List.replicate m '0') = bitsetValue j cs
  | [], j, 0 => rfl
  | [], j, m + 1 => by
    have h := bitsetValue_append_zeros [] (j + 1) m
    have h01 : ('0' : Char) ≠ '1' := by decide
    simp only [List.nil_append] at h
    simp [List.replicate_succ, bitsetValue, h, h01]
  | c :: cs, j, m => by
    simp [bitsetValue, bitsetValue_append_zeros cs (j + 1) m]

set_option maxRecDepth 100000 in
theorem byteBits_bitsetValue : ∀ (b0 b1 b2 b3 b4 b5 b6 b7 : Bool),
    byteBits (Fin.ofNat (bitsetValue 0 [bitChar b0, bitChar b1, bitChar b2, bitChar b3,
      bitChar b4, bitChar b5, bitChar b6, bitChar b7])) = [b0, b1, b2, b3, b4, b5, b6, b7] := by
  decide

theorem binary_eq_map_bitChar : ∀ (cs : BitString), (∀ c ∈ cs, c = '0' ∨ c = '1') →
    ∃ bs : List Bool, cs = bs.map bitChar
  | [], _ => ⟨[], rfl⟩
  | c :: cs, h => by
    obtain ⟨bs, hbs⟩ := binary_eq_map_bitChar cs (fun x hx => h x (List.mem_cons_of_mem _ hx))
    rcases h c (by simp) with hc | hc
    · exact ⟨false :: bs, by simp [bitChar, hc, hbs]⟩
    · exact ⟨true :: bs, by simp [bitChar, hc, hbs]⟩

/-- The bits of a packed byte are the characters it was packed from, filled
up with zeros. -/
theorem byteBits_packByte (chunk : BitString) (hbin : ∀ c ∈ chunk, c = '0' ∨ c = '1') :
    (byteBits (packByte chunk)).map bitChar =
      chunk.take 8 ++ List.replicate (8 - (chunk.take 8).length) '0' := by
  have hbin8 : ∀ c ∈ chunk.take 8 ++ List.replicate (8 - (chunk.take 8).length) '0',
      c = '0' ∨ c = '1' := by
    intro c hc
    rcases List.mem_append.mp hc with h | h
    · exact hbin c (List.mem_of_mem_take h)
    · exact Or.inl (List.eq_of_mem_replicate h)
  obtain ⟨bs, hbs⟩ := binary_eq_map_bitChar _ hbin8
  have hlen : bs.length = 8 := by
    have := congrArg List.length hbs
    simp only [List.length_append, List.length_replicate, List.length_map, List.length_take] at this
    omega
  unfold packByte
  rw [← bitsetValue_append_zeros _ 0 (8 - (chunk.take 8).length), hbs]
  match bs, hlen with
  | [b0, b1, b2, b3, b4, b5, b6, b7], _ =>
    simp only [List.map_cons, List.map_nil]
    rw [byteBits_bitsetValue]
    simp

theorem unpackByte_eq (bitCount : Nat) (ubyte : Byte) : ∀ (j : Nat) (bits : BitString),
    unpackByte bitCount ubyte j bits =
      bits ++ ((lowBits ubyte j).map bitChar).take (bitCount - bits.length)
  | 0, bits => by simp [unpackByte, lowBits]
  | j + 1, bits => by
    simp only [unpackByte, lowBits, List.map_cons]
    rw [unpackByte_eq bitCount ubyte j]
    by_cases h : bits.length < bitCount
    · rw [if_pos h]
      obtain ⟨k, hk⟩ : ∃ k, bitCount - bits.length = k + 1 := ⟨bitCount - bits.length - 1, by omega⟩
      have hk' : bitCount - (bits ++ [if (ubyte.val >>> j) &&& 1 = 1 then '1' else '0']).length
          = k := by simp; omega
      rw [hk, hk', List.take_succ_cons, List.append_assoc]
      simp only [bitChar, decide_eq_true_eq, List.singleton_append]
    · rw [if_neg h]
      have : bitCount - bits.length = 0 := by omega
      simp [this]

/-- The unpacking loop of `readBits` undoes the packing loop of `writeBits`
and stops right behind the packed bytes. -/
theorem unpackLoop_packLoop : ∀ (fuel : Nat) (bits acc : BitString) (rest : List Byte)
    (bitCount : Nat), (∀ c ∈ bits, c = '0' ∨ c = '1') → bits.length ≤ fuel →
    bitCount = acc.length + bits.length →
    unpackLoop bitCount ((bits.length + 7) / 8) acc (packLoop fuel bits ++ rest)
      = (acc ++ bits, rest)
  | 0, bits, acc, rest, bitCount, _, hfuel, _ => by
    have : bits = [] := List.length_eq_zero.mp (by omega)
    subst this
    simp [packLoop, unpackLoop]
  | fuel + 1, [], acc, rest, bitCount, _, _, _ => by
    simp [packLoop, unpackLoop]
  | fuel + 1, c :: cs, acc, rest, bitCount, hbin, hfuel, hbc => by
    have hne : (c :: cs).isEmpty = false := rfl
    have hn : ((c :: cs).length + 7) / 8 = (((c :: cs).drop 8).length + 7) / 8 + 1 := by
      simp only [List.length_drop, List.length_cons]; omega
    simp only [packLoop, hne, Bool.false_eq_true, if_false, List.cons_append]
    rw [hn]
    simp only [unpackLoop]
    have hub : unpackByte bitCount (packByte (c :: cs)) 8 acc = acc ++ (c :: cs).take 8 := by
      rw [unpackByte_eq]
      have hpk := byteBits_packByte (c :: cs) hbin
      unfold byteBits at hpk
      rw [hpk, hbc]
      congr 1
      have h1 : acc.length + (c :: cs).length - acc.length = (c :: cs).length := by omega
      rw [h1]
      by_cases h8 : 8 ≤ (c :: cs).length
      · have hl : ((c :: cs).take 8).length = 8 := by rw [List.length_take]; omega
        rw [hl]
        simp only [Nat.sub_self, List.replicate_zero, List.append_nil]
        rw [List.take_of_length_le (by omega)]
      · have ht : (c :: cs).take 8 = c :: cs := List.take_of_length_le (by omega)
        rw [ht, List.take_append_of_le_length le_rfl, List.take_of_length_le le_rfl]
    rw [hub]
    have ih := unpackLoop_packLoop fuel ((c :: cs).drop 8) (acc ++ (c :: cs).take 8) rest bitCount
      (fun x hx => hbin x (List.mem_of_mem_drop hx))
      (by simp only [List.length_drop, List.length_cons] at hfuel ⊢; omega)
      (by
        rw [hbc, List.length_append, List.length_take, List.length_drop]
        omega)
    rw [ih, List.append_assoc, List.take_append_drop]

theorem readBitsBody_packBits (bits : BitString) (rest : List Byte)
    (hbin : ∀ c ∈ bits, c = '0' ∨ c = '1') (hlen : bits.length ≤ 2 ^ 31 - 8) :
    FileCompressor.readBitsBody (packBits bits ++ rest) (bits.length : Int) = (bits, rest) := by
  unfold FileCompressor.readBitsBody packBits
  have h31 : (2 : Nat) ^ 31 - 8 = 2147483640 := by norm_num
  rw [h31] at hlen
  have h1 : toInt32 ((bits.length : Int) + 7) = ((bits.length + 7 : Nat) : Int) := by
    rw [toInt32_of_range] <;> push_cast <;> omega
  have h2 : (Int.tdiv ((bits.length + 7 : Nat) : Int) 8).toNat = (bits.length + 7) / 8 := by
    rw [Int.tdiv_eq_ediv (by omega) (by omega)]
    omega
  simp only [h1, h2, Int.toNat_ofNat]
  have := unpackLoop_packLoop bits.length bits [] rest bits.length hbin le_rfl (by simp)
  simpa using this

/-- Reading back what `writeBits` wrote, with the length taken from the four
bytes in front of the packed bits. -/
theorem readBits_writeBits (bits : BitString) (out rest : List Byte)
    (hbin : ∀ c ∈ bits, c = '0' ∨ c = '1') (hlen : bits.length ≤ 2 ^ 31 - 8) :
    ∃ written, FileCompressor.writeBits bits out = out ++ written ∧
      FileCompressor.readBits (written ++ rest) (-1) = (bits, rest) := by
  have h31 : (2 : Nat) ^ 31 - 8 = 2147483640 := by norm_num
  refine ⟨int32Bytes (toInt32 bits.length) ++ packBits bits, by
    simp [FileCompressor.writeBits, List.append_assoc], ?_⟩
  have hto : toInt32 (bits.length : Int) = (bits.length : Int) := by
    rw [toInt32_of_range] <;> omega
  obtain ⟨b0, b1, b2, b3, hbytes, hval⟩ := int32OfBytes_int32Bytes (bits.length : Int)
    (by omega) (by omega) (packBits bits ++ rest)
  rw [hto, List.append_assoc, hbytes]
  unfold FileCompressor.readBits
  simp only [hval]
  by_cases h0 : bits.length = 0
  · have : bits = [] := List.length_eq_zero.mp h0
    subst this
    simp [packBits, packLoop]
  · have hpos : ¬ ((bits.length : Int) ≤ 0) := by omega
    simp only [hpos, if_false]
    have hneg : ((-1 : Int) < 0) := by decide
    simp only [hneg, if_true]
    exact readBitsBody_packBits bits rest hbin hlen

/-- Reading back packed bits whose number is handed to `readBits`. -/
theorem readBits_packBits (bits : BitString) (rest : List Byte)
    (hbin : ∀ c ∈ bits, c = '0' ∨ c = '1') (hlen : bits.length ≤ 2 ^ 31 - 8) :
    FileCompressor.readBits (packBits bits ++ rest) (toInt32 ((bits.length % 2 ^ 32 : Nat) : Int))
      = (bits, rest) := by
  have h31 : (2 : Nat) ^ 31 - 8 = 2147483640 := by norm_num
  have hmod : bits.length % 2 ^ 32 = bits.length := Nat.mod_eq_of_lt (by omega)
  have hto : toInt32 (bits.length : Int) = (bits.length : Int) := by
    rw [toInt32_of_range] <;> omega
  rw [hmod, hto]
  unfold FileCompressor.readBits
  have hneg : ¬ ((bits.length : Int) < 0) := by omega
  simp only [hneg, if_false]
  exact readBitsBody_packBits bits rest hbin hlen

/-! ## The single-file archive -/

theorem makeTree_root (tie : List (Byte × Int) → Nat → Nat) (charFreqs : List (Byte × Int)) :
    (makeTree tie charFreqs).root = buildFromFrequencies (tie charFreqs) charFreqs := rfl

theorem makeTree_eq (tie : List (Byte × Int) → Nat → Nat) (charFreqs : List (Byte × Int)) :
    makeTree tie charFreqs = HuffmanTree.mk (makeTree tie charFreqs).root
      (generateCodesRecursive (makeTree tie charFreqs).root [] []) := rfl

theorem decodeLoop_skeleton_encode {root : HuffmanNode} (h : Full root)
    (hroot : root.isLeaf = false) :
    ∀ (text : List Byte), (∀ ch ∈ text, ch ∈ leafChars root) → ∀ (decoded : List Byte),
      decodeLoop (skeleton root) (skeleton root) decoded
        ((HuffmanTree.mk root (generateCodesRecursive root [] [])).encode text) = decoded ++ text
  | [], _, decoded => by simp [HuffmanTree.encode, decodeLoop]
  | ch :: rest, htext, decoded => by
    obtain ⟨p, hp, _, hfind⟩ := find_generateCodeTable h hroot (htext ch (by simp))
    unfold HuffmanTree.encode
    simp only [hfind]
    rw [← paths_skeleton h] at hp
    rw [decodeLoop_path (skeleton root) (skeleton_full h) hp
        (by rw [skeleton_isLeaf h]; exact hroot),
      decodeLoop_skeleton_encode h hroot rest (fun c hc => htext c (List.mem_cons_of_mem _ hc))]
    simp

/-- The tree read back from an archive decodes what the tree that was
written encoded. -/
theorem decodeWithRoot_skeleton_encode {root : HuffmanNode} (h : Full root)
    (hroot : root.isLeaf = false) (text : List Byte) (htext : ∀ ch ∈ text, ch ∈ leafChars root) :
    decodeWithRoot (skeleton root)
      ((HuffmanTree.mk root (generateCodesRecursive root [] [])).encode text) = text := by
  have := decodeLoop_skeleton_encode h hroot text htext []
  cases h with
  | leaf c f => simp [HuffmanNode.isLeaf] at hroot
  | inner c f l r hl hr =>
    rw [skeleton_inner hl] at this ⊢
    simpa [decodeWithRoot] using this

theorem decodeWithRoot_nil (root : HuffmanNode) : decodeWithRoot root [] = [] := by
  cases root <;> simp [decodeWithRoot, decodeLoop]

/-- What `decompress` does with an archive that starts with the tag `F` and
the bytes of a well-formed tree. -/
theorem decompress_tree_bytes {t : HuffmanNode} (h : Full t) (rest : List Byte) :
    FileCompressor.decompress (70 :: (treeBytes t ++ rest)) =
      some (decodeWithRoot (skeleton t) (FileCompressor.readBits rest (-1)).1) := by
  obtain ⟨r', hd, hin⟩ := deserialize_serialize h rest
  have hsk := skeleton_full h
  unfold FileCompressor.decompress
  simp only [ne_eq, not_true_eq_false, if_false, hd]
  generalize skeleton t = sk at hsk
  cases hsk with
  | leaf c f => simp [hin]
  | inner c f l r hl hr => simp [hin]

theorem compress_eq (order : IterationOrder) (tie : List (Byte × Int) → Nat → Nat)
    (S : List Byte) (hne : getFrequencies order S ≠ []) :
    FileCompressor.compress order tie S =
      some (70 :: (treeBytes (makeTree tie (getFrequencies order S)).root ++
        (int32Bytes (toInt32 ((makeTree tie (getFrequencies order S)).encode S).length) ++
          packBits ((makeTree tie (getFrequencies order S)).encode S)))) := by
  unfold FileCompressor.compress
  have : (getFrequencies order S).isEmpty = false := by
    cases hcf : getFrequencies order S with
    | nil => exact absurd hcf hne
    | cons _ _ => rfl
  simp only [this, Bool.false_eq_true, if_false, FileCompressor.writeBits, serialize_flush_out]
  simp

/-- The amended C2: for every byte sequence `S` with at least two distinct
byte values whose encoding has at most `2^31 - 8` bits, `compress` produces an
archive and `decompress` of that archive succeeds and writes exactly `S`. -/
theorem file_roundtrip (order : IterationOrder) (tie : List (Byte × Int) → Nat → Nat)
    (S : List Byte) (h2 : ∃ a ∈ S, ∃ b ∈ S, a ≠ b)
    (hlen : ((makeTree tie (getFrequencies order S)).encode S).length ≤ 2 ^ 31 - 8) :
    ∃ archive, FileCompressor.compress order tie S = some archive ∧
      FileCompressor.decompress archive = some S := by
  have hlen2 := two_le_length_getFrequencies order S h2
  have hne : getFrequencies order S ≠ [] := by intro h0; rw [h0] at hlen2; simp at hlen2
  have hfull := (buildFromFrequencies_full (tie (getFrequencies order S)) _ hne).1
  have hinner := buildFromFrequencies_inner (tie (getFrequencies order S)) _ hlen2
  have hmem : ∀ ch ∈ S, ch ∈ leafChars (makeTree tie (getFrequencies order S)).root := by
    intro ch hch
    rw [makeTree_root, leafChars_buildFromFrequencies _ _ hne]
    exact (mem_keys_getFrequencies order S ch).mpr hch
  rw [← makeTree_root] at hfull hinner
  refine ⟨_, compress_eq order tie S hne, ?_⟩
  rw [decompress_tree_bytes hfull]
  have hbin : ∀ c ∈ (makeTree tie (getFrequencies order S)).encode S, c = '0' ∨ c = '1' := by
    rw [makeTree_eq]; exact encode_binary hfull hinner S
  obtain ⟨written, hw, hread⟩ :=
    readBits_writeBits ((makeTree tie (getFrequencies order S)).encode S) [] [] hbin hlen
  rw [FileCompressor.writeBits, List.nil_append, List.nil_append] at hw
  rw [List.append_nil, ← hw] at hread
  have hdec := decodeWithRoot_skeleton_encode hfull hinner S hmem
  rw [← makeTree_eq] at hdec
  rw [hread, hdec]

/-! ## Inputs the single-file archive does not give back -/

theorem leaf_of_one_leafPair {t : HuffmanNode} (h : Full t) (h1 : (leafPairs t).length = 1) :
    ∃ c f, t = .node c f .null .null := by
  cases h with
  | leaf c f => exact ⟨c, f, rfl⟩
  | inner c f l r hl hr =>
    rw [leafPairs_inner hl, List.length_append] at h1
    have := leafPairs_length_pos hl
    have := leafPairs_length_pos hr
    omega

/-- In a tree with two leaves every path is one step long. -/
theorem paths_length_of_two_leaves {t : HuffmanNode} (h : Full t)
    (h2 : (leafPairs t).length = 2) : ∀ cp ∈ paths t, cp.2.length = 1 := by
  cases h with
  | leaf c f => simp [leafPairs] at h2
  | inner c f l r hl hr =>
    rw [leafPairs_inner hl, List.length_append] at h2
    have h1 := leafPairs_length_pos hl
    have h1' := leafPairs_length_pos hr
    obtain ⟨cl, fl, rfl⟩ := leaf_of_one_leafPair hl (by omega)
    obtain ⟨cr, fr, rfl⟩ := leaf_of_one_leafPair hr (by omega)
    intro cp hcp
    simp only [paths, List.map_cons, List.map_nil, List.cons_append, List.nil_append,
      List.mem_cons, List.mem_singleton, List.not_mem_nil, or_false] at hcp
    rcases hcp with rfl | rfl <;> rfl

theorem encode_length_of_unit_paths {root : HuffmanNode} (h : Full root)
    (hroot : root.isLeaf = false) (hunit : ∀ cp ∈ paths root, cp.2.length = 1) :
    ∀ (text : List Byte), (∀ ch ∈ text, ch ∈ leafChars root) →
      ((HuffmanTree.mk root (generateCodesRecursive root [] [])).encode text).length = text.length
  | [], _ => rfl
  | ch :: rest, htext => by
    obtain ⟨p, hp, _, hfind⟩ := find_generateCodeTable h hroot (htext ch (by simp))
    unfold HuffmanTree.encode
    simp only [hfind, List.length_append, List.length_cons]
    rw [encode_length_of_unit_paths h hroot hunit rest
      (fun c hc => htext c (List.mem_cons_of_mem _ hc)), hunit _ hp]
    omega

/-- The frequency table of a text with exactly two byte values has two entries. -/
theorem length_getFrequencies_of_two (order : IterationOrder) (S : List Byte) (a b : Byte)
    (hab : a ≠ b) (hS : ∀ c, c ∈ S ↔ c = a ∨ c = b) : (getFrequencies order S).length = 2 := by
  have hnd := nodup_keys_getFrequencies order S
  have hperm : ((getFrequencies order S).map (fun p => p.1)).Perm [a, b] := by
    rw [List.perm_ext_iff_of_nodup hnd (by simp [hab])]
    intro c
    rw [mem_keys_getFrequencies, hS]
    simp
  simpa using hperm.length_eq

theorem readBitsBody_overflow (input : List Byte) (n : Int) (h1 : 2 ^ 31 - 7 ≤ n)
    (h2 : n < 2 ^ 31) : FileCompressor.readBitsBody input n = ([], input) := by
  unfold FileCompressor.readBitsBody
  have hto : toInt32 (n + 7) = -(2 ^ 32 - (n + 7)) := by unfold toInt32; omega
  have hdiv : (Int.tdiv (toInt32 (n + 7)) 8).toNat = 0 := by
    rw [hto, Int.neg_tdiv, Int.tdiv_eq_ediv (by omega) (by omega)]
    omega
  simp only [hdiv, unpackLoop]

/-- A bit string of `2^31 - 7` to `2^31 - 1` characters is written with its
header and read back as the empty string: `bitCount + 7` leaves the range of
`int`. -/
theorem readBits_overflow (n : Int) (rest : List Byte) (h1 : 2 ^ 31 - 7 ≤ n) (h2 : n < 2 ^ 31) :
    (FileCompressor.readBits (int32Bytes (toInt32 n) ++ rest) (-1)).1 = [] := by
  have hto : toInt32 n = n := toInt32_of_range n (by omega) h2
  obtain ⟨b0, b1, b2, b3, hbytes, hval⟩ := int32OfBytes_int32Bytes n (by omega) h2 rest
  rw [hto, hbytes]
  unfold FileCompressor.readBits
  have hneg : ((-1 : Int) < 0) := by decide
  have hpos : ¬ (n ≤ 0) := by omega
  simp only [hneg, if_true, hval, hpos, if_false]
  rw [readBitsBody_overflow rest n h1 h2]

/-- A text of two byte values and `2^31 - 7` to `2^31 - 1` bytes is compressed
to an archive that `decompress` turns into the empty file. -/
theorem long_file_read_back_empty (order : IterationOrder)
    (tie : List (Byte × Int) → Nat → Nat) (a b : Byte) (n : Nat) (hab : a ≠ b)
    (h1 : 2 ^ 31 - 8 ≤ n) (h2 : n + 1 < 2 ^ 31) :
    ∃ archive, FileCompressor.compress order tie (b :: List.replicate n a) = some archive ∧
      FileCompressor.decompress archive = some [] := by
  have h31 : (2 : Nat) ^ 31 = 2147483648 := by norm_num
  have hS : ∀ c, c ∈ b :: List.replicate n a ↔ c = a ∨ c = b := by
    intro c
    simp only [List.mem_cons, List.mem_replicate]
    constructor
    · rintro (h | ⟨_, h⟩)
      · exact Or.inr h
      · exact Or.inl h
    · rintro (h | h)
      · exact Or.inr ⟨by omega, h⟩
      · exact Or.inl h
  have hlen2 := length_getFrequencies_of_two order _ a b hab hS
  have hne : getFrequencies order (b :: List.replicate n a) ≠ [] := by
    intro h0; rw [h0] at hlen2; simp at hlen2
  obtain ⟨hfull, hperm⟩ := buildFromFrequencies_full
    (tie (getFrequencies order (b :: List.replicate n a))) _ hne
  have hinner := buildFromFrequencies_inner
    (tie (getFrequencies order (b :: List.replicate n a))) _ (by rw [hlen2])
  have hmem : ∀ ch ∈ b :: List.replicate n a,
      ch ∈ leafChars (makeTree tie (getFrequencies order (b :: List.replicate n a))).root := by
    intro ch hch
    rw [makeTree_root, leafChars_buildFromFrequencies _ _ hne]
    exact (mem_keys_getFrequencies order _ ch).mpr hch
  have hunit := paths_length_of_two_leaves hfull (by rw [hperm.length_eq]; exact hlen2)
  rw [← makeTree_root] at hfull hinner hunit
  have hlen := encode_length_of_unit_paths hfull hinner hunit _ hmem
  rw [← makeTree_eq] at hlen
  refine ⟨_, compress_eq order tie _ hne, ?_⟩
  rw [decompress_tree_bytes hfull, hlen]
  have hr := readBits_overflow ((b :: List.replicate n a).length : Int)
    (packBits ((makeTree tie (getFrequencies order (b :: List.replicate n a))).encode
      (b :: List.replicate n a)))
    (by simp only [List.length_cons, List.length_replicate]; push_cast; omega)
    (by simp only [List.length_cons, List.length_replicate]; push_cast; omega)
  rw [hr, decodeWithRoot_nil]

set_option maxRecDepth 100000 in
theorem file_roundtrip_witness :
    (∃ a ∈ ([97, 97, 97, 97, 98, 98, 98, 99, 99, 100] : List Byte),
      ∃ b ∈ ([97, 97, 97, 97, 98, 98, 98, 99, 99, 100] : List Byte), a ≠ b) ∧
    ((makeTree (fun _ _ => 0) (getFrequencies IterationOrder.insertion
      [97, 97, 97, 97, 98, 98, 98, 99, 99, 100])).encode
        [97, 97, 97, 97, 98, 98, 98, 99, 99, 100]).length ≤ 2 ^ 31 - 8 ∧
    ∃ archive, FileCompressor.compress IterationOrder.insertion (fun _ _ => 0)
        [97, 97, 97, 97, 98, 98, 98, 99, 99, 100] = some archive ∧
      FileCompressor.decompress archive = some [97, 97, 97, 97, 98, 98, 98, 99, 99, 100] :=
  ⟨⟨97, by decide, 98, by decide, by decide⟩, by decide,
    file_roundtrip IterationOrder.insertion (fun _ _ => 0)
      [97, 97, 97, 97, 98, 98, 98, 99, 99, 100]
      ⟨97, by decide, 98, by decide, by decide⟩ (by decide)⟩

set_option maxRecDepth 100000 in
/-- C2 fails at two inputs. For the one-byte file `"x"` the archive is
written and `decompress` succeeds with an empty output. For the file of one
`b` followed by `2^31 - 8` times `a`, whose encoding has `2^31 - 7` bits, the
archive is written and `decompress` succeeds with an empty output as well. -/
theorem file_roundtrip_counterexample :
    (FileCompressor.compress IterationOrder.insertion (fun _ _ => 0) [120] =
        some [70, 60, 0, 1, 0, 0, 0, 0] ∧
      FileCompressor.decompress [70, 60, 0, 1, 0, 0, 0, 0] = some [] ∧
      (some [] : Option (List Byte)) ≠ some [120]) ∧
    (∃ archive, FileCompressor.compress IterationOrder.insertion (fun _ _ => 0)
        (98 :: List.replicate (2 ^ 31 - 8) 97) = some archive ∧
      FileCompressor.decompress archive = some [] ∧
      (some [] : Option (List Byte)) ≠ some (98 :: List.replicate (2 ^ 31 - 8) 97)) := by
  refine ⟨⟨by decide, by decide, by decide⟩, ?_⟩
  obtain ⟨archive, hc, hd⟩ := long_file_read_back_empty IterationOrder.insertion (fun _ _ => 0)
    97 98 (2 ^ 31 - 8) (by decide) le_rfl (by norm_num)
  exact ⟨archive, hc, hd, fun h => List.noConfusion (Option.some.inj h)⟩

/-! ## Frequencies over the files of a folder -/

theorem mem_keys_foldl_countBytes (wrap : Int → Int) (g : FileEntry → List Byte) (c : Byte) :
    ∀ (files : List FileEntry) (m : List (Byte × Int)),
      c ∈ (files.foldl (fun m f => countBytes wrap m (g f)) m).map (fun p => p.1) ↔
        (∃ f ∈ files, c ∈ g f) ∨ c ∈ m.map (fun p => p.1)
  | [], m => by simp
  | f :: rest, m => by
    rw [List.foldl_cons, mem_keys_foldl_countBytes wrap g c rest, mem_keys_countBytes]
    constructor
    · rintro (⟨x, hx, hc⟩ | hc | hc)
      · exact Or.inl ⟨x, List.mem_cons_of_mem _ hx, hc⟩
      · exact Or.inl ⟨f, List.mem_cons_self _ _, hc⟩
      · exact Or.inr hc
    · rintro (⟨x, hx, hc⟩ | hc)
      · rcases List.mem_cons.mp hx with rfl | hx
        · exact Or.inr (Or.inl hc)
        · exact Or.inl ⟨x, hx, hc⟩
      · exact Or.inr (Or.inr hc)

theorem nodup_keys_foldl_countBytes (wrap : Int → Int) (g : FileEntry → List Byte) :
    ∀ (files : List FileEntry) (m : List (Byte × Int)), (m.map (fun p => p.1)).Nodup →
      ((files.foldl (fun m f => countBytes wrap m (g f)) m).map (fun p => p.1)).Nodup
  | [], m, h => by simpa using h
  | f :: rest, m, h => by
    rw [List.foldl_cons]
    exact nodup_keys_foldl_countBytes wrap g rest _ (nodup_keys_countBytes wrap _ m h)

theorem keys_globalCharFreqs (order : IterationOrder) (files : List FileEntry) :
    ((FolderCompressor.globalCharFreqs order files).map (fun p => p.1)).Perm
      ((FolderCompressor.globalFrequencies files).map (fun p => p.1)) := by
  unfold FolderCompressor.globalCharFreqs
  rw [List.map_map]
  exact (order.perm _).map _

theorem mem_keys_globalCharFreqs (order : IterationOrder) (files : List FileEntry) (c : Byte) :
    c ∈ (FolderCompressor.globalCharFreqs order files).map (fun p => p.1) ↔
      ∃ f ∈ files, c ∈ f.relativePath ∨ c ∈ f.content := by
  rw [(keys_globalCharFreqs order files).mem_iff]
  unfold FolderCompressor.globalFrequencies
  simp only
  rw [mem_keys_foldl_countBytes, mem_keys_foldl_countBytes]
  simp only [List.map_nil, List.not_mem_nil, or_false]
  constructor
  · rintro (⟨f, hf, hc⟩ | ⟨f, hf, hc⟩)
    · exact ⟨f, hf, Or.inr hc⟩
    · exact ⟨f, hf, Or.inl hc⟩
  · rintro ⟨f, hf, hc | hc⟩
    · exact Or.inr ⟨f, hf, hc⟩
    · exact Or.inl ⟨f, hf, hc⟩

theorem nodup_keys_globalCharFreqs (order : IterationOrder) (files : List FileEntry) :
    ((FolderCompressor.globalCharFreqs order files).map (fun p => p.1)).Nodup := by
  rw [(keys_globalCharFreqs order files).nodup_iff]
  unfold FolderCompressor.globalFrequencies
  exact nodup_keys_foldl_countBytes _ _ _ _ (nodup_keys_foldl_countBytes _ _ _ _ (by simp))

/-! ## The tree of a table with two or more entries -/

/-- What the compressors and the readers need from the tree of a table with
at least two entries. -/
theorem makeTree_spec (tie : List (Byte × Int) → Nat → Nat) (charFreqs : List (Byte × Int))
    (h2 : 2 ≤ charFreqs.length) :
    Full (makeTree tie charFreqs).root ∧ (makeTree tie charFreqs).root.isLeaf = false ∧
      (∀ ch, ch ∈ leafChars (makeTree tie charFreqs).root ↔ ch ∈ charFreqs.map (fun p => p.1)) ∧
      (∀ text, (∀ ch ∈ text, ch ∈ charFreqs.map (fun p => p.1)) →
        (∀ c ∈ (makeTree tie charFreqs).encode text, c = '0' ∨ c = '1') ∧
        decodeWithRoot (skeleton (makeTree tie charFreqs).root)
          ((makeTree tie charFreqs).encode text) = text) := by
  have hne : charFreqs ≠ [] := by intro h0; rw [h0] at h2; simp at h2
  have hfull := (buildFromFrequencies_full (tie charFreqs) charFreqs hne).1
  have hinner := buildFromFrequencies_inner (tie charFreqs) charFreqs h2
  have hmem := leafChars_buildFromFrequencies (tie charFreqs) charFreqs hne
  rw [← makeTree_root] at hfull hinner hmem
  refine ⟨hfull, hinner, hmem, ?_⟩
  intro text htext
  have hbin := encode_binary hfull hinner text
  have hdec := decodeWithRoot_skeleton_encode hfull hinner text
    (fun ch hch => (hmem ch).mpr (htext ch hch))
  rw [← makeTree_eq] at hbin hdec
  exact ⟨hbin, hdec⟩

/-! ## The archive with one tree for the folder -/

theorem writeGlobalRecords_cons (tree : HuffmanTree) (f : FileEntry) (fs : List FileEntry)
    (out : List Byte) :
    FolderCompressor.writeGlobalRecords tree (f :: fs) out =
      FolderCompressor.writeGlobalRecords tree fs
        (out ++ (VarInt.encode ((tree.encode f.relativePath).length % 2 ^ 32) ++
          (VarInt.encode ((tree.encode f.content).length % 2 ^ 32) ++
          (int32Bytes (toInt32 (tree.encode f.relativePath).length) ++
          (packBits (tree.encode f.relativePath) ++
          (int32Bytes (toInt32 (tree.encode f.content).length) ++
          packBits (tree.encode f.content))))))) := by
  simp [FolderCompressor.writeGlobalRecords, VarInt.write, FileCompressor.writeBits,
    List.append_assoc]

theorem writeGlobalRecords_append (tree : HuffmanTree) : ∀ (fs : List FileEntry)
    (out : List Byte), ∃ written, FolderCompressor.writeGlobalRecords tree fs out = out ++ written
  | [], out => ⟨[], by simp [FolderCompressor.writeGlobalRecords]⟩
  | f :: fs, out => by
    obtain ⟨w, hw⟩ := writeGlobalRecords_append tree fs
      (out ++ (VarInt.encode ((tree.encode f.relativePath).length % 2 ^ 32) ++
          (VarInt.encode ((tree.encode f.content).length % 2 ^ 32) ++
          (int32Bytes (toInt32 (tree.encode f.relativePath).length) ++
          (packBits (tree.encode f.relativePath) ++
          (int32Bytes (toInt32 (tree.encode f.content).length) ++
          packBits (tree.encode f.content)))))))
    rw [writeGlobalRecords_cons, hw]
    exact ⟨_, List.append_assoc _ _ _⟩

theorem mod_two_pow_32_lt (n : Nat) : n % 2 ^ 32 < 2 ^ 32 := Nat.mod_lt _ (by norm_num)

/-- One turn of the loop of `decompressGlobal` on the record of a file whose
encoded path fits the length field: the path comes back, the content is
whatever `readBits` returns for it. -/
theorem readGlobalRecords_record (root : HuffmanNode) (n : Nat) (path : List Byte)
    (pathCode : BitString) (contentLength : Nat) (rest : List Byte)
    (hbin : ∀ c ∈ pathCode, c = '0' ∨ c = '1') (hlen : pathCode.length ≤ 2 ^ 31 - 8)
    (hdec : decodeWithRoot root pathCode = path) :
    FolderCompressor.readGlobalRecords root (n + 1)
        (VarInt.encode (pathCode.length % 2 ^ 32) ++ (VarInt.encode (contentLength % 2 ^ 32) ++
          (int32Bytes (toInt32 pathCode.length) ++ (packBits pathCode ++ rest)))) =
      ⟨path, decodeWithRoot root (FileCompressor.readBits rest (-1)).1⟩ ::
        FolderCompressor.readGlobalRecords root n (FileCompressor.readBits rest (-1)).2 := by
  obtain ⟨written, hw, hread⟩ := readBits_writeBits pathCode [] rest hbin hlen
  rw [FileCompressor.writeBits, List.nil_append, List.nil_append] at hw
  rw [← hw, List.append_assoc] at hread
  simp only [FolderCompressor.readGlobalRecords]
  rw [VarInt.decode_encode_append _ (mod_two_pow_32_lt _)]
  simp only
  rw [VarInt.decode_encode_append _ (mod_two_pow_32_lt _)]
  simp only
  rw [hread]
  simp only [hdec]

theorem decompressGlobal_tree_bytes {t : HuffmanNode} (h : Full t) (rest : List Byte) :
    FolderCompressor.decompressGlobal (71 :: (treeBytes t ++ rest)) =
      some (FolderCompressor.readGlobalRecords (skeleton t) (VarInt.decode rest).1
        (VarInt.decode rest).2) := by
  obtain ⟨r', hd, hin⟩ := deserialize_serialize h rest
  have hsk := skeleton_full h
  unfold FolderCompressor.decompressGlobal
  simp only [ne_eq, not_true_eq_false, if_false, hd]
  generalize skeleton t = sk at hsk
  cases hsk with
  | leaf c f => simp [hin]
  | inner c f l r hl hr => simp [hin]

theorem compressWithGlobalTree_eq (order : IterationOrder)
    (tie : List (Byte × Int) → Nat → Nat) (files : List FileEntry) (hne : files ≠ []) :
    FolderCompressor.compressWithGlobalTree order tie files =
      some (FolderCompressor.writeGlobalRecords
        (makeTree tie (FolderCompressor.globalCharFreqs order files)) files
        (71 :: (treeBytes (makeTree tie (FolderCompressor.globalCharFreqs order files)).root ++
          VarInt.encode (files.length % 2 ^ 32)))) := by
  unfold FolderCompressor.compressWithGlobalTree
  have : files.isEmpty = false := by
    cases files with
    | nil => exact absurd rfl hne
    | cons _ _ => rfl
  simp only [this, Bool.false_eq_true, if_false, serialize_flush_out, VarInt.write]
  simp

/-- The records written for a list of files are read back as that list. -/
theorem readGlobalRecords_writeGlobalRecords (tree : HuffmanTree) (root : HuffmanNode) :
    ∀ (fs : List FileEntry),
    (∀ f ∈ fs, (∀ c ∈ tree.encode f.relativePath, c = '0' ∨ c = '1') ∧
      (∀ c ∈ tree.encode f.content, c = '0' ∨ c = '1') ∧
      decodeWithRoot root (tree.encode f.relativePath) = f.relativePath ∧
      decodeWithRoot root (tree.encode f.content) = f.content ∧
      (tree.encode f.relativePath).length ≤ 2 ^ 31 - 8 ∧
      (tree.encode f.content).length ≤ 2 ^ 31 - 8) →
    ∀ (out : List Byte), ∃ written,
      FolderCompressor.writeGlobalRecords tree fs out = out ++ written ∧
      FolderCompressor.readGlobalRecords root fs.length written = fs
  | [], _, out => ⟨[], by simp [FolderCompressor.writeGlobalRecords],
      by simp [FolderCompressor.readGlobalRecords]⟩
  | f :: fs, hfs, out => by
    obtain ⟨hb1, hb2, hd1, hd2, hl1, hl2⟩ := hfs f (by simp)
    obtain ⟨w, hw, hr⟩ := readGlobalRecords_writeGlobalRecords tree root fs
      (fun g hg => hfs g (List.mem_cons_of_mem _ hg))
      (out ++ (VarInt.encode ((tree.encode f.relativePath).length % 2 ^ 32) ++
          (VarInt.encode ((tree.encode f.content).length % 2 ^ 32) ++
          (int32Bytes (toInt32 (tree.encode f.relativePath).length) ++
          (packBits (tree.encode f.relativePath) ++
          (int32Bytes (toInt32 (tree.encode f.content).length) ++
          packBits (tree.encode f.content)))))))
    refine ⟨_, by rw [writeGlobalRecords_cons, hw, List.append_assoc], ?_⟩
    simp only [List.length_cons, List.append_assoc]
    rw [readGlobalRecords_record root fs.length f.relativePath _ _ _ hb1 hl1 hd1]
    obtain ⟨written, hww, hread⟩ := readBits_writeBits (tree.encode f.content) [] w hb2 hl2
    rw [FileCompressor.writeBits, List.nil_append, List.nil_append] at hww
    rw [← hww, List.append_assoc] at hread
    rw [hread]
    simp only [hd2, hr]

/-- The amended C3: for every non-empty list of fewer than `2^32` files, each
path with at least two distinct byte values and every encoded path and content
of at most `2^31 - 8` bits, `decompressGlobal` on the archive written by
`compressWithGlobalTree` yields the same paths and contents in the same order. -/
theorem global_roundtrip (order : IterationOrder) (tie : List (Byte × Int) → Nat → Nat)
    (files : List FileEntry) (hne : files ≠ []) (hcount : files.length < 2 ^ 32)
    (hpaths : ∀ f ∈ files, ∃ a ∈ f.relativePath, ∃ b ∈ f.relativePath, a ≠ b)
    (hlen : ∀ f ∈ files,
      ((makeTree tie (FolderCompressor.globalCharFreqs order files)).encode
        f.relativePath).length ≤ 2 ^ 31 - 8 ∧
      ((makeTree tie (FolderCompressor.globalCharFreqs order files)).encode
        f.content).length ≤ 2 ^ 31 - 8) :
    ∃ archive, FolderCompressor.compressWithGlobalTree order tie files = some archive ∧
      FolderCompressor.decompressGlobal archive = some files := by
  have h2 : 2 ≤ (FolderCompressor.globalCharFreqs order files).length := by
    obtain ⟨f, hf⟩ := List.exists_mem_of_ne_nil files hne
    obtain ⟨a, ha, b, hb, hab⟩ := hpaths f hf
    have := two_le_length_of_mem_ne
      ((mem_keys_globalCharFreqs order files a).mpr ⟨f, hf, Or.inl ha⟩)
      ((mem_keys_globalCharFreqs order files b).mpr ⟨f, hf, Or.inl hb⟩) hab
    simpa using this
  obtain ⟨hfull, _, _, htext⟩ := makeTree_spec tie _ h2
  have hfs : ∀ f ∈ files,
      (∀ c ∈ (makeTree tie (FolderCompressor.globalCharFreqs order files)).encode f.relativePath,
        c = '0' ∨ c = '1') ∧
      (∀ c ∈ (makeTree tie (FolderCompressor.globalCharFreqs order files)).encode f.content,
        c = '0' ∨ c = '1') ∧
      decodeWithRoot (skeleton (makeTree tie (FolderCompressor.globalCharFreqs order files)).root)
        ((makeTree tie (FolderCompressor.globalCharFreqs order files)).encode f.relativePath)
        = f.relativePath ∧
      decodeWithRoot (skeleton (makeTree tie (FolderCompressor.globalCharFreqs order files)).root)
        ((makeTree tie (FolderCompressor.globalCharFreqs order files)).encode f.content)
        = f.content ∧
      ((makeTree tie (FolderCompressor.globalCharFreqs order files)).encode
        f.relativePath).length ≤ 2 ^ 31 - 8 ∧
      ((makeTree tie (FolderCompressor.globalCharFreqs order files)).encode
        f.content).length ≤ 2 ^ 31 - 8 := by
    intro f hf
    have hp := htext f.relativePath
      (fun ch hch => (mem_keys_globalCharFreqs order files ch).mpr ⟨f, hf, Or.inl hch⟩)
    have hc := htext f.content
      (fun ch hch => (mem_keys_globalCharFreqs order files ch).mpr ⟨f, hf, Or.inr hch⟩)
    exact ⟨hp.1, hc.1, hp.2, hc.2, (hlen f hf).1, (hlen f hf).2⟩
  obtain ⟨written, hw, hr⟩ := readGlobalRecords_writeGlobalRecords _ _ files hfs
    (71 :: (treeBytes (makeTree tie (FolderCompressor.globalCharFreqs order files)).root ++
      VarInt.encode (files.length % 2 ^ 32)))
  refine ⟨_, compressWithGlobalTree_eq order tie files hne, ?_⟩
  rw [hw, List.cons_append, List.append_assoc, decompressGlobal_tree_bytes hfull,
    VarInt.decode_encode_append _ (mod_two_pow_32_lt _), Nat.mod_eq_of_lt hcount]
  simp only [hr]

/-! ## The archive with one tree per file -/

theorem writeSeparateRecords_cons (order : IterationOrder)
    (tie : List (Byte × Int) → Nat → Nat) (f : FileEntry) (fs : List FileEntry)
    (out : List Byte) :
    FolderCompressor.writeSeparateRecords order tie (f :: fs) out =
      FolderCompressor.writeSeparateRecords order tie fs
        (out ++ (treeBytes (makeTree tie (getFrequencies order
            (f.relativePath ++ f.content))).root ++
          (VarInt.encode (((makeTree tie (getFrequencies order
            (f.relativePath ++ f.content))).encode f.relativePath).length % 2 ^ 32) ++
          (VarInt.encode (((makeTree tie (getFrequencies order
            (f.relativePath ++ f.content))).encode f.content).length % 2 ^ 32) ++
          (packBits ((makeTree tie (getFrequencies order
            (f.relativePath ++ f.content))).encode f.relativePath) ++
          packBits ((makeTree tie (getFrequencies order
            (f.relativePath ++ f.content))).encode f.content)))))) := by
  simp [FolderCompressor.writeSeparateRecords, VarInt.write, serialize_flush_out,
    List.append_assoc]

theorem writeSeparateRecords_append (order : IterationOrder)
    (tie : List (Byte × Int) → Nat → Nat) : ∀ (fs : List FileEntry) (out : List Byte),
    ∃ written, FolderCompressor.writeSeparateRecords order tie fs out = out ++ written
  | [], out => ⟨[], by simp [FolderCompressor.writeSeparateRecords]⟩
  | f :: fs, out => by
    rw [writeSeparateRecords_cons]
    obtain ⟨w, hw⟩ := writeSeparateRecords_append order tie fs
      (out ++ (treeBytes (makeTree tie (getFrequencies order
            (f.relativePath ++ f.content))).root ++
          (VarInt.encode (((makeTree tie (getFrequencies order
            (f.relativePath ++ f.content))).encode f.relativePath).length % 2 ^ 32) ++
          (VarInt.encode (((makeTree tie (getFrequencies order
            (f.relativePath ++ f.content))).encode f.content).length % 2 ^ 32) ++
          (packBits ((makeTree tie (getFrequencies order
            (f.relativePath ++ f.content))).encode f.relativePath) ++
          packBits ((makeTree tie (getFrequencies order
            (f.relativePath ++ f.content))).encode f.content))))))
    rw [hw]
    exact ⟨_, List.append_assoc _ _ _⟩

/-- One turn of the loop of `decompressSeparate` on the record of a file whose
encoded path fits the length field: the path comes back, the content is
whatever `readBits` returns for it. -/
theorem readSeparateRecords_record {t : HuffmanNode} (h : Full t) (n : Nat) (path : List Byte)
    (pathCode : BitString) (contentLength : Nat) (rest : List Byte)
    (hbin : ∀ c ∈ pathCode, c = '0' ∨ c = '1') (hlen : pathCode.length ≤ 2 ^ 31 - 8)
    (hdec : decodeWithRoot (skeleton t) pathCode = path) :
    FolderCompressor.readSeparateRecords (n + 1)
        (treeBytes t ++ (VarInt.encode (pathCode.length % 2 ^ 32) ++
          (VarInt.encode (contentLength % 2 ^ 32) ++ (packBits pathCode ++ rest)))) =
      ⟨path, decodeWithRoot (skeleton t)
          (FileCompressor.readBits rest (toInt32 ((contentLength % 2 ^ 32 : Nat) : Int))).1⟩ ::
        FolderCompressor.readSeparateRecords n
          (FileCompressor.readBits rest (toInt32 ((contentLength % 2 ^ 32 : Nat) : Int))).2 := by
  obtain ⟨r', hd, hin⟩ := deserialize_serialize h
    (VarInt.encode (pathCode.length % 2 ^ 32) ++
      (VarInt.encode (contentLength % 2 ^ 32) ++ (packBits pathCode ++ rest)))
  simp only [FolderCompressor.readSeparateRecords, hd, hin]
  rw [VarInt.decode_encode_append _ (mod_two_pow_32_lt _)]
  simp only
  rw [VarInt.decode_encode_append _ (mod_two_pow_32_lt _)]
  simp only
  rw [readBits_packBits pathCode rest hbin hlen]
  simp only [hdec]

theorem decompressSeparate_count (count : Nat) (rest : List Byte) :
    FolderCompressor.decompressSeparate (83 :: (VarInt.encode (count % 2 ^ 32) ++ rest)) =
      some (FolderCompressor.readSeparateRecords (count % 2 ^ 32) rest) := by
  unfold FolderCompressor.decompressSeparate
  simp only [ne_eq, not_true_eq_false, if_false]
  rw [VarInt.decode_encode_append _ (mod_two_pow_32_lt _)]

theorem compressWithSeparateTrees_eq (order : IterationOrder)
    (tie : List (Byte × Int) → Nat → Nat) (files : List FileEntry) (hne : files ≠ []) :
    FolderCompressor.compressWithSeparateTrees order tie files =
      some (FolderCompressor.writeSeparateRecords order tie files
        (83 :: VarInt.encode (files.length % 2 ^ 32))) := by
  unfold FolderCompressor.compressWithSeparateTrees
  have : files.isEmpty = false := by
    cases files with
    | nil => exact absurd rfl hne
    | cons _ _ => rfl
  simp only [this, Bool.false_eq_true, if_false, VarInt.write]
  simp

/-- What the separate compressor and its reader need from the tree of one
file whose path has two distinct byte values. -/
theorem fileTree_spec (order : IterationOrder) (tie : List (Byte × Int) → Nat → Nat)
    (f : FileEntry) (hpath : ∃ a ∈ f.relativePath, ∃ b ∈ f.relativePath, a ≠ b) :
    Full (makeTree tie (getFrequencies order (f.relativePath ++ f.content))).root ∧
      (∀ text, (∀ ch ∈ text, ch ∈ f.relativePath ++ f.content) →
        (∀ c ∈ (makeTree tie (getFrequencies order (f.relativePath ++ f.content))).encode text,
          c = '0' ∨ c = '1') ∧
        decodeWithRoot
          (skeleton (makeTree tie (getFrequencies order (f.relativePath ++ f.content))).root)
          ((makeTree tie (getFrequencies order (f.relativePath ++ f.content))).encode text)
          = text) := by
  obtain ⟨a, ha, b, hb, hab⟩ := hpath
  have h2 := two_le_length_getFrequencies order (f.relativePath ++ f.content)
    ⟨a, List.mem_append_left _ ha, b, List.mem_append_left _ hb, hab⟩
  obtain ⟨hfull, _, _, htext⟩ := makeTree_spec tie _ h2
  refine ⟨hfull, fun text ht => htext text ?_⟩
  intro ch hch
  exact (mem_keys_getFrequencies order _ ch).mpr (ht ch hch)

/-- The records written for a list of files are read back as that list. -/
theorem readSeparateRecords_writeSeparateRecords (order : IterationOrder)
    (tie : List (Byte × Int) → Nat → Nat) : ∀ (fs : List FileEntry),
    (∀ f ∈ fs, ∃ a ∈ f.relativePath, ∃ b ∈ f.relativePath, a ≠ b) →
    (∀ f ∈ fs,
      ((makeTree tie (getFrequencies order (f.relativePath ++ f.content))).encode
        f.relativePath).length ≤ 2 ^ 31 - 8 ∧
      ((makeTree tie (getFrequencies order (f.relativePath ++ f.content))).encode
        f.content).length ≤ 2 ^ 31 - 8) →
    ∀ (out : List Byte), ∃ written,
      FolderCompressor.writeSeparateRecords order tie fs out = out ++ written ∧
      FolderCompressor.readSeparateRecords fs.length written = fs
  | [], _, _, out => ⟨[], by simp [FolderCompressor.writeSeparateRecords],
      by simp [FolderCompressor.readSeparateRecords]⟩
  | f :: fs, hpaths, hlen, out => by
    obtain ⟨hfull, htext⟩ := fileTree_spec order tie f (hpaths f (by simp))
    have hp := htext f.relativePath (fun ch hch => List.mem_append_left _ hch)
    have hc := htext f.content (fun ch hch => List.mem_append_right _ hch)
    obtain ⟨hl1, hl2⟩ := hlen f (by simp)
    rw [writeSeparateRecords_cons]
    obtain ⟨w, hw, hr⟩ := readSeparateRecords_writeSeparateRecords order tie fs
      (fun g hg => hpaths g (List.mem_cons_of_mem _ hg))
      (fun g hg => hlen g (List.mem_cons_of_mem _ hg))
      (out ++ (treeBytes (makeTree tie (getFrequencies order
            (f.relativePath ++ f.content))).root ++
          (VarInt.encode (((makeTree tie (getFrequencies order
            (f.relativePath ++ f.content))).encode f.relativePath).length % 2 ^ 32) ++
          (VarInt.encode (((makeTree tie (getFrequencies order
            (f.relativePath ++ f.content))).encode f.content).length % 2 ^ 32) ++
          (packBits ((makeTree tie (getFrequencies order
            (f.relativePath ++ f.content))).encode f.relativePath) ++
          packBits ((makeTree tie (getFrequencies order
            (f.relativePath ++ f.content))).encode f.content))))))
    refine ⟨_, by rw [hw, List.append_assoc], ?_⟩
    simp only [List.length_cons, List.append_assoc]
    rw [readSeparateRecords_record hfull fs.length f.relativePath _ _ _ hp.1 hl1 hp.2,
      readBits_packBits _ w hc.1 hl2]
    simp only [hc.2, hr]

/-- The amended C4: for every non-empty list of fewer than `2^32` files, each
path with at least two distinct byte values and every encoded path and content
of at most `2^31 - 8` bits, `decompressSeparate` on the archive written by
`compressWithSeparateTrees` yields the same paths and contents in the same
order. -/
theorem separate_roundtrip (order : IterationOrder) (tie : List (Byte × Int) → Nat → Nat)
    (files : List FileEntry) (hne : files ≠ []) (hcount : files.length < 2 ^ 32)
    (hpaths : ∀ f ∈ files, ∃ a ∈ f.relativePath, ∃ b ∈ f.relativePath, a ≠ b)
    (hlen : ∀ f ∈ files,
      ((makeTree tie (getFrequencies order (f.relativePath ++ f.content))).encode
        f.relativePath).length ≤ 2 ^ 31 - 8 ∧
      ((makeTree tie (getFrequencies order (f.relativePath ++ f.content))).encode
        f.content).length ≤ 2 ^ 31 - 8) :
    ∃ archive, FolderCompressor.compressWithSeparateTrees order tie files = some archive ∧
      FolderCompressor.decompressSeparate archive = some files := by
  obtain ⟨written, hw, hr⟩ := readSeparateRecords_writeSeparateRecords order tie files hpaths hlen
    (83 :: VarInt.encode (files.length % 2 ^ 32))
  refine ⟨_, compressWithSeparateTrees_eq order tie files hne, ?_⟩
  rw [hw, List.cons_append, decompressSeparate_count, Nat.mod_eq_of_lt hcount, hr]

/-! ## Folders the archives do not give back -/

theorem numberedFile_injective (i j : Nat) (hi : i < 2 ^ 32) (hj : j < 2 ^ 32)
    (h : (numberedFile i).relativePath = (numberedFile j).relativePath) : i = j := by
  simp only [numberedFile, List.cons.injEq, and_true, true_and] at h
  obtain ⟨h0, h1, h2, h3⟩ := h
  have e0 := congrArg Fin.val h0
  have e1 := congrArg Fin.val h1
  have e2 := congrArg Fin.val h2
  have e3 := congrArg Fin.val h3
  simp only [Fin.ofNat] at e0 e1 e2 e3
  norm_num at hi hj
  omega

/-- The files `numberedFile 0`, ..., `numberedFile (2^32 - 1)` form a folder
the claims speak about: the paths differ and each has two byte values. -/
theorem numberedFiles_wellformed :
    (((List.range (2 ^ 32)).map numberedFile).map (fun f => f.relativePath)).Nodup ∧
      (∀ f ∈ (List.range (2 ^ 32)).map numberedFile,
        ∃ a ∈ f.relativePath, ∃ b ∈ f.relativePath, a ≠ b) ∧
      ((List.range (2 ^ 32)).map numberedFile).length = 2 ^ 32 := by
  refine ⟨?_, ?_, by rw [List.length_map, List.length_range]⟩
  · rw [List.map_map]
    refine List.Nodup.map_on ?_ (List.nodup_range _)
    intro i hi j hj h
    exact numberedFile_injective i j (List.mem_range.mp hi) (List.mem_range.mp hj) h
  · intro f hf
    obtain ⟨i, _, rfl⟩ := List.mem_map.mp hf
    exact ⟨97, by simp [numberedFile], 98, by simp [numberedFile], by decide⟩

theorem length_globalCharFreqs_of_two (order : IterationOrder) (files : List FileEntry)
    (a b : Byte) (hab : a ≠ b)
    (hS : ∀ c, (∃ f ∈ files, c ∈ f.relativePath ∨ c ∈ f.content) ↔ c = a ∨ c = b) :
    (FolderCompressor.globalCharFreqs order files).length = 2 := by
  have hnd := nodup_keys_globalCharFreqs order files
  have hperm : ((FolderCompressor.globalCharFreqs order files).map (fun p => p.1)).Perm [a, b] := by
    rw [List.perm_ext_iff_of_nodup hnd (by simp [hab])]
    intro c
    rw [mem_keys_globalCharFreqs, hS]
    simp
  simpa using hperm.length_eq

/-- The code lengths of a tree with two leaves. -/
theorem makeTree_two_entries (tie : List (Byte × Int) → Nat → Nat)
    (charFreqs : List (Byte × Int)) (h2 : charFreqs.length = 2) (text : List Byte)
    (htext : ∀ ch ∈ text, ch ∈ charFreqs.map (fun p => p.1)) :
    ((makeTree tie charFreqs).encode text).length = text.length := by
  have hne : charFreqs ≠ [] := by intro h0; rw [h0] at h2; simp at h2
  obtain ⟨hfull, hperm⟩ := buildFromFrequencies_full (tie charFreqs) charFreqs hne
  have hinner := buildFromFrequencies_inner (tie charFreqs) charFreqs (by rw [h2])
  have hunit := paths_length_of_two_leaves hfull (by rw [hperm.length_eq]; exact h2)
  have hmem := leafChars_buildFromFrequencies (tie charFreqs) charFreqs hne
  have := encode_length_of_unit_paths hfull hinner hunit text
    (fun ch hch => (hmem ch).mpr (htext ch hch))
  rw [← makeTree_root, ← makeTree_eq] at this
  exact this

theorem mem_pair_replicate (a b c : Byte) (n : Nat) :
    (c ∈ [a, b] ∨ c ∈ List.replicate n a) ↔ c = a ∨ c = b := by
  simp only [List.mem_cons, List.mem_singleton, List.not_mem_nil, or_false, List.mem_replicate]
  constructor
  · rintro (h | ⟨_, h⟩)
    · exact h
    · exact Or.inl h
  · intro h; exact Or.inl h

/-- A folder of one file with `2^31 - 7` to `2^31 - 1` equal bytes: the
global archive gives the file back empty. -/
theorem global_long_content_read_back_empty (order : IterationOrder)
    (tie : List (Byte × Int) → Nat → Nat) (a b : Byte) (n : Nat) (hab : a ≠ b)
    (h1 : 2 ^ 31 - 7 ≤ n) (h2 : n < 2 ^ 31) :
    ∃ archive, FolderCompressor.compressWithGlobalTree order tie
        [⟨[a, b], List.replicate n a⟩] = some archive ∧
      FolderCompressor.decompressGlobal archive = some [⟨[a, b], []⟩] := by
  have h31 : (2 : Nat) ^ 31 = 2147483648 := by norm_num
  have hS : ∀ c, (∃ f ∈ [(⟨[a, b], List.replicate n a⟩ : FileEntry)],
      c ∈ f.relativePath ∨ c ∈ f.content) ↔ c = a ∨ c = b := by
    intro c
    simp only [List.mem_singleton, exists_eq_left]
    exact mem_pair_replicate a b c n
  have hlen2 := length_globalCharFreqs_of_two order _ a b hab hS
  have hkeys : ∀ c, c ∈ (FolderCompressor.globalCharFreqs order
      [⟨[a, b], List.replicate n a⟩]).map (fun p => p.1) ↔ c = a ∨ c = b := by
    intro c; rw [mem_keys_globalCharFreqs, hS]
  obtain ⟨hfull, _, _, htext⟩ := makeTree_spec tie _ (le_of_eq hlen2.symm)
  have hpath := htext [a, b] (by
    intro ch hch
    rw [hkeys]
    simpa using hch)
  have hplen := makeTree_two_entries tie _ hlen2 [a, b] (by
    intro ch hch
    rw [hkeys]
    simpa using hch)
  have hclen := makeTree_two_entries tie _ hlen2 (List.replicate n a) (by
    intro ch hch
    rw [hkeys]
    exact Or.inl (List.eq_of_mem_replicate hch))
  refine ⟨_, compressWithGlobalTree_eq order tie _ (by simp), ?_⟩
  rw [writeGlobalRecords_cons]
  simp only [FolderCompressor.writeGlobalRecords, List.cons_append, List.append_assoc]
  rw [decompressGlobal_tree_bytes hfull, VarInt.decode_encode_append _ (mod_two_pow_32_lt _)]
  simp only [List.length_singleton]
  have h1mod : 1 % 2 ^ 32 = 1 := by norm_num
  rw [h1mod, readGlobalRecords_record _ 0 [a, b] _ _ _ hpath.1
    (by rw [hplen]; simp only [List.length_cons, List.length_nil]; omega) hpath.2]
  have hr := readBits_overflow
    (((makeTree tie (FolderCompressor.globalCharFreqs order
      [⟨[a, b], List.replicate n a⟩])).encode (List.replicate n a)).length : Int)
    (packBits ((makeTree tie (FolderCompressor.globalCharFreqs order
      [⟨[a, b], List.replicate n a⟩])).encode (List.replicate n a)))
    (by rw [hclen, List.length_replicate]; omega)
    (by rw [hclen, List.length_replicate]; omega)
  rw [hr, decodeWithRoot_nil]
  simp [FolderCompressor.readGlobalRecords]

/-- A folder of `2^32` files: the global archive holds the count 0 and gives
back no file. -/
theorem global_count_wraps_to_zero (order : IterationOrder)
    (tie : List (Byte × Int) → Nat → Nat) (files : List FileEntry)
    (hlen : files.length = 2 ^ 32) (hbyte : ∃ f ∈ files, ∃ c, c ∈ f.relativePath) :
    ∃ archive, FolderCompressor.compressWithGlobalTree order tie files = some archive ∧
      FolderCompressor.decompressGlobal archive = some [] := by
  have hne : files ≠ [] := by intro h0; rw [h0] at hlen; norm_num at hlen
  have hcf : FolderCompressor.globalCharFreqs order files ≠ [] := by
    obtain ⟨f, hf, c, hc⟩ := hbyte
    have := (mem_keys_globalCharFreqs order files c).mpr ⟨f, hf, Or.inl hc⟩
    intro h0
    rw [h0] at this
    simp at this
  have hfull := (buildFromFrequencies_full
    (tie (FolderCompressor.globalCharFreqs order files)) _ hcf).1
  rw [← makeTree_root] at hfull
  obtain ⟨written, hw⟩ := writeGlobalRecords_append
    (makeTree tie (FolderCompressor.globalCharFreqs order files)) files
    (71 :: (treeBytes (makeTree tie (FolderCompressor.globalCharFreqs order files)).root ++
      VarInt.encode (files.length % 2 ^ 32)))
  refine ⟨_, compressWithGlobalTree_eq order tie files hne, ?_⟩
  rw [hw, List.cons_append, List.append_assoc, decompressGlobal_tree_bytes hfull,
    VarInt.decode_encode_append _ (mod_two_pow_32_lt _), hlen, Nat.mod_self]
  simp [FolderCompressor.readGlobalRecords]

/-- A folder of one file with `2^31 - 7` to `2^31 - 1` equal bytes: the
archive with separate trees gives the file back empty. -/
theorem separate_long_content_read_back_empty (order : IterationOrder)
    (tie : List (Byte × Int) → Nat → Nat) (a b : Byte) (n : Nat) (hab : a ≠ b)
    (h1 : 2 ^ 31 - 7 ≤ n) (h2 : n < 2 ^ 31) :
    ∃ archive, FolderCompressor.compressWithSeparateTrees order tie
        [⟨[a, b], List.replicate n a⟩] = some archive ∧
      FolderCompressor.decompressSeparate archive = some [⟨[a, b], []⟩] := by
  have h31 : (2 : Nat) ^ 31 = 2147483648 := by norm_num
  have hS : ∀ c, c ∈ a :: b :: List.replicate n a ↔ c = a ∨ c = b := by
    intro c
    have := mem_pair_replicate a b c n
    simp only [List.mem_cons, List.mem_singleton, List.not_mem_nil, or_false] at this ⊢
    rw [← this]
    tauto
  have hlen2 := length_getFrequencies_of_two order _ a b hab hS
  have hkeys : ∀ c, c ∈ (getFrequencies order (a :: b :: List.replicate n a)).map
      (fun p => p.1) ↔ c = a ∨ c = b := by
    intro c; rw [mem_keys_getFrequencies, hS]
  obtain ⟨hfull, _, _, htext⟩ := makeTree_spec tie _ (le_of_eq hlen2.symm)
  have hpath := htext [a, b] (by
    intro ch hch
    rw [hkeys]
    simpa using hch)
  have hplen := makeTree_two_entries tie _ hlen2 [a, b] (by
    intro ch hch
    rw [hkeys]
    simpa using hch)
  have hclen := makeTree_two_entries tie _ hlen2 (List.replicate n a) (by
    intro ch hch
    rw [hkeys]
    exact Or.inl (List.eq_of_mem_replicate hch))
  refine ⟨_, compressWithSeparateTrees_eq order tie _ (by simp), ?_⟩
  rw [writeSeparateRecords_cons]
  simp only [FolderCompressor.writeSeparateRecords, List.cons_append, List.append_assoc,
    List.nil_append]
  rw [decompressSeparate_count]
  simp only [List.length_singleton]
  have h1mod : 1 % 2 ^ 32 = 1 := by norm_num
  rw [h1mod, readSeparateRecords_record hfull 0 [a, b] _ _ _ hpath.1
    (by rw [hplen]; simp only [List.length_cons, List.length_nil]; omega) hpath.2]
  have hcmod : ((makeTree tie (getFrequencies order (a :: b :: List.replicate n a))).encode
      (List.replicate n a)).length % 2 ^ 32 = n := by
    rw [hclen, List.length_replicate]
    exact Nat.mod_eq_of_lt (by omega)
  have hto : toInt32 ((n : Nat) : Int) = (n : Int) := toInt32_of_range _ (by omega) (by omega)
  have hge : ¬ ((n : Int) < 0) := by omega
  rw [hcmod, hto]
  unfold FileCompressor.readBits
  simp only [hge, if_false]
  rw [readBitsBody_overflow _ (n : Int) (by omega) (by omega), decodeWithRoot_nil]
  simp [FolderCompressor.readSeparateRecords]

/-- A folder of `2^32` files: the archive with separate trees holds the count
0 and gives back no file. -/
theorem separate_count_wraps_to_zero (order : IterationOrder)
    (tie : List (Byte × Int) → Nat → Nat) (files : List FileEntry)
    (hlen : files.length = 2 ^ 32) :
    ∃ archive, FolderCompressor.compressWithSeparateTrees order tie files = some archive ∧
      FolderCompressor.decompressSeparate archive = some [] := by
  have hne : files ≠ [] := by intro h0; rw [h0] at hlen; norm_num at hlen
  obtain ⟨written, hw⟩ := writeSeparateRecords_append order tie files
    (83 :: VarInt.encode (files.length % 2 ^ 32))
  refine ⟨_, compressWithSeparateTrees_eq order tie files hne, ?_⟩
  rw [hw, List.cons_append, decompressSeparate_count, hlen, Nat.mod_self]
  simp [FolderCompressor.readSeparateRecords]

theorem singleton_entry_ne (p : List Byte) (n : Nat) (hn : n ≠ 0) :
    (some [⟨p, []⟩] : Option (List FileEntry)) ≠ some [⟨p, List.replicate n 97⟩] := by
  intro h
  have h1 := (List.cons.inj (Option.some.inj h)).1
  have h2 := congrArg (fun f => f.content.length) h1
  simp only [List.length_nil, List.length_replicate] at h2
  exact hn h2.symm

theorem numberedFiles_ne_nil : (List.range (2 ^ 32)).map numberedFile ≠ [] := by
  intro h
  have := congrArg List.length h
  rw [List.length_map, List.length_range] at this
  norm_num at this

theorem none_ne_numberedFiles :
    (some [] : Option (List FileEntry)) ≠ some ((List.range (2 ^ 32)).map numberedFile) :=
  fun h => numberedFiles_ne_nil (Option.some.inj h).symm

/-- C3 fails at two folders. For the folder of one file `ab` that holds
`2^31 - 7` times the byte `a`, the archive is written and `decompressGlobal`
succeeds with an empty file `ab`. For the folder of the `2^32` empty files
`numberedFile i`, whose paths differ and have two byte values each, the
archive is written and `decompressGlobal` succeeds without writing a file. -/
theorem global_roundtrip_counterexample :
    (∃ archive, FolderCompressor.compressWithGlobalTree IterationOrder.insertion (fun _ _ => 0)
        [⟨[97, 98], List.replicate (2 ^ 31 - 7) 97⟩] = some archive ∧
      FolderCompressor.decompressGlobal archive = some [⟨[97, 98], []⟩] ∧
      (some [⟨[97, 98], []⟩] : Option (List FileEntry)) ≠
        some [⟨[97, 98], List.replicate (2 ^ 31 - 7) 97⟩]) ∧
    ((((List.range (2 ^ 32)).map numberedFile).map (fun f => f.relativePath)).Nodup ∧
      (∀ f ∈ (List.range (2 ^ 32)).map numberedFile,
        ∃ a ∈ f.relativePath, ∃ b ∈ f.relativePath, a ≠ b) ∧
      ∃ archive, FolderCompressor.compressWithGlobalTree IterationOrder.insertion (fun _ _ => 0)
        ((List.range (2 ^ 32)).map numberedFile) = some archive ∧
      FolderCompressor.decompressGlobal archive = some [] ∧
      (some [] : Option (List FileEntry)) ≠ some ((List.range (2 ^ 32)).map numberedFile)) := by
  constructor
  · obtain ⟨archive, hc, hd⟩ := global_long_content_read_back_empty IterationOrder.insertion
      (fun _ _ => 0) 97 98 (2 ^ 31 - 7) (by decide) le_rfl (by norm_num)
    exact ⟨archive, hc, hd, singleton_entry_ne _ _ (by norm_num)⟩
  · obtain ⟨hnd, htwo, hlen⟩ := numberedFiles_wellformed
    obtain ⟨f, hf⟩ := List.exists_mem_of_ne_nil _ numberedFiles_ne_nil
    obtain ⟨a, ha, _⟩ := htwo f hf
    obtain ⟨archive, hc, hd⟩ := global_count_wraps_to_zero IterationOrder.insertion
      (fun _ _ => 0) _ hlen ⟨f, hf, a, ha⟩
    exact ⟨hnd, htwo, archive, hc, hd, none_ne_numberedFiles⟩

/-- C4 fails at two folders. For the folder of one file `ab` that holds
`2^31 - 7` times the byte `a`, the archive is written and `decompressSeparate`
succeeds with an empty file `ab`. For the folder of the `2^32` empty files
`numberedFile i`, whose paths differ and have two byte values each, the
archive is written and `decompressSeparate` succeeds without writing a file. -/
theorem separate_roundtrip_counterexample :
    (∃ archive, FolderCompressor.compressWithSeparateTrees IterationOrder.insertion
        (fun _ _ => 0) [⟨[97, 98], List.replicate (2 ^ 31 - 7) 97⟩] = some archive ∧
      FolderCompressor.decompressSeparate archive = some [⟨[97, 98], []⟩] ∧
      (some [⟨[97, 98], []⟩] : Option (List FileEntry)) ≠
        some [⟨[97, 98], List.replicate (2 ^ 31 - 7) 97⟩]) ∧
    ((((List.range (2 ^ 32)).map numberedFile).map (fun f => f.relativePath)).Nodup ∧
      (∀ f ∈ (List.range (2 ^ 32)).map numberedFile,
        ∃ a ∈ f.relativePath, ∃ b ∈ f.relativePath, a ≠ b) ∧
      ∃ archive, FolderCompressor.compressWithSeparateTrees IterationOrder.insertion
        (fun _ _ => 0) ((List.range (2 ^ 32)).map numberedFile) = some archive ∧
      FolderCompressor.decompressSeparate archive = some [] ∧
      (some [] : Option (List FileEntry)) ≠ some ((List.range (2 ^ 32)).map numberedFile)) := by
  constructor
  · obtain ⟨archive, hc, hd⟩ := separate_long_content_read_back_empty IterationOrder.insertion
      (fun _ _ => 0) 97 98 (2 ^ 31 - 7) (by decide) le_rfl (by norm_num)
    exact ⟨archive, hc, hd, singleton_entry_ne _ _ (by norm_num)⟩
  · obtain ⟨hnd, htwo, hlen⟩ := numberedFiles_wellformed
    obtain ⟨archive, hc, hd⟩ := separate_count_wraps_to_zero IterationOrder.insertion
      (fun _ _ => 0) _ hlen
    exact ⟨hnd, htwo, archive, hc, hd, none_ne_numberedFiles⟩

set_option maxRecDepth 100000 in
theorem global_roundtrip_witness :
    sampleFolder ≠ [] ∧ sampleFolder.length < 2 ^ 32 ∧
    (∀ f ∈ sampleFolder, ∃ a ∈ f.relativePath, ∃ b ∈ f.relativePath, a ≠ b) ∧
    (∀ f ∈ sampleFolder,
      ((makeTree (fun _ _ => 0) (FolderCompressor.globalCharFreqs IterationOrder.insertion
        sampleFolder)).encode f.relativePath).length ≤ 2 ^ 31 - 8 ∧
      ((makeTree (fun _ _ => 0) (FolderCompressor.globalCharFreqs IterationOrder.insertion
        sampleFolder)).encode f.content).length ≤ 2 ^ 31 - 8) ∧
    ∃ archive, FolderCompressor.compressWithGlobalTree IterationOrder.insertion (fun _ _ => 0)
        sampleFolder = some archive ∧
      FolderCompressor.decompressGlobal archive = some sampleFolder :=
  ⟨by decide, by decide, by decide, by decide,
    global_roundtrip IterationOrder.insertion (fun _ _ => 0) sampleFolder
      (by decide) (by decide) (by decide) (by decide)⟩

set_option maxRecDepth 100000 in
theorem separate_roundtrip_witness :
    sampleFolder ≠ [] ∧ sampleFolder.length < 2 ^ 32 ∧
    (∀ f ∈ sampleFolder, ∃ a ∈ f.relativePath, ∃ b ∈ f.relativePath, a ≠ b) ∧
    (∀ f ∈ sampleFolder,
      ((makeTree (fun _ _ => 0) (getFrequencies IterationOrder.insertion
        (f.relativePath ++ f.content))).encode f.relativePath).length ≤ 2 ^ 31 - 8 ∧
      ((makeTree (fun _ _ => 0) (getFrequencies IterationOrder.insertion
        (f.relativePath ++ f.content))).encode f.content).length ≤ 2 ^ 31 - 8) ∧
    ∃ archive, FolderCompressor.compressWithSeparateTrees IterationOrder.insertion
        (fun _ _ => 0) sampleFolder = some archive ∧
      FolderCompressor.decompressSeparate archive = some sampleFolder :=
  ⟨by decide, by decide, by decide, by decide,
    separate_roundtrip IterationOrder.insertion (fun _ _ => 0) sampleFolder
      (by decide) (by decide) (by decide) (by decide)⟩

/-! ## Depths of the leaves of binary trees -/

theorem Shape.card_pos {D : Multiset Nat} (h : Shape D) : 0 < Multiset.card D := by
  cases h <;> simp

/-- Among two or more leaf depths the largest one occurs twice, and merging
two leaves of that depth into their parent gives leaf depths again. -/
theorem Shape.top_pair {D : Multiset Nat} (h : Shape D) : 2 ≤ Multiset.card D →
    ∃ L D0, D = (L + 1) ::ₘ (L + 1) ::ₘ D0 ∧ (∀ d ∈ D0, d ≤ L + 1) ∧ Shape (L ::ₘ D0) := by
  induction h with
  | single => intro hc; simp at hc
  | split D d h ih =>
    intro _
    by_cases hcard : 2 ≤ Multiset.card (d ::ₘ D)
    · obtain ⟨L, E, hE, hmax, hsh⟩ := ih hcard
      by_cases hd : d = L + 1
      · subst hd
        have hD : D = (L + 1) ::ₘ E := (Multiset.cons_inj_right _).mp hE
        refine ⟨L + 1, D, rfl, ?_, h⟩
        intro x hx
        rw [hD] at hx
        rcases Multiset.mem_cons.mp hx with rfl | hx
        · omega
        · have := hmax x hx; omega
      · rcases Multiset.cons_eq_cons.mp hE with ⟨h1, _⟩ | ⟨_, cs, hD, hcs⟩
        · exact absurd h1 hd
        · have hdE : d ∈ E := by
            have : d ∈ (L + 1) ::ₘ E := by rw [hcs]; exact Multiset.mem_cons_self _ _
            rcases Multiset.mem_cons.mp this with h1 | h1
            · exact absurd h1 hd
            · exact h1
          obtain ⟨E', rfl⟩ := Multiset.exists_cons_of_mem hdE
          have hcs' : cs = (L + 1) ::ₘ E' := by
            rw [Multiset.cons_swap] at hcs
            exact ((Multiset.cons_inj_right _).mp hcs).symm
          have hdle : d ≤ L + 1 := hmax d (Multiset.mem_cons_self _ _)
          refine ⟨L, (d + 1) ::ₘ (d + 1) ::ₘ E', ?_, ?_, ?_⟩
          · rw [hD, hcs']
            simp only [← Multiset.singleton_add]
            abel
          · intro x hx
            rcases Multiset.mem_cons.mp hx with rfl | hx
            · omega
            · rcases Multiset.mem_cons.mp hx with rfl | hx
              · omega
              · exact hmax x (Multiset.mem_cons_of_mem hx)
          · have h1 : Shape (d ::ₘ L ::ₘ E') := by rw [Multiset.cons_swap]; exact hsh
            have h2 := Shape.split _ _ h1
            rw [Multiset.cons_swap (d + 1) L, Multiset.cons_swap (d + 1) L] at h2
            exact h2
    · have hD : D = 0 := by
        rw [Multiset.card_cons] at hcard
        exact Multiset.card_eq_zero.mp (by omega)
      subst hD
      exact ⟨d, 0, rfl, by simp, h⟩

/-- Leaf depths of a tree hung below a leaf of another tree. -/
theorem Shape.graft {E : Multiset Nat} (hE : Shape E) :
    ∀ (k : Nat) (D : Multiset Nat), Shape (k ::ₘ D) → Shape (E.map (fun d => d + k) + D) := by
  induction hE with
  | single => intro k D h; simpa using h
  | split E' d _ ih =>
    intro k D h
    have h1 := ih k D h
    simp only [Multiset.map_cons, Multiset.cons_add] at h1 ⊢
    have h2 := Shape.split _ _ h1
    have e : d + 1 + k = d + k + 1 := by omega
    rw [e]
    exact h2

/-- Leaf depths of two trees put below a new root. -/
theorem Shape.join {D0 D1 : Multiset Nat} (h0 : Shape D0) (h1 : Shape D1) :
    Shape (D0.map (fun d => d + 1) + D1.map (fun d => d + 1)) := by
  have hpair : Shape ((0 + 1) ::ₘ (0 + 1) ::ₘ 0) := Shape.split 0 0 Shape.single
  have h2 := Shape.graft h0 1 ({1}) (by simpa using hpair)
  have h3 : Shape (1 ::ₘ D0.map (fun d => d + 1)) := by
    have e : D0.map (fun d => d + 1) + {1} = 1 ::ₘ D0.map (fun d => d + 1) := by
      rw [add_comm]; rfl
    rw [← e]; exact h2
  have h4 := Shape.graft h1 1 _ h3
  rw [add_comm]
  exact h4

theorem Shape.eq_zero_of_card_one {D : Multiset Nat} (h : Shape D) (h1 : Multiset.card D = 1) :
    D = {0} := by
  cases h with
  | single => rfl
  | split D d h => simp at h1

/-! ## Weights on depths -/

theorem assignmentCost_cons (p : Int × Nat) (M : Multiset (Int × Nat)) :
    assignmentCost (p ::ₘ M) = p.1 * (p.2 : Int) + assignmentCost M := by
  simp [assignmentCost]

theorem assignmentCost_nonneg (M : Multiset (Int × Nat)) (h : ∀ p ∈ M, 0 ≤ p.1) :
    0 ≤ assignmentCost M := by
  unfold assignmentCost
  apply Multiset.sum_nonneg
  intro x hx
  obtain ⟨p, hp, rfl⟩ := Multiset.mem_map.mp hx
  exact mul_nonneg (h p hp) (Int.ofNat_nonneg _)

/-- An entry of least weight can be moved to the greatest depth without
raising the cost. -/
theorem swap_to_depth (M : Multiset (Int × Nat)) (x : Int) (W : Multiset Int) (L : Nat)
    (hw : M.map (fun p => p.1) = x ::ₘ W) (hmin : ∀ w ∈ W, x ≤ w)
    (hL : L ∈ M.map (fun p => p.2)) (hmax : ∀ d ∈ M.map (fun p => p.2), d ≤ L) :
    ∃ R : Multiset (Int × Nat), R.map (fun p => p.1) = W ∧
      ((x, L) ::ₘ R).map (fun p => p.2) = M.map (fun p => p.2) ∧
      assignmentCost ((x, L) ::ₘ R) ≤ assignmentCost M := by
  obtain ⟨a, ha, hax, hrest⟩ := (Multiset.map_eq_cons _ M W x).mpr hw
  obtain ⟨R, rfl⟩ := Multiset.exists_cons_of_mem ha
  rw [Multiset.erase_cons_head] at hrest
  obtain ⟨x', dx⟩ := a
  simp only at hax
  subst hax
  by_cases hd : dx = L
  · subst hd
    exact ⟨R, hrest, rfl, le_rfl⟩
  · have hLR : L ∈ R.map (fun p => p.2) := by
      rw [Multiset.map_cons] at hL
      rcases Multiset.mem_cons.mp hL with h | h
      · exact absurd h.symm hd
      · exact h
    obtain ⟨b, hb, hbL⟩ := Multiset.mem_map.mp hLR
    obtain ⟨R', rfl⟩ := Multiset.exists_cons_of_mem hb
    obtain ⟨p, dp⟩ := b
    simp only at hbL
    subst hbL
    have hxp : x' ≤ p := hmin p (by rw [← hrest]; simp)
    have hdx : dx ≤ dp := hmax dx (by simp)
    refine ⟨(p, dx) ::ₘ R', ?_, ?_, ?_⟩
    · rw [← hrest]; simp
    · simp only [Multiset.map_cons]
      rw [Multiset.cons_swap]
    · simp only [assignmentCost_cons]
      have h1 : (0 : Int) ≤ (p - x') * ((dp : Int) - (dx : Int)) :=
        mul_nonneg (by omega) (by omega)
      nlinarith

/-- The exchange step: the two least weights can be taken to be siblings at
the greatest depth, and merging them saves exactly their sum. -/
theorem merge_least_pair (M : Multiset (Int × Nat)) (x y : Int) (W : Multiset Int)
    (hshape : Shape (M.map (fun p => p.2))) (hw : M.map (fun p => p.1) = x ::ₘ y ::ₘ W)
    (hx : ∀ w ∈ y ::ₘ W, x ≤ w) (hy : ∀ w ∈ W, y ≤ w) :
    ∃ M' : Multiset (Int × Nat), Shape (M'.map (fun p => p.2)) ∧
      M'.map (fun p => p.1) = (x + y) ::ₘ W ∧ assignmentCost M' + x + y ≤ assignmentCost M := by
  have hcard : 2 ≤ Multiset.card (M.map (fun p => p.2)) := by
    have := congrArg Multiset.card hw
    simp only [Multiset.card_map, Multiset.card_cons] at this ⊢
    omega
  obtain ⟨L, D0, hD, hmax0, hsh⟩ := hshape.top_pair hcard
  have hmax : ∀ d ∈ M.map (fun p => p.2), d ≤ L + 1 := by
    intro d hd
    rw [hD] at hd
    rcases Multiset.mem_cons.mp hd with rfl | hd
    · exact le_rfl
    · rcases Multiset.mem_cons.mp hd with rfl | hd
      · exact le_rfl
      · exact hmax0 d hd
  obtain ⟨R, hRw, hRd, hRc⟩ := swap_to_depth M x (y ::ₘ W) (L + 1) hw hx
    (by rw [hD]; exact Multiset.mem_cons_self _ _) hmax
  have hRd' : R.map (fun p => p.2) = (L + 1) ::ₘ D0 := by
    rw [Multiset.map_cons, hD] at hRd
    exact (Multiset.cons_inj_right _).mp hRd
  obtain ⟨R', hR'w, hR'd, hR'c⟩ := swap_to_depth R y W (L + 1) hRw hy
    (by rw [hRd']; exact Multiset.mem_cons_self _ _)
    (by
      intro d hd
      apply hmax
      rw [← hRd, Multiset.map_cons]
      exact Multiset.mem_cons_of_mem hd)
  have hR'd' : R'.map (fun p => p.2) = D0 := by
    rw [Multiset.map_cons, hRd'] at hR'd
    exact (Multiset.cons_inj_right _).mp hR'd
  refine ⟨(x + y, L) ::ₘ R', ?_, ?_, ?_⟩
  · rw [Multiset.map_cons, hR'd']; exact hsh
  · rw [Multiset.map_cons, hR'w]
  · rw [assignmentCost_cons] at hRc hR'c ⊢
    simp only [Nat.cast_add, Nat.cast_one] at hRc hR'c ⊢
    nlinarith

/-! ## The weighted path length of the tree under construction -/

theorem weightedPaths_inner {c : Byte} {f : Int} {l r : HuffmanNode} (hl : Full l) :
    weightedPaths (.node c f l r) =
      (weightedPaths l).map (fun e => (e.1, '0' :: e.2)) ++
        (weightedPaths r).map (fun e => (e.1, '1' :: e.2)) := by
  cases hl <;> simp [weightedPaths]

theorem weightedPaths_map_fst {t : HuffmanNode} (h : Full t) :
    (weightedPaths t).map (fun e => e.1) = leafPairs t := by
  induction h with
  | leaf c f => simp [weightedPaths, leafPairs]
  | inner c f l r hl hr ihl ihr =>
    rw [weightedPaths_inner hl, leafPairs_inner hl, ← ihl, ← ihr]
    simp [List.map_map, Function.comp_def]

theorem weightedPaths_map_path {t : HuffmanNode} (h : Full t) :
    (weightedPaths t).map (fun e => (e.1.1, e.2)) = paths t := by
  induction h with
  | leaf c f => simp [weightedPaths, paths]
  | inner c f l r hl hr ihl ihr =>
    rw [weightedPaths_inner hl, paths_inner hl, ← ihl, ← ihr]
    simp [List.map_map, Function.comp_def]

theorem treeWeight_eq_sum {t : HuffmanNode} (h : Full t) :
    treeWeight t = ((weightedPaths t).map (fun e => e.1.2)).sum := by
  unfold treeWeight
  rw [← weightedPaths_map_fst h, List.map_map]
  rfl

theorem treeCost_leaf (c : Byte) (f : Int) : treeCost (.node c f .null .null) = 0 := by
  simp [treeCost, weightedPaths]

theorem treeWeight_leaf (c : Byte) (f : Int) : treeWeight (.node c f .null .null) = f := by
  simp [treeWeight, leafPairs]

theorem sum_map_succ_length (l : List ((Byte × Int) × BitString)) (b : Char) :
    ((l.map (fun e => (e.1, b :: e.2))).map (fun e => e.1.2 * (e.2.length : Int))).sum =
      (l.map (fun e => e.1.2 * (e.2.length : Int))).sum + (l.map (fun e => e.1.2)).sum := by
  induction l with
  | nil => simp
  | cons e rest ih =>
    simp only [List.map_cons, List.sum_cons, List.length_cons, Nat.cast_add, Nat.cast_one] at ih ⊢
    rw [ih]
    ring

theorem treeCost_inner {c : Byte} {f : Int} {l r : HuffmanNode} (hl : Full l) (hr : Full r) :
    treeCost (.node c f l r) = treeCost l + treeCost r + treeWeight l + treeWeight r := by
  unfold treeCost
  rw [weightedPaths_inner hl, List.map_append, List.sum_append, sum_map_succ_length,
    sum_map_succ_length, treeWeight_eq_sum hl, treeWeight_eq_sum hr]
  ring

theorem treeWeight_inner {c : Byte} {f : Int} {l r : HuffmanNode} (hl : Full l) :
    treeWeight (.node c f l r) = treeWeight l + treeWeight r := by
  unfold treeWeight
  rw [leafPairs_inner hl, List.map_append, List.sum_append]

theorem treeWeight_nonneg (t : HuffmanNode) (hpos : ∀ p ∈ leafPairs t, 0 < p.2) :
    0 ≤ treeWeight t := by
  unfold treeWeight
  apply List.sum_nonneg
  intro x hx
  obtain ⟨p, hp, rfl⟩ := List.mem_map.mp hx
  exact le_of_lt (hpos p hp)

theorem sum_map_perm {α : Type} {l₁ l₂ : List α} (g : α → Int) (h : l₁.Perm l₂) :
    (l₁.map g).sum = (l₂.map g).sum :=
  (h.map g).sum_eq

theorem perm_of_candidates {heap : List HuffmanNode} {l r : HuffmanNode}
    (hl : l ∈ topCandidates heap) (hr : r ∈ topCandidates (heap.erase l)) :
    heap.Perm (l :: r :: (heap.erase l).erase r) :=
  (List.perm_cons_erase (mem_topCandidates.mp hl).1).trans
    ((List.perm_cons_erase (mem_topCandidates.mp hr).1).cons l)

theorem merge_step_sound (heap : List HuffmanNode) (l r : HuffmanNode) (h : QueueSound heap)
    (hl : l ∈ topCandidates heap) (hr : r ∈ topCandidates (heap.erase l)) :
    toInt32 (l.frequency + r.frequency) = l.frequency + r.frequency ∧
      QueueSound (.node 0 (toInt32 (l.frequency + r.frequency)) l r :: (heap.erase l).erase r) := by
  obtain ⟨hall, hsum⟩ := h
  have hperm := perm_of_candidates hl hr
  have hlm : l ∈ heap := hperm.mem_iff.mpr (by simp)
  have hrm : r ∈ heap := hperm.mem_iff.mpr (by simp)
  obtain ⟨hlf, hlw, hlp⟩ := hall l hlm
  obtain ⟨hrf, hrw, hrp⟩ := hall r hrm
  have hrest : ∀ t ∈ (heap.erase l).erase r, t ∈ heap :=
    fun t ht => hperm.mem_iff.mpr (by simp [ht])
  have hsum' : treeWeight l + (treeWeight r + (((heap.erase l).erase r).map treeWeight).sum)
      < 2 ^ 31 := by
    rw [sum_map_perm treeWeight hperm] at hsum
    simpa using hsum
  have hnn : 0 ≤ (((heap.erase l).erase r).map treeWeight).sum := by
    apply List.sum_nonneg
    intro x hx
    obtain ⟨t, ht, rfl⟩ := List.mem_map.mp hx
    exact treeWeight_nonneg t (hall t (hrest t ht)).2.2
  have hl0 := treeWeight_nonneg l hlp
  have hr0 := treeWeight_nonneg r hrp
  have hto : toInt32 (l.frequency + r.frequency) = l.frequency + r.frequency := by
    rw [hlw, hrw]
    exact toInt32_of_range _ (by omega) (by omega)
  refine ⟨hto, ?_, ?_⟩
  · intro t ht
    rcases List.mem_cons.mp ht with rfl | ht
    · refine ⟨Full.inner _ _ _ _ hlf hrf, ?_, ?_⟩
      · rw [treeWeight_inner hlf, ← hlw, ← hrw]; exact hto
      · intro p hp
        rw [leafPairs_inner hlf] at hp
        rcases List.mem_append.mp hp with hp | hp
        · exact hlp p hp
        · exact hrp p hp
    · exact hall t (hrest t ht)
  · simp only [List.map_cons, List.sum_cons]
    rw [treeWeight_inner hlf]
    omega

theorem merge_step_cost (bound : Int) (heap : List HuffmanNode) (l r : HuffmanNode)
    (h : CostBelow bound heap) (hl : l ∈ topCandidates heap)
    (hr : r ∈ topCandidates (heap.erase l)) :
    CostBelow bound
      (.node 0 (toInt32 (l.frequency + r.frequency)) l r :: (heap.erase l).erase r) := by
  obtain ⟨hsound, M, hshape, hweights, hcost⟩ := h
  obtain ⟨hto, hsound'⟩ := merge_step_sound heap l r hsound hl hr
  have hperm := perm_of_candidates hl hr
  have hlm : l ∈ heap := hperm.mem_iff.mpr (by simp)
  have hrm : r ∈ heap := hperm.mem_iff.mpr (by simp)
  obtain ⟨hlf, hlw, _⟩ := hsound.1 l hlm
  obtain ⟨hrf, hrw, _⟩ := hsound.1 r hrm
  have hw : M.map (fun p => p.1) = l.frequency ::ₘ r.frequency ::ₘ
      ((((heap.erase l).erase r).map (fun t => t.frequency) : List Int) : Multiset Int) := by
    rw [hweights]
    have := hperm.map (fun t => t.frequency)
    rw [← Multiset.coe_eq_coe] at this
    rw [this]
    rfl
  have hx : ∀ w ∈ r.frequency ::ₘ
      ((((heap.erase l).erase r).map (fun t => t.frequency) : List Int) : Multiset Int),
      l.frequency ≤ w := by
    intro w hwm
    have hmin := (mem_topCandidates.mp hl).2
    rcases Multiset.mem_cons.mp hwm with rfl | hwm
    · exact hmin r hrm
    · obtain ⟨t, ht, rfl⟩ := List.mem_map.mp (Multiset.mem_coe.mp hwm)
      exact hmin t (hperm.mem_iff.mpr (by simp [ht]))
  have hy : ∀ w ∈ ((((heap.erase l).erase r).map (fun t => t.frequency) : List Int) :
      Multiset Int), r.frequency ≤ w := by
    intro w hwm
    have hmin := (mem_topCandidates.mp hr).2
    obtain ⟨t, ht, rfl⟩ := List.mem_map.mp (Multiset.mem_coe.mp hwm)
    exact hmin t (List.mem_of_mem_erase ht)
  obtain ⟨M', hshape', hweights', hcost'⟩ := merge_least_pair M _ _ _ hshape hw hx hy
  refine ⟨hsound', M', hshape', ?_, ?_⟩
  · have hf : (HuffmanNode.node 0 (toInt32 (l.frequency + r.frequency)) l r).frequency
        = l.frequency + r.frequency := hto
    rw [hweights', List.map_cons, hf]
    rfl
  · have hsum := sum_map_perm treeCost hperm
    simp only [List.map_cons, List.sum_cons] at hsum ⊢
    rw [treeCost_inner hlf hrf, ← hlw, ← hrw]
    rw [hsum] at hcost
    omega

/-- Whatever assignment of the counts to leaf depths of a binary tree is
taken, the tree of `buildFromFrequencies` costs no more. -/
theorem treeCost_le_assignmentCost (tie : Nat → Nat) (charFreqs : List (Byte × Int))
    (hne : charFreqs ≠ []) (hpos : ∀ p ∈ charFreqs, 0 < p.2)
    (htotal : (charFreqs.map (fun p => p.2)).sum < 2 ^ 31) (M : Multiset (Int × Nat))
    (hshape : Shape (M.map (fun p => p.2)))
    (hweights : M.map (fun p => p.1) = ((charFreqs.map (fun p => p.2) : List Int) : Multiset Int)) :
    treeCost (buildFromFrequencies tie charFreqs) ≤ assignmentCost M := by
  have hperm := pushLeaves_nil_perm charFreqs
  have hheap : pushLeaves [] charFreqs ≠ [] := by
    intro h0; rw [h0] at hperm
    have := hperm.length_eq
    simp at this
    exact hne (List.length_eq_zero.mp this.symm)
  have hleaf : ∀ t ∈ pushLeaves [] charFreqs, ∃ p ∈ charFreqs, t = .node p.1 p.2 .null .null := by
    intro t ht
    obtain ⟨p, hp, rfl⟩ := List.mem_map.mp (hperm.mem_iff.mp ht)
    exact ⟨p, hp, rfl⟩
  have h0 : CostBelow (assignmentCost M) (pushLeaves [] charFreqs) := by
    refine ⟨⟨?_, ?_⟩, M, hshape, ?_, ?_⟩
    · intro t ht
      obtain ⟨p, hp, rfl⟩ := hleaf t ht
      refine ⟨Full.leaf _ _, by rw [treeWeight_leaf]; rfl, ?_⟩
      intro q hq
      simp only [leafPairs, List.mem_singleton] at hq
      rw [hq]; exact hpos p hp
    · rw [sum_map_perm treeWeight hperm, List.map_map]
      have : (treeWeight ∘ fun p : Byte × Int => HuffmanNode.node p.1 p.2 .null .null)
          = fun p => p.2 := by
        funext p; simp [treeWeight_leaf]
      rw [this]; exact htotal
    · rw [hweights]
      have := (hperm.map (fun t => t.frequency)).symm
      rw [List.map_map] at this
      exact Multiset.coe_eq_coe.mpr this
    · have : (pushLeaves [] charFreqs).map treeCost = (pushLeaves [] charFreqs).map (fun _ => 0) := by
        apply List.map_congr_left
        intro t ht
        obtain ⟨p, _, rfl⟩ := hleaf t ht
        exact treeCost_leaf _ _
      rw [this]
      simp
  obtain ⟨root, hroot, hsound, M', hshape', hweights', hcost'⟩ := buildLoop_invariant tie
    (CostBelow (assignmentCost M)) (fun heap l r h hl hr => merge_step_cost _ heap l r h hl hr)
    (pushLeaves [] charFreqs).length 0 (pushLeaves [] charFreqs) h0 hheap (by omega)
  have hbuild : buildFromFrequencies tie charFreqs = root := by
    unfold buildFromFrequencies
    have : charFreqs.isEmpty = false := by
      cases charFreqs with
      | nil => exact absurd rfl hne
      | cons _ _ => rfl
    simp only [this, Bool.false_eq_true, if_false]
    rw [hroot, heapTop_singleton]
  rw [hbuild]
  have hnn : 0 ≤ assignmentCost M' := by
    apply assignmentCost_nonneg
    intro p hp
    have hmem : p.1 ∈ M'.map (fun p => p.1) := Multiset.mem_map_of_mem _ hp
    rw [hweights'] at hmem
    simp only [List.map_cons, List.map_nil, Multiset.coe_singleton, Multiset.mem_singleton] at hmem
    rw [hmem, (hsound.1 root (by simp)).2.1]
    exact treeWeight_nonneg root (hsound.1 root (by simp)).2.2
  simp only [List.map_cons, List.map_nil, List.sum_cons, List.sum_nil, add_zero] at hcost'
  omega

/-! ## From a code without initial segments to leaf depths -/

theorem singleton_of_empty_word {A : List (Int × List Bool)}
    (hpair : A.Pairwise (fun a b => ¬ a.2 <+: b.2 ∧ ¬ b.2 <+: a.2))
    (hmem : ∃ a ∈ A, a.2 = []) : ∃ w, A = [(w, [])] := by
  match A, hpair, hmem with
  | [], _, ⟨_, ha, _⟩ => simp at ha
  | [a], _, ⟨b, hb, hb2⟩ =>
    simp only [List.mem_singleton] at hb
    subst hb
    exact ⟨b.1, by rw [← hb2]⟩
  | a :: b :: rest, hpair, ⟨c, hc, hc2⟩ =>
    exfalso
    rw [List.pairwise_cons] at hpair
    rcases List.mem_cons.mp hc with rfl | hc
    · have := (hpair.1 b (by simp)).1
      rw [hc2] at this
      exact this (List.nil_prefix)
    · have := (hpair.1 c hc).2
      rw [hc2] at this
      exact this (List.nil_prefix)

theorem codesBelow_cons (b : Bool) (w : Int) (c : Bool) (t : List Bool)
    (A : List (Int × List Bool)) :
    codesBelow b ((w, c :: t) :: A) =
      if c = b then (w, t) :: codesBelow b A else codesBelow b A := by
  unfold codesBelow
  by_cases h : c = b <;> simp [List.filterMap_cons, h]

theorem mem_codesBelow {b : Bool} {A : List (Int × List Bool)} {e : Int × List Bool}
    (h : e ∈ codesBelow b A) : (e.1, b :: e.2) ∈ A := by
  unfold codesBelow at h
  obtain ⟨a, ha, hf⟩ := List.mem_filterMap.mp h
  obtain ⟨w, word⟩ := a
  match word, hf with
  | [], hf => simp at hf
  | c :: t, hf =>
    by_cases hc : c = b
    · simp only [hc, if_true, Option.some.injEq] at hf
      rw [← hf, ← hc]
      exact ha
    · simp [hc] at hf

theorem codesBelow_pairwise (b : Bool) {A : List (Int × List Bool)}
    (hpair : A.Pairwise (fun a b => ¬ a.2 <+: b.2 ∧ ¬ b.2 <+: a.2)) :
    (codesBelow b A).Pairwise (fun a b => ¬ a.2 <+: b.2 ∧ ¬ b.2 <+: a.2) := by
  unfold codesBelow
  refine List.Pairwise.filterMap _ ?_ hpair
  intro a a' hR e he e' he'
  obtain ⟨w, word⟩ := a
  obtain ⟨w', word'⟩ := a'
  match word, word', he, he', hR with
  | [], _, he, _, _ => simp at he
  | _ :: _, [], _, he', _ => simp at he'
  | c :: t, c' :: t', he, he', hR =>
    by_cases hc : c = b
    · by_cases hc' : c' = b
      · simp only [hc, if_true, Option.mem_def, Option.some.injEq] at he
        simp only [hc', if_true, Option.mem_def, Option.some.injEq] at he'
        rw [← he, ← he']
        simp only [hc, hc', List.cons_prefix_cons, true_and] at hR
        exact hR
      · simp [hc'] at he'
    · simp [hc] at he

/-- The weights and the cost of a code whose words are not empty, split by
the first bit of the words. -/
theorem codesBelow_split : ∀ (A : List (Int × List Bool)), (∀ a ∈ A, a.2 ≠ []) →
    (A.map (fun a => a.1)).Perm
        ((codesBelow false A).map (fun a => a.1) ++ (codesBelow true A).map (fun a => a.1)) ∧
      (A.map (fun a => a.1 * (a.2.length : Int))).sum =
        ((codesBelow false A).map (fun a => a.1 * (a.2.length : Int) + a.1)).sum +
          ((codesBelow true A).map (fun a => a.1 * (a.2.length : Int) + a.1)).sum
  | [], _ => by simp [codesBelow]
  | (w, []) :: A, h => absurd rfl (h (w, []) (by simp))
  | (w, c :: t) :: A, h => by
    obtain ⟨ihp, ihs⟩ := codesBelow_split A (fun a ha => h a (List.mem_cons_of_mem _ ha))
    rw [codesBelow_cons, codesBelow_cons]
    cases c
    · simp only [if_true, Bool.false_eq_true, if_false, List.map_cons, List.cons_append,
        List.sum_cons, List.length_cons, Nat.cast_add, Nat.cast_one]
      refine ⟨ihp.cons w, ?_⟩
      rw [ihs]; ring
    · simp only [if_true, Bool.true_eq_false, if_false, List.map_cons, List.sum_cons,
        List.length_cons, Nat.cast_add, Nat.cast_one]
      refine ⟨(ihp.cons w).trans List.perm_middle.symm, ?_⟩
      rw [ihs]; ring

theorem assignmentCost_lift (M : Multiset (Int × Nat)) :
    assignmentCost (M.map (fun p => (p.1, p.2 + 1))) =
      assignmentCost M + (M.map (fun p => p.1)).sum := by
  induction M using Multiset.induction_on with
  | empty => simp [assignmentCost]
  | cons a M ih =>
    simp only [Multiset.map_cons, assignmentCost_cons, Multiset.sum_cons, ih]
    push_cast
    ring

theorem assignmentCost_add (M N : Multiset (Int × Nat)) :
    assignmentCost (M + N) = assignmentCost M + assignmentCost N := by
  simp [assignmentCost]

theorem sum_add_self (A : List (Int × List Bool)) :
    (A.map (fun a => a.1 * (a.2.length : Int) + a.1)).sum =
      (A.map (fun a => a.1 * (a.2.length : Int))).sum + (A.map (fun a => a.1)).sum := by
  induction A with
  | nil => simp
  | cons a A ih => simp only [List.map_cons, List.sum_cons, ih]; ring

/-- A code in which no word is an initial segment of another is no shorter,
weight by weight, than the leaf depths of some binary tree. -/
theorem assignment_of_code : ∀ (n : Nat) (A : List (Int × List Bool)), A ≠ [] →
    (∀ a ∈ A, 0 ≤ a.1) → (∀ a ∈ A, a.2.length ≤ n) →
    A.Pairwise (fun a b => ¬ a.2 <+: b.2 ∧ ¬ b.2 <+: a.2) →
    ∃ M : Multiset (Int × Nat), Shape (M.map (fun p => p.2)) ∧
      M.map (fun p => p.1) = ((A.map (fun a => a.1) : List Int) : Multiset Int) ∧
      assignmentCost M ≤ (A.map (fun a => a.1 * (a.2.length : Int))).sum := by
  intro n
  induction n with
  | zero =>
    intro A hne _ hlen hpair
    obtain ⟨a, ha⟩ := List.exists_mem_of_ne_nil A hne
    obtain ⟨w, rfl⟩ := singleton_of_empty_word hpair
      ⟨a, ha, List.length_eq_zero.mp (Nat.le_zero.mp (hlen a ha))⟩
    exact ⟨{(w, 0)}, by simpa using Shape.single, by simp, by simp [assignmentCost]⟩
  | succ n ih =>
    intro A hne hpos hlen hpair
    by_cases hempty : ∃ a ∈ A, a.2 = []
    · obtain ⟨w, rfl⟩ := singleton_of_empty_word hpair hempty
      exact ⟨{(w, 0)}, by simpa using Shape.single, by simp, by simp [assignmentCost]⟩
    · have hwords : ∀ a ∈ A, a.2 ≠ [] := fun a ha h0 => hempty ⟨a, ha, h0⟩
      obtain ⟨hperm, hsum⟩ := codesBelow_split A hwords
      have hsub : ∀ b, (∀ e ∈ codesBelow b A, 0 ≤ e.1) ∧ (∀ e ∈ codesBelow b A, e.2.length ≤ n) := by
        intro b
        constructor
        · intro e he; exact hpos (e.1, b :: e.2) (mem_codesBelow he)
        · intro e he
          have := hlen (e.1, b :: e.2) (mem_codesBelow he)
          simp only [List.length_cons] at this
          omega
      have hnn : ∀ b, 0 ≤ ((codesBelow b A).map (fun a => a.1)).sum := by
        intro b
        apply List.sum_nonneg
        intro x hx
        obtain ⟨e, he, rfl⟩ := List.mem_map.mp hx
        exact (hsub b).1 e he
      rw [hsum, sum_add_self, sum_add_self]
      by_cases h0 : codesBelow false A = []
      · have h1 : codesBelow true A ≠ [] := by
          intro h1
          rw [h0, h1] at hperm
          simp only [List.map_nil, List.append_nil, List.perm_nil] at hperm
          exact hne (List.map_eq_nil_iff.mp hperm)
        obtain ⟨M, hshape, hweights, hcost⟩ := ih _ h1 (hsub true).1 (hsub true).2
          (codesBelow_pairwise true hpair)
        refine ⟨M, hshape, ?_, ?_⟩
        · rw [hweights]
          rw [h0] at hperm
          exact (Multiset.coe_eq_coe.mpr (by simpa using hperm)).symm
        · rw [h0]
          have := hnn true
          simp only [List.map_nil, List.sum_nil]
          omega
      · by_cases h1 : codesBelow true A = []
        · obtain ⟨M, hshape, hweights, hcost⟩ := ih _ h0 (hsub false).1 (hsub false).2
            (codesBelow_pairwise false hpair)
          refine ⟨M, hshape, ?_, ?_⟩
          · rw [hweights]
            rw [h1] at hperm
            exact (Multiset.coe_eq_coe.mpr (by simpa using hperm)).symm
          · rw [h1]
            have := hnn false
            simp only [List.map_nil, List.sum_nil]
            omega
        · obtain ⟨M0, hshape0, hweights0, hcost0⟩ := ih _ h0 (hsub false).1 (hsub false).2
            (codesBelow_pairwise false hpair)
          obtain ⟨M1, hshape1, hweights1, hcost1⟩ := ih _ h1 (hsub true).1 (hsub true).2
            (codesBelow_pairwise true hpair)
          refine ⟨M0.map (fun p => (p.1, p.2 + 1)) + M1.map (fun p => (p.1, p.2 + 1)), ?_, ?_, ?_⟩
          · have := Shape.join hshape0 hshape1
            simpa [Multiset.map_add, Multiset.map_map, Function.comp_def] using this
          · simp only [Multiset.map_add, Multiset.map_map, Function.comp_def]
            rw [hweights0, hweights1, Multiset.coe_add]
            exact (Multiset.coe_eq_coe.mpr hperm).symm
          · rw [assignmentCost_add, assignmentCost_lift, assignmentCost_lift, hweights0,
              hweights1, Multiset.sum_coe, Multiset.sum_coe]
            omega

/-! ## The tree of `buildFromFrequencies` has least weighted path length -/

theorem value_unique_of_nodup_keys : ∀ {l : List (Byte × BitString)} {k : Byte}
    {v v' : BitString}, (l.map (fun p => p.1)).Nodup → (k, v) ∈ l → (k, v') ∈ l → v = v'
  | [], _, _, _, _, h, _ => by simp at h
  | (k0, v0) :: rest, k, v, v', hnd, h, h' => by
    simp only [List.map_cons, List.nodup_cons] at hnd
    rcases List.mem_cons.mp h with h | h
    · rcases List.mem_cons.mp h' with h' | h'
      · rw [(Prod.mk.inj h).2, (Prod.mk.inj h').2]
      · exfalso
        apply hnd.1
        rw [← (Prod.mk.inj h).1]
        exact List.mem_map.mpr ⟨(k, v'), h', rfl⟩
    · rcases List.mem_cons.mp h' with h' | h'
      · exfalso
        apply hnd.1
        rw [← (Prod.mk.inj h').1]
        exact List.mem_map.mpr ⟨(k, v), h, rfl⟩
      · exact value_unique_of_nodup_keys hnd.2 h h'

/-- With distinct characters at the leaves of an inner root, the table holds
for every leaf the path of that leaf. -/
theorem find_of_weightedPaths {root : HuffmanNode} (h : Full root) (hroot : root.isLeaf = false)
    (hnd : (leafChars root).Nodup) {e : (Byte × Int) × BitString} (he : e ∈ weightedPaths root) :
    (generateCodesRecursive root [] []).find e.1.1 = some e.2 := by
  have hpath : (e.1.1, e.2) ∈ paths root := by
    rw [← weightedPaths_map_path h]
    exact List.mem_map.mpr ⟨e, he, rfl⟩
  have hmem : e.1.1 ∈ leafChars root := by
    rw [← paths_map_fst h]
    exact List.mem_map.mpr ⟨(e.1.1, e.2), hpath, rfl⟩
  obtain ⟨p, hp, _, hfind⟩ := find_generateCodeTable h hroot hmem
  rw [hfind]
  have hkeys : ((paths root).map (fun p => p.1)).Nodup := by rw [paths_map_fst h]; exact hnd
  rw [value_unique_of_nodup_keys hkeys hp hpath]

/-- The sum of count times code length over the table is the weighted path
length of the tree. -/
theorem sum_code_lengths_eq_treeCost (tie : Nat → Nat) (charFreqs : List (Byte × Int))
    (hkeys : (charFreqs.map (fun p => p.1)).Nodup) (h2 : 2 ≤ charFreqs.length) :
    (charFreqs.map (fun p => p.2 *
      (((((HuffmanTree.new.buildFromFrequencies tie charFreqs).generateCodeTable).codeTable.find
        p.1).getD []).length : Int))).sum = treeCost (buildFromFrequencies tie charFreqs) := by
  have hne : charFreqs ≠ [] := by intro h0; rw [h0] at h2; simp at h2
  obtain ⟨hfull, hperm⟩ := buildFromFrequencies_full tie charFreqs hne
  have hinner := buildFromFrequencies_inner tie charFreqs h2
  have hnd : (leafChars (buildFromFrequencies tie charFreqs)).Nodup := by
    unfold leafChars
    exact ((hperm.map _).nodup_iff).mpr hkeys
  simp only [HuffmanTree.generateCodeTable, HuffmanTree.buildFromFrequencies]
  rw [← sum_map_perm _ hperm, ← weightedPaths_map_fst hfull, List.map_map]
  unfold treeCost
  congr 1
  apply List.map_congr_left
  intro e he
  simp only [Function.comp_apply]
  rw [find_of_weightedPaths hfull hinner hnd he]
  rfl

/-- C9: for every frequency table with distinct byte values, at least two of
them, positive counts and a total below `2^31`, and for every tie-breaking,
the sum of count times code length in the table of the built tree is at most
the same sum for any binary code `code` in which no code word of a byte is an
initial segment of the code word of another byte. -/
theorem huffman_least_weighted_length (tie : Nat → Nat) (charFreqs : List (Byte × Int))
    (hkeys : (charFreqs.map (fun p => p.1)).Nodup) (h2 : 2 ≤ charFreqs.length)
    (hpos : ∀ p ∈ charFreqs, 0 < p.2) (htotal : (charFreqs.map (fun p => p.2)).sum < 2 ^ 31)
    (code : Byte → List Bool)
    (hcode : ∀ p ∈ charFreqs, ∀ q ∈ charFreqs, p.1 ≠ q.1 → ¬ code p.1 <+: code q.1) :
    (charFreqs.map (fun p => p.2 *
      (((((HuffmanTree.new.buildFromFrequencies tie charFreqs).generateCodeTable).codeTable.find
        p.1).getD []).length : Int))).sum ≤
      (charFreqs.map (fun p => p.2 * ((code p.1).length : Int))).sum := by
  have hne : charFreqs ≠ [] := by intro h0; rw [h0] at h2; simp at h2
  rw [sum_code_lengths_eq_treeCost tie charFreqs hkeys h2]
  have hpair : (charFreqs.map (fun p => (p.2, code p.1))).Pairwise
      (fun a b => ¬ a.2 <+: b.2 ∧ ¬ b.2 <+: a.2) := by
    rw [List.pairwise_map]
    apply List.Nodup.pairwise_of_forall_ne (List.Nodup.of_map _ hkeys)
    intro p hp q hq hpq
    have hk : p.1 ≠ q.1 := fun hk => hpq (List.inj_on_of_nodup_map hkeys hp hq hk)
    exact ⟨hcode p hp q hq hk, hcode q hq p hp (Ne.symm hk)⟩
  obtain ⟨M, hshape, hweights, hcost⟩ := assignment_of_code
    ((charFreqs.map (fun p => (code p.1).length)).sum)
    (charFreqs.map (fun p => (p.2, code p.1)))
    (by simpa using hne)
    (by
      intro a ha
      obtain ⟨p, hp, rfl⟩ := List.mem_map.mp ha
      exact le_of_lt (hpos p hp))
    (by
      intro a ha
      obtain ⟨p, hp, rfl⟩ := List.mem_map.mp ha
      exact List.single_le_sum (fun _ _ => Nat.zero_le _) _
        (List.mem_map.mpr ⟨p, hp, rfl⟩))
    hpair
  rw [List.map_map] at hweights hcost
  exact le_trans (treeCost_le_assignmentCost tie charFreqs hne hpos htotal M hshape hweights) hcost

set_option maxRecDepth 100000 in
theorem huffman_least_weighted_length_witness :
    (([(97, 4), (98, 3), (99, 2), (100, 1)] : List (Byte × Int)).map (fun p => p.1)).Nodup ∧
    2 ≤ ([(97, 4), (98, 3), (99, 2), (100, 1)] : List (Byte × Int)).length ∧
    (∀ p ∈ ([(97, 4), (98, 3), (99, 2), (100, 1)] : List (Byte × Int)), 0 < p.2) ∧
    (([(97, 4), (98, 3), (99, 2), (100, 1)] : List (Byte × Int)).map (fun p => p.2)).sum
      < 2 ^ 31 ∧
    (∀ p ∈ ([(97, 4), (98, 3), (99, 2), (100, 1)] : List (Byte × Int)),
      ∀ q ∈ ([(97, 4), (98, 3), (99, 2), (100, 1)] : List (Byte × Int)), p.1 ≠ q.1 →
        ¬ (fun b : Byte => [decide (2 ≤ b.val % 4), decide (b.val % 2 = 1)]) p.1 <+:
          (fun b : Byte => [decide (2 ≤ b.val % 4), decide (b.val % 2 = 1)]) q.1) ∧
    (([(97, 4), (98, 3), (99, 2), (100, 1)] : List (Byte × Int)).map (fun p => p.2 *
      (((((HuffmanTree.new.buildFromFrequencies (fun _ => 0)
        [(97, 4), (98, 3), (99, 2), (100, 1)]).generateCodeTable).codeTable.find
          p.1).getD []).length : Int))).sum ≤
      (([(97, 4), (98, 3), (99, 2), (100, 1)] : List (Byte × Int)).map (fun p => p.2 *
        (((fun b : Byte => [decide (2 ≤ b.val % 4), decide (b.val % 2 = 1)]) p.1).length
          : Int))).sum :=
  ⟨by decide, by decide, by decide, by decide, by decide,
    huffman_least_weighted_length (fun _ => 0) [(97, 4), (98, 3), (99, 2), (100, 1)]
      (by decide) (by decide) (by decide) (by decide)
      (fun b : Byte => [decide (2 ≤ b.val % 4), decide (b.val % 2 = 1)]) (by decide)⟩

/-! ## Empty input, the choice of the folder archive and the tag -/

theorem getFrequencies_nil (order : IterationOrder) : getFrequencies order [] = [] :=
  List.Perm.eq_nil (order.perm [])

theorem getFrequencies_ne_nil (order : IterationOrder) (c : Byte) (rest : List Byte) :
    getFrequencies order (c :: rest) ≠ [] := by
  intro h
  have := (mem_keys_getFrequencies order (c :: rest) c).mpr (List.mem_cons_self c rest)
  rw [h] at this
  simp at this

/-- The only content for which `compress` gives up is the empty one. -/
theorem compress_eq_none_iff (order : IterationOrder) (tie : List (Byte × Int) → Nat → Nat)
    (S : List Byte) : FileCompressor.compress order tie S = none ↔ S = [] := by
  cases S with
  | nil =>
    unfold FileCompressor.compress
    rw [getFrequencies_nil]
    simp
  | cons c rest =>
    rw [compress_eq order tie _ (getFrequencies_ne_nil order c rest)]
    simp

/-- C11: single-file compression of empty input fails. With empty content the
frequency table is empty and `FileCompressor::compress` takes the
`return false` that comes before the tree is built and before the output file
is opened, so no archive byte is written. -/
theorem compress_empty_fails (order : IterationOrder) (tie : List (Byte × Int) → Nat → Nat) :
    FileCompressor.compress order tie [] = none := by
  unfold FileCompressor.compress
  rw [getFrequencies_nil]
  rfl

/-- The folder branch of `main` ends with one of the two archives, the one
`keep` names. -/
theorem compressFolder_eq (order : IterationOrder) (tie : List (Byte × Int) → Nat → Nat)
    (files : List FileEntry) (globalTemp separateTemp : List Byte)
    (hg : FolderCompressor.compressWithGlobalTree order tie files = some globalTemp)
    (hs : FolderCompressor.compressWithSeparateTrees order tie files = some separateTemp) :
    Main.compressFolder order tie files =
      some (if globalTemp.length ≤ separateTemp.length then globalTemp else separateTemp) := by
  unfold Main.compressFolder Main.defaultOutput Main.keep
  rw [hg, hs]
  by_cases h : globalTemp.length ≤ separateTemp.length <;> simp [h]

/-- The file `defaultOutput` holds the Global archive when it is not the
longer one and the Separate archive otherwise, whatever the two archives
are. -/
theorem defaultOutput_eq (globalTemp separateTemp : List Byte) :
    (Main.defaultOutput globalTemp separateTemp =
      if Main.keep globalTemp.length separateTemp.length = Main.Kept.globalTemp
      then globalTemp else separateTemp) ∧
    (Main.defaultOutput globalTemp separateTemp).length =
      min globalTemp.length separateTemp.length ∧
    (Main.defaultOutput globalTemp separateTemp).length ≤
      max globalTemp.length separateTemp.length := by
  unfold Main.defaultOutput Main.keep
  by_cases h : globalTemp.length ≤ separateTemp.length
  · simp [h]
  · have h' : separateTemp.length ≤ globalTemp.length := by omega
    simp [h, h']

/-- Both compressors write an archive for a folder that is not empty, the one
behind the tag `G` and the other behind the tag `S`. -/
theorem folder_archives (order : IterationOrder) (tie : List (Byte × Int) → Nat → Nat)
    (files : List FileEntry) (hne : files ≠ []) :
    ∃ g s : List Byte,
      FolderCompressor.compressWithGlobalTree order tie files = some (71 :: g) ∧
      FolderCompressor.compressWithSeparateTrees order tie files = some (83 :: s) := by
  obtain ⟨wg, hwg⟩ := writeGlobalRecords_append
    (makeTree tie (FolderCompressor.globalCharFreqs order files)) files
    (71 :: (treeBytes (makeTree tie (FolderCompressor.globalCharFreqs order files)).root ++
      VarInt.encode (files.length % 2 ^ 32)))
  obtain ⟨ws, hws⟩ := writeSeparateRecords_append order tie files
    (83 :: VarInt.encode (files.length % 2 ^ 32))
  refine ⟨(treeBytes (makeTree tie (FolderCompressor.globalCharFreqs order files)).root ++
      VarInt.encode (files.length % 2 ^ 32)) ++ wg,
    VarInt.encode (files.length % 2 ^ 32) ++ ws, ?_, ?_⟩
  · rw [compressWithGlobalTree_eq order tie files hne, hwg, List.cons_append]
  · rw [compressWithSeparateTrees_eq order tie files hne, hws, List.cons_append]

/-- C12: strategy selection. The test of `main` names the Global archive
exactly when `globalSize <= separateSize` and the Separate archive otherwise,
for every pair of sizes. For every folder that is not empty, the folder
branch of `main` has both compressors write their archive and ends with one
of the two: the Global archive exactly when its size is at most the size of
the Separate archive, the Separate archive otherwise; the archive kept has
the size `min(globalSize, separateSize)`, which is at most
`max(globalSize, separateSize)`. -/
theorem strategy_selection (order : IterationOrder) (tie : List (Byte × Int) → Nat → Nat)
    (files : List FileEntry) (hne : files ≠ []) (globalSize separateSize : Nat) :
    (Main.keep globalSize separateSize = Main.Kept.globalTemp ↔ globalSize ≤ separateSize) ∧
    (Main.keep globalSize separateSize = Main.Kept.separateTemp ↔
      ¬ globalSize ≤ separateSize) ∧
    ∃ globalTemp separateTemp kept : List Byte,
      FolderCompressor.compressWithGlobalTree order tie files = some globalTemp ∧
      FolderCompressor.compressWithSeparateTrees order tie files = some separateTemp ∧
      Main.compressFolder order tie files = some kept ∧
      (kept = globalTemp ↔ globalTemp.length ≤ separateTemp.length) ∧
      (kept = separateTemp ↔ ¬ globalTemp.length ≤ separateTemp.length) ∧
      kept.length = min globalTemp.length separateTemp.length ∧
      kept.length ≤ max globalTemp.length separateTemp.length := by
  obtain ⟨g, s, hg, hs⟩ := folder_archives order tie files hne
  have hkept := compressFolder_eq order tie files _ _ hg hs
  have htag : (71 : Byte) ≠ 83 := by decide
  refine ⟨?_, ?_, 71 :: g, 83 :: s, _, hg, hs, hkept, ?_⟩
  · unfold Main.keep
    by_cases h : globalSize ≤ separateSize <;> simp [h]
  · unfold Main.keep
    by_cases h : globalSize ≤ separateSize <;> simp [h]
  · by_cases h : (71 :: g : List Byte).length ≤ (83 :: s : List Byte).length
    · rw [if_pos h]
      refine ⟨⟨fun _ => h, fun _ => rfl⟩, ⟨fun he => ?_, fun hn => absurd h hn⟩, ?_, ?_⟩
      · exact absurd (List.cons.inj he).1 htag
      · exact (Nat.min_eq_left h).symm
      · exact le_trans h (Nat.le_max_right _ _)
    · rw [if_neg h]
      refine ⟨⟨fun he => ?_, fun hn => absurd hn h⟩, ⟨fun _ => h, fun _ => rfl⟩, ?_, ?_⟩
      · exact absurd (List.cons.inj he).1 htag.symm
      · exact (Nat.min_eq_right (by omega)).symm
      · exact Nat.le_max_right _ _

theorem strategy_selection_witness :
    sampleFolder ≠ [] ∧
    (Main.keep 3 5 = Main.Kept.globalTemp ↔ 3 ≤ 5) ∧
    (Main.keep 3 5 = Main.Kept.separateTemp ↔ ¬ 3 ≤ 5) ∧
    ∃ globalTemp separateTemp kept : List Byte,
      FolderCompressor.compressWithGlobalTree IterationOrder.insertion (fun _ _ => 0)
        sampleFolder = some globalTemp ∧
      FolderCompressor.compressWithSeparateTrees IterationOrder.insertion (fun _ _ => 0)
        sampleFolder = some separateTemp ∧
      Main.compressFolder IterationOrder.insertion (fun _ _ => 0) sampleFolder = some kept ∧
      (kept = globalTemp ↔ globalTemp.length ≤ separateTemp.length) ∧
      (kept = separateTemp ↔ ¬ globalTemp.length ≤ separateTemp.length) ∧
      kept.length = min globalTemp.length separateTemp.length ∧
      kept.length ≤ max globalTemp.length separateTemp.length :=
  ⟨by decide, strategy_selection IterationOrder.insertion (fun _ _ => 0) sampleFolder
    (by decide) 3 5⟩

/-- C13: the tag check. For every archive with a first byte `magic`:
`FileCompressor::decompress` fails when `magic` is not `F` (70),
`decompressGlobal` fails when it is not `G` (71), `decompressSeparate` fails
when it is not `S` (83); `FolderCompressor::decompress` hands the archive to
the Global reader on `G`, to the Separate reader on `S`, and fails on every
other first byte. -/
theorem tag_check (magic : Byte) (body : List Byte) :
    (magic ≠ 70 → FileCompressor.decompress (magic :: body) = none) ∧
    (magic ≠ 71 → FolderCompressor.decompressGlobal (magic :: body) = none) ∧
    (magic ≠ 83 → FolderCompressor.decompressSeparate (magic :: body) = none) ∧
    (magic = 71 → FolderCompressor.decompress (magic :: body) =
      FolderCompressor.decompressGlobal (magic :: body)) ∧
    (magic = 83 → FolderCompressor.decompress (magic :: body) =
      FolderCompressor.decompressSeparate (magic :: body)) ∧
    (magic ≠ 71 → magic ≠ 83 → FolderCompressor.decompress (magic :: body) = none) := by
  refine ⟨?_, ?_, ?_, ?_, ?_, ?_⟩
  · intro h
    simp [FileCompressor.decompress, h]
  · intro h
    simp [FolderCompressor.decompressGlobal, h]
  · intro h
    simp [FolderCompressor.decompressSeparate, h]
  · intro h
    simp [FolderCompressor.decompress, h]
  · intro h
    subst h
    simp [FolderCompressor.decompress]
  · intro h1 h2
    simp [FolderCompressor.decompress, h1, h2]

theorem tag_check_witness :
    FileCompressor.decompress [71, 0] = none ∧
    FolderCompressor.decompressGlobal [83, 0] = none ∧
    FolderCompressor.decompressSeparate [70, 0] = none ∧
    FolderCompressor.decompress [71, 0] = FolderCompressor.decompressGlobal [71, 0] ∧
    FolderCompressor.decompress [83, 0] = FolderCompressor.decompressSeparate [83, 0] ∧
    FolderCompressor.decompress [70, 0] = none :=
  ⟨(tag_check 71 [0]).1 (by decide), (tag_check 83 [0]).2.1 (by decide),
    (tag_check 70 [0]).2.2.1 (by decide), (tag_check 71 [0]).2.2.2.1 rfl,
    (tag_check 83 [0]).2.2.2.2.1 rfl, (tag_check 70 [0]).2.2.2.2.2 (by decide) (by decide)⟩

/-! ## What the decoder does at the end of a walk -/

/-- The string that the logged decoder returns is the one of the decoder. -/
theorem decodeLoopLogged_fst (root : HuffmanNode) : ∀ (bits : BitString)
    (current : HuffmanNode) (decoded : List Byte),
    (decodeLoopLogged root current decoded bits).1 = decodeLoop root current decoded bits
  | [], current, decoded => by simp [decodeLoopLogged, decodeLoop]
  | bit :: rest, current, decoded => by
    have ih := decodeLoopLogged_fst root rest
    by_cases h0 : bit = '0'
    · rcases hn : current.left with _ | ⟨c, f, l, r⟩
      · simp [decodeLoopLogged, decodeLoop, h0, hn]
      · by_cases hleaf : (HuffmanNode.node c f l r).isLeaf <;>
          simp [decodeLoopLogged, decodeLoop, h0, hn, hleaf, ih]
    · by_cases h1 : bit = '1'
      · rcases hn : current.right with _ | ⟨c, f, l, r⟩
        · simp [decodeLoopLogged, decodeLoop, h0, h1, hn]
        · by_cases hleaf : (HuffmanNode.node c f l r).isLeaf <;>
            simp [decodeLoopLogged, decodeLoop, h0, h1, hn, hleaf, ih]
      · simp [decodeLoopLogged, decodeLoop, h0, h1]

theorem decodeWithRootLogged_fst (root : HuffmanNode) (bits : BitString) :
    (decodeWithRootLogged root bits).1 = decodeWithRoot root bits := by
  cases root with
  | null => rfl
  | node c f l r => exact decodeLoopLogged_fst _ bits _ _

/-- One step of the decoder on the character of a bit. -/
theorem decodeLoopLogged_cons (root current : HuffmanNode) (decoded : List Byte) (b : Bool)
    (rest : BitString) :
    decodeLoopLogged root current decoded (bitChar b :: rest) =
      match (if b then current.right else current.left) with
      | .null => ([], .errorInvalidPath)
      | next =>
        if next.isLeaf then decodeLoopLogged root root (decoded ++ [next.character]) rest
        else decodeLoopLogged root next decoded rest := by
  have h10 : ('1' : Char) ≠ '0' := by decide
  cases b with
  | false =>
    rcases hn : current.left with _ | ⟨c, f, l, r⟩ <;>
      simp [decodeLoopLogged, bitChar, hn]
  | true =>
    rcases hn : current.right with _ | ⟨c, f, l, r⟩ <;>
      simp [decodeLoopLogged, bitChar, h10, hn]

/-- The decoder follows the walk: it stops with an error where the walk finds
no child, and otherwise returns the bytes the walk emits, with a warning when
the walk does not end at the root. -/
theorem decodeLoopLogged_walk (root : HuffmanNode) : ∀ (bits : List Bool)
    (current : HuffmanNode) (decoded : List Byte),
    decodeLoopLogged root current decoded (bits.map bitChar) =
      match walk root current bits with
      | none => ([], .errorInvalidPath)
      | some res =>
        (decoded ++ res.1, if res.2 ≠ root then .warnIncomplete else .silent)
  | [], current, decoded => by simp [decodeLoopLogged, walk]
  | b :: rest, current, decoded => by
    rw [List.map_cons, decodeLoopLogged_cons]
    unfold walk
    generalize (if b then current.right else current.left) = next
    cases next with
    | null => rfl
    | node c f l r =>
      simp only
      by_cases hleaf : (HuffmanNode.node c f l r).isLeaf
      · rw [if_pos hleaf, if_pos hleaf, decodeLoopLogged_walk root rest root]
        cases walk root root rest with
        | none => rfl
        | some res => simp [HuffmanNode.character]
      · rw [if_neg hleaf, if_neg hleaf, decodeLoopLogged_walk root rest]

theorem decodeWithRootLogged_walk (root : HuffmanNode) (hroot : root ≠ .null)
    (bits : List Bool) :
    decodeWithRootLogged root (bits.map bitChar) =
      match walk root root bits with
      | none => ([], .errorInvalidPath)
      | some res => (res.1, if res.2 ≠ root then .warnIncomplete else .silent) := by
  cases root with
  | null => exact absurd rfl hroot
  | node c f l r =>
    have := decodeLoopLogged_walk (.node c f l r) bits (.node c f l r) []
    simpa [decodeWithRootLogged] using this

/-- C14 as amended: for every tree and every bit sequence whose walk steps
past a leaf (a step finds no child to move to), `decodeWithRoot` and `decode`
print an error and return the empty string; for every bit sequence whose walk
does not finish back at the root (it ends part-way through a code), they
print the warning that the encoded string is incomplete and return the bytes
decoded so far. -/
theorem decode_walk_outcome (root : HuffmanNode) (hroot : root ≠ .null) (bits : List Bool) :
    (walk root root bits = none →
      decodeWithRootLogged root (bits.map bitChar) = ([], .errorInvalidPath)) ∧
    (∀ decoded last, walk root root bits = some (decoded, last) → last ≠ root →
      decodeWithRootLogged root (bits.map bitChar) = (decoded, .warnIncomplete)) ∧
    (∀ table, HuffmanTree.decodeLogged ⟨root, table⟩ (bits.map bitChar) =
      decodeWithRootLogged root (bits.map bitChar)) := by
  refine ⟨?_, ?_, fun _ => rfl⟩
  · intro h
    rw [decodeWithRootLogged_walk root hroot, h]
  · intro decoded last h hlast
    rw [decodeWithRootLogged_walk root hroot, h]
    simp [hlast]

theorem decode_walk_outcome_witness :
    decodeWithRootLogged (.node 120 0 .null .null) ([false].map bitChar) =
      ([], .errorInvalidPath) ∧
    decodeWithRootLogged sampleTree ([false, true].map bitChar) = ([97], .warnIncomplete) :=
  ⟨(decode_walk_outcome (.node 120 0 .null .null) (by decide) [false]).1 (by decide),
    (decode_walk_outcome sampleTree (by decide) [false, true]).2.1 [97]
      (.node 0 0 (.node 98 0 .null .null) (.node 99 0 .null .null)) (by decide) (by decide)⟩

/-- C14 fails: in the tree with the codes `0`, `10` and `11` the bit sequence
`01` ends part-way through a code, the walk ends below the root, and both
`decodeWithRoot` and `decode` return the decoded byte `a` after printing a
warning; no error is reported. -/
theorem decode_exactness_counterexample :
    walk sampleTree sampleTree [false, true] =
      some ([97], .node 0 0 (.node 98 0 .null .null) (.node 99 0 .null .null)) ∧
    HuffmanNode.node 0 0 (.node 98 0 .null .null) (.node 99 0 .null .null) ≠ sampleTree ∧
    decodeWithRootLogged sampleTree ['0', '1'] = ([97], .warnIncomplete) ∧
    HuffmanTree.decodeLogged ⟨sampleTree, []⟩ ['0', '1'] = ([97], .warnIncomplete) ∧
    decodeWithRoot sampleTree ['0', '1'] = [97] := by
  decide

/-! ## A truncated tree -/

/-- C15 fails at the stream of the one byte `0x80`, which holds the marker of
an inner node and then ends inside the left subtree: the leaf case and the
case of an invalid bit return the null tree, but the case of the marker does
not look at what its two recursive calls returned, and
`TreeSerializer::deserialize` returns a node with two null children, which
`isLeaf` takes for a leaf of the byte 0. `FileCompressor::decompress` then
accepts the archive `F`, `0x80` and writes an empty file. -/
theorem deserialize_truncated_returns_node :
    (TreeSerializer.deserialize (BitReader.new [128])).1 = .node 0 0 .null .null ∧
    (TreeSerializer.deserialize (BitReader.new [128])).1 ≠ .null ∧
    (TreeSerializer.deserialize (BitReader.new [128])).1.isLeaf = true ∧
    FileCompressor.decompress [70, 128] = some [] := by
  decide

/-- Where the stream ends at the root or inside a leaf at the root,
`deserialize` does return the null tree. -/
theorem deserialize_truncated_leaf :
    (TreeSerializer.deserialize (BitReader.new [])).1 = .null ∧
    (TreeSerializer.deserialize (BitReader.new [48])).1 = .null := by
  decide

/-! ## A byte without a code -/

theorem encode_append (tree : HuffmanTree) : ∀ (a b : List Byte),
    tree.encode (a ++ b) = tree.encode a ++ tree.encode b
  | [], b => rfl
  | ch :: a, b => by
    simp only [List.cons_append, HuffmanTree.encode]
    cases tree.codeTable.find ch with
    | none => exact encode_append tree a b
    | some code =>
      have ih := encode_append tree a b
      simp only [List.append_eq, ih, List.append_assoc]

theorem encodeWarnings_append (tree : HuffmanTree) : ∀ (a b : List Byte),
    tree.encodeWarnings (a ++ b) = tree.encodeWarnings a ++ tree.encodeWarnings b
  | [], b => rfl
  | ch :: a, b => by
    simp only [List.cons_append, HuffmanTree.encodeWarnings]
    cases tree.codeTable.find ch with
    | none =>
      have ih := encodeWarnings_append tree a b
      simp only [List.append_eq, ih, List.cons_append]
    | some code => exact encodeWarnings_append tree a b

/-- C16 as amended: for every code table and every input that contains a byte
with no entry in the table, `HuffmanTree::encode` prints a warning for that
byte and returns the bit sequence that omits it: the bits of what comes
before the byte followed by the bits of what comes after it. -/
theorem encode_omits_missing_byte (tree : HuffmanTree) (before after : List Byte) (ch : Byte)
    (hgap : tree.codeTable.find ch = none) :
    tree.encode (before ++ ch :: after) = tree.encode before ++ tree.encode after ∧
    tree.encodeWarnings (before ++ ch :: after) =
      tree.encodeWarnings before ++ ch :: tree.encodeWarnings after := by
  rw [encode_append, encodeWarnings_append]
  simp [HuffmanTree.encode, HuffmanTree.encodeWarnings, hgap]

theorem encode_omits_missing_byte_witness :
    (HuffmanTree.mk sampleTree []).generateCodeTable.encode ([97] ++ 120 :: [98]) =
      (HuffmanTree.mk sampleTree []).generateCodeTable.encode [97] ++
        (HuffmanTree.mk sampleTree []).generateCodeTable.encode [98] ∧
    (HuffmanTree.mk sampleTree []).generateCodeTable.encodeWarnings ([97] ++ 120 :: [98]) =
      (HuffmanTree.mk sampleTree []).generateCodeTable.encodeWarnings [97] ++
        120 :: (HuffmanTree.mk sampleTree []).generateCodeTable.encodeWarnings [98] :=
  encode_omits_missing_byte (HuffmanTree.mk sampleTree []).generateCodeTable [97] [98] 120
    (by decide)

/-- C16 fails: with the code table of the tree for `a`, `b` and `c`, the input
`axb` holds the byte `x`, which has no entry; `encode` does not fail but
returns `010`, the bit sequence of `ab`, after one warning for `x`. -/
theorem encode_gap_counterexample :
    (HuffmanTree.mk sampleTree []).generateCodeTable.codeTable.find 120 = none ∧
    (HuffmanTree.mk sampleTree []).generateCodeTable.encode [97, 120, 98] = ['0', '1', '0'] ∧
    (HuffmanTree.mk sampleTree []).generateCodeTable.encode [97, 98] = ['0', '1', '0'] ∧
    (HuffmanTree.mk sampleTree []).generateCodeTable.encodeWarnings [97, 120, 98] = [120] := by
  decide

/-! ## A stream shorter than the declared bit count -/

/-- When the stream ends before the declared bits are there, the unpacking
loop returns the bits of the bytes it found. -/
theorem unpackLoop_short (bitCount : Nat) : ∀ (input : List Byte) (n : Nat) (acc : BitString),
    input.length ≤ n → acc.length + 8 * input.length ≤ bitCount →
    unpackLoop bitCount n acc input = (acc ++ (bytesBits input).map bitChar, [])
  | [], 0, acc, _, _ => by simp [unpackLoop, bytesBits]
  | [], n + 1, acc, _, _ => by simp [unpackLoop, bytesBits]
  | byte :: rest, 0, acc, h, _ => by simp at h
  | byte :: rest, n + 1, acc, h, hb => by
    simp only [List.length_cons] at h hb
    have hstep : unpackByte bitCount byte 8 acc = acc ++ (byteBits byte).map bitChar := by
      rw [unpackByte_eq]
      congr 1
      apply List.take_of_length_le
      rw [List.length_map, lowBits_length]
      omega
    simp only [unpackLoop]
    rw [hstep, unpackLoop_short bitCount rest n _ (by omega)
      (by rw [List.length_append, List.length_map, byteBits_length]; omega)]
    rw [bytesBits_cons, List.map_append, List.append_assoc]

/-- C17 as amended: for every declared bit count `n` up to `2^32 - 8` and
every stream that holds fewer than `ceil(n/8)` remaining bytes,
`FolderCompressor::readBits` stops at the end of the stream and returns the
shorter bit sequence made of the eight bits of every remaining byte, fewer
than `n` bits; for `n` up to `2^31 - 8` so does `FileCompressor::readBits`,
whether `n` is handed to it or read from the four bytes in front. -/
theorem readBits_short_stream (input : List Byte) (n : Nat) (hn : n ≤ 2 ^ 32 - 8)
    (hshort : input.length < (n + 7) / 8) :
    FolderCompressor.readBits input n = ((bytesBits input).map bitChar, []) ∧
    (n ≤ 2 ^ 31 - 8 →
      FileCompressor.readBits input (n : Int) = ((bytesBits input).map bitChar, []) ∧
      FileCompressor.readBits (int32Bytes (n : Int) ++ input) (-1) =
        ((bytesBits input).map bitChar, [])) ∧
    ((bytesBits input).map bitChar).length < n := by
  have h32 : (2 : Nat) ^ 32 = 4294967296 := by norm_num
  have h31 : (2 : Nat) ^ 31 = 2147483648 := by norm_num
  have hloop : unpackLoop n ((n + 7) / 8) [] input = ((bytesBits input).map bitChar, []) := by
    have := unpackLoop_short n input ((n + 7) / 8) [] (by omega)
      (by simp only [List.length_nil]; omega)
    simpa using this
  refine ⟨?_, ?_, ?_⟩
  · unfold FolderCompressor.readBits
    rw [Nat.mod_eq_of_lt (by omega)]
    exact hloop
  · intro hn31
    have hbody : FileCompressor.readBitsBody input (n : Int) =
        ((bytesBits input).map bitChar, []) := by
      unfold FileCompressor.readBitsBody
      have h1 : toInt32 ((n : Int) + 7) = ((n + 7 : Nat) : Int) := by
        rw [toInt32_of_range] <;> push_cast <;> omega
      have h2 : (Int.tdiv ((n + 7 : Nat) : Int) 8).toNat = (n + 7) / 8 := by
        rw [Int.tdiv_eq_ediv (by omega) (by omega)]
        omega
      simp only [h1, h2, Int.toNat_ofNat]
      exact hloop
    constructor
    · unfold FileCompressor.readBits
      have hneg : ¬ ((n : Int) < 0) := by omega
      simp only [hneg, if_false]
      exact hbody
    · obtain ⟨b0, b1, b2, b3, hbytes, hval⟩ := int32OfBytes_int32Bytes (n : Int)
        (by omega) (by omega) input
      rw [hbytes]
      unfold FileCompressor.readBits
      have hneg : ((-1 : Int) < 0) := by decide
      have hpos : ¬ ((n : Int) ≤ 0) := by omega
      simp only [hneg, if_true, hval, hpos, if_false]
      exact hbody
  · rw [List.length_map, bytesBits_length]
    omega

theorem readBits_short_stream_witness :
    FolderCompressor.readBits [255] 16 = ((bytesBits [255]).map bitChar, []) ∧
    (FileCompressor.readBits [255] ((16 : Nat) : Int) = ((bytesBits [255]).map bitChar, []) ∧
      FileCompressor.readBits (int32Bytes ((16 : Nat) : Int) ++ [255]) (-1) =
        ((bytesBits [255]).map bitChar, [])) ∧
    ((bytesBits [255]).map bitChar).length < 16 :=
  ⟨(readBits_short_stream [255] 16 (by norm_num) (by decide)).1,
    (readBits_short_stream [255] 16 (by norm_num) (by decide)).2.1 (by norm_num),
    (readBits_short_stream [255] 16 (by norm_num) (by decide)).2.2⟩

/-- C17 fails: 16 bits are declared and the stream holds one byte, fewer than
the two that 16 bits need; `FileCompressor::readBits`, with the count handed
over or read from the four bytes in front, and `FolderCompressor::readBits`
all return the eight bits of that byte, a shorter bit sequence. -/
theorem readBits_overrun_counterexample :
    ([255] : List Byte).length < (16 + 7) / 8 ∧
    FileCompressor.readBits [255] 16 = (['1', '1', '1', '1', '1', '1', '1', '1'], []) ∧
    FileCompressor.readBits [16, 0, 0, 0, 255] (-1) =
      (['1', '1', '1', '1', '1', '1', '1', '1'], []) ∧
    FolderCompressor.readBits [255] 16 = (['1', '1', '1', '1', '1', '1', '1', '1'], []) := by
  decide

/-! ## The names of archives and outputs -/

/-- The single-file reader removes the extension that the compressor added:
for every name `X`, the archive of `X` is `X.huf` and unpacking `X.huf`
writes to `X`. -/
theorem decompressOutputFile_compressOutputFile (inputFile : List Byte) :
    FileCompressor.decompressOutputFile (FileCompressor.compressOutputFile inputFile) =
      some inputFile := by
  unfold FileCompressor.decompressOutputFile FileCompressor.compressOutputFile
  have hlen : (inputFile ++ hufExtension).length - 4 = inputFile.length := by
    simp [hufExtension]
  rw [hlen, List.drop_left, List.take_left]
  simp [hufExtension]

/-- Behind a name that does not start with `.huf`, the extension added by
the compressor does not make it start with `.huf`. -/
theorem isPrefixOf_append_hufExtension (X : List Byte) (hX : X ≠ [])
    (h : hufExtension.isPrefixOf X = false) :
    hufExtension.isPrefixOf (X ++ hufExtension) = false := by
  rcases X with _ | ⟨a, _ | ⟨b, _ | ⟨c, _ | ⟨d, rest⟩⟩⟩⟩
  · exact absurd rfl hX
  · simp [hufExtension, List.isPrefixOf]
  · simp [hufExtension, List.isPrefixOf]
  · simp [hufExtension, List.isPrefixOf]
  · simpa [hufExtension, List.isPrefixOf] using h

theorem stringFind_append_hufExtension : ∀ (X : List Byte),
    stringFind hufExtension X = none →
    stringFind hufExtension (X ++ hufExtension) = some X.length
  | [], _ => by decide
  | c :: rest, h => by
    unfold stringFind at h
    by_cases hp : hufExtension.isPrefixOf (c :: rest) = true
    · simp [hp] at h
    · have hf : hufExtension.isPrefixOf (c :: rest) = false := Bool.eq_false_iff.mpr hp
      simp only [hf, Bool.false_eq_true, if_false, Option.map_eq_none'] at h
      have ih := stringFind_append_hufExtension rest h
      have hf2 := isPrefixOf_append_hufExtension (c :: rest) (List.cons_ne_nil _ _) hf
      rw [List.cons_append] at hf2 ⊢
      unfold stringFind
      simp only [hf2, Bool.false_eq_true, if_false, ih, Option.map_some', List.length_cons]

/-- For a name `X` in which `.huf` does not occur, the folder readers write
under `X` what the compressors stored as `X.huf`. -/
theorem outputFolder_compressOutputFile (folderPath : List Byte)
    (h : stringFind hufExtension folderPath = none) :
    FolderCompressor.outputFolder (FolderCompressor.compressOutputFile folderPath) =
      folderPath := by
  unfold FolderCompressor.outputFolder FolderCompressor.compressOutputFile
  rw [stringFind_append_hufExtension folderPath h]
  exact List.take_left _ _

/-- C18 fails for the folder readers at the name `my.huffman`: the archive is
named `my.huffman.huf`, and `decompressGlobal` and `decompressSeparate` cut
that name at the first `.huf` in it, so the output folder is `my`. The
single-file reader, which removes the last four characters, gives the name
back. -/
theorem outputFolder_cut_at_first_huf :
    FolderCompressor.compressOutputFile sampleName = sampleName ++ hufExtension ∧
    FolderCompressor.outputFolder (FolderCompressor.compressOutputFile sampleName) =
      [109, 121] ∧
    FolderCompressor.outputFolder (FolderCompressor.compressOutputFile sampleName) ≠
      sampleName ∧
    FileCompressor.decompressOutputFile (FileCompressor.compressOutputFile sampleName) =
      some sampleName := by
  decide

/-! ## The fields of an archive -/

theorem mem_of_lookup_eq_some {ch : Byte} {code : BitString} : ∀ {table : CodeTable},
    List.lookup ch table = some code → (ch, code) ∈ table
  | [], h => by simp at h
  | (c, p) :: rest, h => by
    rw [List.lookup_cons] at h
    by_cases hc : (ch == c) = true
    · rw [hc] at h
      have hcc : ch = c := by simpa using hc
      have hp : p = code := by simpa using h
      subst hcc; subst hp
      exact List.mem_cons_self _ _
    · have hf : (ch == c) = false := by simpa using hc
      rw [hf] at h
      exact List.mem_cons_of_mem _ (mem_of_lookup_eq_some h)

/-- Every code that `generateCodesRecursive` puts into the table is made of
the characters `0` and `1`. -/
theorem generateCodesRecursive_binary : ∀ (t : HuffmanNode) (code : BitString)
    (table : CodeTable), (∀ c ∈ code, c = '0' ∨ c = '1') →
    (∀ e ∈ table, ∀ c ∈ e.2, c = '0' ∨ c = '1') →
    ∀ e ∈ generateCodesRecursive t code table, ∀ c ∈ e.2, c = '0' ∨ c = '1'
  | .null, code, table, _, htable => by simpa [generateCodesRecursive] using htable
  | .node ch f .null .null, code, table, hcode, htable => by
    intro e he c hc
    simp only [generateCodesRecursive, CodeTable.set, List.mem_cons, List.mem_filter] at he
    rcases he with he | ⟨he, _⟩
    · subst he
      by_cases hempty : code.isEmpty
      · simp only [hempty, if_true, List.mem_singleton] at hc
        exact Or.inl hc
      · simp only [hempty, Bool.false_eq_true, if_false] at hc
        exact hcode c hc
    · exact htable e he c hc
  | .node ch f (.node c1 f1 l1 r1) r, code, table, hcode, htable => by
    have hstep : ∀ (b : Char), (b = '0' ∨ b = '1') → ∀ c ∈ code ++ [b], c = '0' ∨ c = '1' := by
      intro b hb c hc
      rcases List.mem_append.mp hc with h | h
      · exact hcode c h
      · rw [List.mem_singleton.mp h]; exact hb
    simp only [generateCodesRecursive]
    exact generateCodesRecursive_binary r _ _ (hstep '1' (Or.inr rfl))
      (generateCodesRecursive_binary (.node c1 f1 l1 r1) _ _ (hstep '0' (Or.inl rfl)) htable)
  | .node ch f .null (.node c1 f1 l1 r1), code, table, hcode, htable => by
    have hstep : ∀ (b : Char), (b = '0' ∨ b = '1') → ∀ c ∈ code ++ [b], c = '0' ∨ c = '1' := by
      intro b hb c hc
      rcases List.mem_append.mp hc with h | h
      · exact hcode c h
      · rw [List.mem_singleton.mp h]; exact hb
    simp only [generateCodesRecursive]
    exact generateCodesRecursive_binary (.node c1 f1 l1 r1) _ _ (hstep '1' (Or.inr rfl))
      (generateCodesRecursive_binary .null _ _ (hstep '0' (Or.inl rfl)) htable)

/-- What a tree made by `makeTree` encodes is a string of `0` and `1`. -/
theorem makeTree_encode_binary (tie : List (Byte × Int) → Nat → Nat)
    (charFreqs : List (Byte × Int)) : ∀ (text : List Byte),
    ∀ c ∈ (makeTree tie charFreqs).encode text, c = '0' ∨ c = '1'
  | [] => by simp [HuffmanTree.encode]
  | ch :: rest => by
    intro c hc
    unfold HuffmanTree.encode at hc
    cases hfind : (makeTree tie charFreqs).codeTable.find ch with
    | none =>
      rw [hfind] at hc
      exact makeTree_encode_binary tie charFreqs rest c hc
    | some code =>
      rw [hfind] at hc
      rcases List.mem_append.mp hc with h | h
      · have hmem := mem_of_lookup_eq_some hfind
        exact generateCodesRecursive_binary _ [] [] (by simp) (by simp) _ hmem c h
      · exact makeTree_encode_binary tie charFreqs rest c h

theorem packLoop_nil (fuel : Nat) : packLoop fuel [] = [] := by
  cases fuel <;> simp [packLoop]

/-- The packed bytes of a bit string: `ceil(length / 8)` bytes whose bits are
the string followed by zeros. -/
theorem isPacked_packLoop : ∀ (fuel : Nat) (bits : BitString), bits.length ≤ fuel →
    (∀ c ∈ bits, c = '0' ∨ c = '1') → IsPacked (packLoop fuel bits) bits
  | 0, bits, hfuel, _ => by
    have : bits = [] := List.length_eq_zero.mp (by omega)
    subst this
    simp [IsPacked, packLoop, bytesBits]
  | fuel + 1, [], _, _ => by simp [IsPacked, packLoop, bytesBits]
  | fuel + 1, c :: cs, hfuel, hbin => by
    have hne : (c :: cs).isEmpty = false := rfl
    have ih := isPacked_packLoop fuel ((c :: cs).drop 8)
      (by simp only [List.length_drop, List.length_cons] at hfuel ⊢; omega)
      (fun x hx => hbin x (List.mem_of_mem_drop hx))
    obtain ⟨ihlen, ihbits⟩ := ih
    have hpk := byteBits_packByte (c :: cs) hbin
    simp only [packLoop, hne, Bool.false_eq_true, if_false]
    have hlen : (packByte (c :: cs) :: packLoop fuel ((c :: cs).drop 8)).length =
        ((c :: cs).length + 7) / 8 := by
      rw [List.length_cons, ihlen]
      simp only [List.length_drop, List.length_cons]
      omega
    refine ⟨hlen, ?_⟩
    rw [hlen, bytesBits_cons, List.map_append, hpk, ihbits, ihlen]
    by_cases h8 : 8 ≤ (c :: cs).length
    · have hl : ((c :: cs).take 8).length = 8 := by rw [List.length_take]; omega
      rw [hl]
      simp only [Nat.sub_self, List.replicate_zero, List.append_nil]
      rw [← List.append_assoc, List.take_append_drop]
      congr 2
      simp only [List.length_drop, List.length_cons] at h8 ⊢
      omega
    · have ht : (c :: cs).take 8 = c :: cs := List.take_of_length_le (by omega)
      have hd : (c :: cs).drop 8 = [] := List.drop_of_length_le (by omega)
      rw [ht, hd]
      simp only [List.length_nil, List.nil_append, List.length_cons] at h8 ⊢
      rw [List.append_assoc, ← List.replicate_add]
      congr 2
      omega

theorem isPacked_packBits (bits : BitString) (hbin : ∀ c ∈ bits, c = '0' ∨ c = '1') :
    IsPacked (packBits bits) bits :=
  isPacked_packLoop bits.length bits le_rfl hbin

/-- The four bytes written for a bit length below `2^32` hold that length. -/
theorem isRawLength_int32Bytes (n : Nat) (hn : n < 2 ^ 32) :
    IsRawLength (int32Bytes (toInt32 n)) n := by
  have h32 : (2 : Nat) ^ 32 = 4294967296 := by norm_num
  have hu : ((toInt32 (n : Int)) % 2 ^ 32).toNat = n := by
    unfold toInt32
    omega
  refine ⟨rfl, ?_⟩
  simp only [int32Bytes, hu, rawValue, Fin.ofNat, Nat.shiftRight_eq_div_pow]
  norm_num
  omega

theorem rawValue_lt : ∀ (bytes : List Byte), rawValue bytes < 256 ^ bytes.length
  | [] => by simp [rawValue]
  | b :: rest => by
    have ih := rawValue_lt rest
    have hb := b.isLt
    simp only [rawValue, List.length_cons, pow_succ]
    omega

/-- Four bytes cannot hold a number from `2^32` on. -/
theorem not_isRawLength_of_le (n : Nat) (hn : 2 ^ 32 ≤ n) :
    ¬ ∃ bytes, IsRawLength bytes n := by
  rintro ⟨bytes, hlen, hval⟩
  have := rawValue_lt bytes
  rw [hlen, hval] at this
  norm_num at this hn
  omega

/-- The bytes `serialize` and `flush` write are the bits of the tree, padded
with zero bits to whole bytes. -/
theorem isPaddedTree_treeBytes (t : HuffmanNode) : IsPaddedTree (treeBytes t) t := by
  have hs := serialize_bits t (BitWriter.new []) (by simp [BitWriter.new])
  have hf := flush_out_bits _ hs.2
  refine ⟨(8 - (TreeSerializer.serialize t (BitWriter.new [])).bitCount) % 8,
    Nat.mod_lt _ (by norm_num), ?_⟩
  unfold treeBytes
  rw [hf, hs.1]
  simp [BitWriter.bits, BitWriter.new, BitWriter.pending, bytesBits, byteBits_length]

theorem encodeLoop_ne_nil : ∀ (fuel v : Nat), VarInt.encodeLoop fuel v ≠ []
  | 0, v => by simp [VarInt.encodeLoop]
  | fuel + 1, v => by
    unfold VarInt.encodeLoop
    split_ifs <;> simp

/-- The bytes the loop of `VarInt::encode` puts out are the VarInt of the value
as the specification describes it. -/
theorem isVarInt_encodeLoop : ∀ (fuel n : Nat), n ≤ fuel →
    IsVarInt (VarInt.encodeLoop fuel n) n
  | 0, n, h => by
    have h0 : n = 0 := by omega
    subst h0
    simp [VarInt.encodeLoop, IsVarInt, Fin.ofNat]
  | fuel + 1, n, h => by
    unfold VarInt.encodeLoop
    have hlt : n % 128 < 128 := Nat.mod_lt _ (by decide)
    by_cases hn : n ≥ 0x80
    · rw [if_pos hn]
      unfold IsVarInt
      rw [if_neg (by omega)]
      refine ⟨?_, ?_⟩
      · rw [VarInt.and_7F, VarInt.or_80 _ hlt]
        simp only [Fin.ofNat]
        omega
      · rw [Nat.shiftRight_eq_div_pow]
        exact isVarInt_encodeLoop fuel (n / 2 ^ 7) (by norm_num; omega)
    · rw [if_neg hn]
      unfold IsVarInt
      rw [if_pos (by omega)]
      refine ⟨?_, rfl⟩
      rw [VarInt.and_7F]
      simp only [Fin.ofNat]
      omega

/-- The bytes `VarInt::encode` puts out for a number are its VarInt. -/
theorem isVarInt_encode (n : Nat) (_hn : n < 2 ^ 32) : IsVarInt (VarInt.encode n) n :=
  isVarInt_encodeLoop n n le_rfl

/-- A number has one VarInt only. -/
theorem isVarInt_unique : ∀ (a b : List Byte) (n : Nat), IsVarInt a n → IsVarInt b n → a = b
  | [], _, _, ha, _ => by simp [IsVarInt] at ha
  | _ :: _, [], _, _, hb => by simp [IsVarInt] at hb
  | x :: xs, y :: ys, n, ha, hb => by
    unfold IsVarInt at ha hb
    by_cases hn : n < 128
    · rw [if_pos hn] at ha hb
      rw [Fin.ext (ha.1.trans hb.1.symm), ha.2, hb.2]
    · rw [if_neg hn] at ha hb
      rw [Fin.ext (ha.1.trans hb.1.symm), isVarInt_unique xs ys (n / 128) ha.2 hb.2]

/-- The VarInt of a number are the bytes `VarInt::encode` puts out for it, and
no other bytes. -/
theorem isVarInt_iff_encode (bytes : List Byte) (n : Nat) :
    IsVarInt bytes n ↔ bytes = VarInt.encode n :=
  ⟨fun h => isVarInt_unique _ _ n h (isVarInt_encodeLoop n n le_rfl),
    fun h => h ▸ isVarInt_encodeLoop n n le_rfl⟩

/-- The VarInt of a number from 128 on starts with a byte that has its top
bit set. -/
theorem isVarInt_head (bytes : List Byte) (n : Nat) (hn : 128 ≤ n) (h : IsVarInt bytes n) :
    ∃ b rest, bytes = b :: rest ∧ 128 ≤ b.val := by
  cases bytes with
  | nil => simp [IsVarInt] at h
  | cons b rest =>
    unfold IsVarInt at h
    rw [if_neg (by omega)] at h
    exact ⟨b, rest, rfl, by omega⟩

/-- A tree has one sequence of bytes that holds it padded to whole bytes. -/
theorem isPaddedTree_unique {a b : List Byte} {t : HuffmanNode}
    (ha : IsPaddedTree a t) (hb : IsPaddedTree b t) : a = b := by
  obtain ⟨k, hk, hka⟩ := ha
  obtain ⟨j, hj, hjb⟩ := hb
  have h1 := congrArg List.length hka
  have h2 := congrArg List.length hjb
  rw [bytesBits_length, List.length_append, List.length_replicate] at h1 h2
  have hkj : k = j := by omega
  subst hkj
  exact bytesBits_injective (hka.trans hjb.symm)

/-- The leaves of the tree that a compressor builds are the entries of the
frequency table it was built from. -/
theorem leafPairs_makeTree (tie : List (Byte × Int) → Nat → Nat)
    (charFreqs : List (Byte × Int)) :
    (leafPairs (makeTree tie charFreqs).root).Perm charFreqs := by
  rw [makeTree_root]
  by_cases h : charFreqs = []
  · subst h
    simp [buildFromFrequencies, leafPairs]
  · exact (buildFromFrequencies_full _ _ h).2

/-! ## The layout of the single-file archive -/

/-- C19 as amended: for every non-empty content `S` whose encoding is shorter
than `2^32` bits, the archive written by `FileCompressor::compress` is exactly
the byte `0x46` (`F`), then the serialized tree of the Huffman tree of `S`
(its leaves are the entries of the frequency table of `S`) padded with zero
bits to a whole number of bytes, then the bit length of
`encode(S)` as a 4-byte raw integer (least significant byte first), then
`ceil(bitLength / 8)` bytes that hold `encode(S)` packed from the most
significant bit on, with zero padding in the last byte. -/
theorem file_layout (order : IterationOrder) (tie : List (Byte × Int) → Nat → Nat)
    (S : List Byte) (hS : S ≠ [])
    (hlen : ((makeTree tie (getFrequencies order S)).encode S).length < 2 ^ 32) :
    (leafPairs (makeTree tie (getFrequencies order S)).root).Perm (getFrequencies order S) ∧
    ∃ treeField lengthField packed : List Byte,
      FileCompressor.compress order tie S =
        some (70 :: (treeField ++ (lengthField ++ packed))) ∧
      IsPaddedTree treeField (makeTree tie (getFrequencies order S)).root ∧
      IsRawLength lengthField ((makeTree tie (getFrequencies order S)).encode S).length ∧
      IsPacked packed ((makeTree tie (getFrequencies order S)).encode S) := by
  obtain ⟨c, rest, rfl⟩ := List.exists_cons_of_ne_nil hS
  exact ⟨leafPairs_makeTree tie _, _, _, _,
    compress_eq order tie _ (getFrequencies_ne_nil order c rest),
    isPaddedTree_treeBytes _, isRawLength_int32Bytes _ hlen,
    isPacked_packBits _ (makeTree_encode_binary _ _ _)⟩

set_option maxRecDepth 100000 in
theorem file_layout_witness :
    ([97, 97, 97, 97, 98, 98, 98, 99, 99, 100] : List Byte) ≠ [] ∧
    ((makeTree (fun _ _ => 0) (getFrequencies IterationOrder.insertion
      [97, 97, 97, 97, 98, 98, 98, 99, 99, 100])).encode
        [97, 97, 97, 97, 98, 98, 98, 99, 99, 100]).length < 2 ^ 32 ∧
    (leafPairs (makeTree (fun _ _ => 0) (getFrequencies IterationOrder.insertion
      [97, 97, 97, 97, 98, 98, 98, 99, 99, 100])).root).Perm
        (getFrequencies IterationOrder.insertion [97, 97, 97, 97, 98, 98, 98, 99, 99, 100]) ∧
    ∃ treeField lengthField packed : List Byte,
      FileCompressor.compress IterationOrder.insertion (fun _ _ => 0)
          [97, 97, 97, 97, 98, 98, 98, 99, 99, 100] =
        some (70 :: (treeField ++ (lengthField ++ packed))) ∧
      IsPaddedTree treeField (makeTree (fun _ _ => 0) (getFrequencies IterationOrder.insertion
        [97, 97, 97, 97, 98, 98, 98, 99, 99, 100])).root ∧
      IsRawLength lengthField ((makeTree (fun _ _ => 0)
        (getFrequencies IterationOrder.insertion
          [97, 97, 97, 97, 98, 98, 98, 99, 99, 100])).encode
            [97, 97, 97, 97, 98, 98, 98, 99, 99, 100]).length ∧
      IsPacked packed ((makeTree (fun _ _ => 0) (getFrequencies IterationOrder.insertion
        [97, 97, 97, 97, 98, 98, 98, 99, 99, 100])).encode
          [97, 97, 97, 97, 98, 98, 98, 99, 99, 100]) :=
  ⟨by decide, by decide,
    file_layout IterationOrder.insertion (fun _ _ => 0)
      [97, 97, 97, 97, 98, 98, 98, 99, 99, 100] (by decide) (by decide)⟩

/-- A text of one `b` followed by `n` times `a` is encoded with one bit per
byte, and its archive holds the length `n + 1` reduced to 32 bits. -/
theorem two_values_length_field (order : IterationOrder)
    (tie : List (Byte × Int) → Nat → Nat) (a b : Byte) (n : Nat) (hab : a ≠ b) (hn : n ≠ 0) :
    ((makeTree tie (getFrequencies order (b :: List.replicate n a))).encode
      (b :: List.replicate n a)).length = n + 1 ∧
    FileCompressor.compress order tie (b :: List.replicate n a) =
      some (70 :: (treeBytes (makeTree tie (getFrequencies order
          (b :: List.replicate n a))).root ++
        (int32Bytes (toInt32 ((n + 1 : Nat) : Int)) ++
          packBits ((makeTree tie (getFrequencies order (b :: List.replicate n a))).encode
            (b :: List.replicate n a))))) := by
  have hS : ∀ c, c ∈ b :: List.replicate n a ↔ c = a ∨ c = b := by
    intro c
    simp only [List.mem_cons, List.mem_replicate]
    constructor
    · rintro (h | ⟨_, h⟩)
      · exact Or.inr h
      · exact Or.inl h
    · rintro (h | h)
      · exact Or.inr ⟨hn, h⟩
      · exact Or.inl h
  have hlen2 := length_getFrequencies_of_two order _ a b hab hS
  have hne : getFrequencies order (b :: List.replicate n a) ≠ [] :=
    getFrequencies_ne_nil order b _
  obtain ⟨hfull, hperm⟩ := buildFromFrequencies_full
    (tie (getFrequencies order (b :: List.replicate n a))) _ hne
  have hinner := buildFromFrequencies_inner
    (tie (getFrequencies order (b :: List.replicate n a))) _ (by rw [hlen2])
  have hmem : ∀ ch ∈ b :: List.replicate n a,
      ch ∈ leafChars (makeTree tie (getFrequencies order (b :: List.replicate n a))).root := by
    intro ch hch
    rw [makeTree_root, leafChars_buildFromFrequencies _ _ hne]
    exact (mem_keys_getFrequencies order _ ch).mpr hch
  have hunit := paths_length_of_two_leaves hfull (by rw [hperm.length_eq]; exact hlen2)
  rw [← makeTree_root] at hfull hinner hunit
  have hlen := encode_length_of_unit_paths hfull hinner hunit _ hmem
  rw [← makeTree_eq, List.length_cons, List.length_replicate] at hlen
  refine ⟨hlen, ?_⟩
  rw [compress_eq order tie _ hne, hlen]

/-- C19 fails at the content of one `b` followed by `2^32` times `a`: its
encoding has `2^32 + 1` bits, the four bytes written for the bit length are
`1, 0, 0, 0`, which is the number 1, and no four bytes hold `2^32 + 1`. -/
theorem file_layout_counterexample :
    ((makeTree (fun _ _ => 0) (getFrequencies IterationOrder.insertion
      (98 :: List.replicate (2 ^ 32) 97))).encode
        (98 :: List.replicate (2 ^ 32) 97)).length = 2 ^ 32 + 1 ∧
    FileCompressor.compress IterationOrder.insertion (fun _ _ => 0)
        (98 :: List.replicate (2 ^ 32) 97) =
      some (70 :: (treeBytes (makeTree (fun _ _ => 0) (getFrequencies IterationOrder.insertion
          (98 :: List.replicate (2 ^ 32) 97))).root ++
        ([1, 0, 0, 0] ++
          packBits ((makeTree (fun _ _ => 0) (getFrequencies IterationOrder.insertion
            (98 :: List.replicate (2 ^ 32) 97))).encode
              (98 :: List.replicate (2 ^ 32) 97))))) ∧
    rawValue [1, 0, 0, 0] = 1 ∧
    ¬ ∃ lengthField, IsRawLength lengthField (2 ^ 32 + 1) := by
  obtain ⟨hlen, hc⟩ := two_values_length_field IterationOrder.insertion (fun _ _ => 0)
    97 98 (2 ^ 32) (by decide) (by norm_num)
  have hfield : int32Bytes (toInt32 ((2 ^ 32 + 1 : Nat) : Int)) = [1, 0, 0, 0] := by decide
  rw [hfield] at hc
  exact ⟨hlen, hc, by decide, not_isRawLength_of_le _ (by omega)⟩

/-! ## The layout of the archive with one tree -/

/-- The records of the files follow one another in the order of the list,
each with its six fields. -/
theorem writeGlobalRecords_layout (tree : HuffmanTree)
    (hbin : ∀ text, ∀ c ∈ tree.encode text, c = '0' ∨ c = '1') :
    ∀ (fs : List FileEntry) (out : List Byte),
    (∀ f ∈ fs, (tree.encode f.relativePath).length < 2 ^ 32 ∧
      (tree.encode f.content).length < 2 ^ 32) →
    ∃ records : List (List Byte),
      FolderCompressor.writeGlobalRecords tree fs out = out ++ records.flatten ∧
      List.Forall₂ (IsGlobalRecord tree) fs records
  | [], out, _ => ⟨[], by simp [FolderCompressor.writeGlobalRecords], List.Forall₂.nil⟩
  | f :: fs, out, h => by
    obtain ⟨hp, hc⟩ := h f (List.mem_cons_self _ _)
    obtain ⟨records, hw, hrec⟩ := writeGlobalRecords_layout tree hbin fs
      (out ++ (VarInt.encode ((tree.encode f.relativePath).length % 2 ^ 32) ++
          (VarInt.encode ((tree.encode f.content).length % 2 ^ 32) ++
          (int32Bytes (toInt32 (tree.encode f.relativePath).length) ++
          (packBits (tree.encode f.relativePath) ++
          (int32Bytes (toInt32 (tree.encode f.content).length) ++
          packBits (tree.encode f.content)))))))
      (fun g hg => h g (List.mem_cons_of_mem _ hg))
    refine ⟨(VarInt.encode ((tree.encode f.relativePath).length % 2 ^ 32) ++
          (VarInt.encode ((tree.encode f.content).length % 2 ^ 32) ++
          (int32Bytes (toInt32 (tree.encode f.relativePath).length) ++
          (packBits (tree.encode f.relativePath) ++
          (int32Bytes (toInt32 (tree.encode f.content).length) ++
          packBits (tree.encode f.content)))))) :: records, ?_, List.Forall₂.cons ?_ hrec⟩
    · rw [writeGlobalRecords_cons, hw, List.flatten_cons, List.append_assoc]
    · refine ⟨_, _, _, _, _, _, rfl, ?_, ?_, isRawLength_int32Bytes _ hp,
        isPacked_packBits _ (hbin _), isRawLength_int32Bytes _ hc,
        isPacked_packBits _ (hbin _)⟩
      · rw [Nat.mod_eq_of_lt hp]
        exact isVarInt_encode _ hp
      · rw [Nat.mod_eq_of_lt hc]
        exact isVarInt_encode _ hc

/-- C20 as amended: for every non-empty list of fewer than `2^32` files whose
encoded paths and contents are shorter than `2^32` bits, the archive written
by `compressWithGlobalTree` is exactly the byte `0x47` (`G`), the byte-padded
serialized tree built from the combined frequencies of all relative paths and
all contents (its leaves are the entries of the table that has one entry for
every byte of a path or a content), the VarInt file count, then for each file in list order: VarInt
path bit length, VarInt content bit length, the packed path bits preceded by
their own 4-byte length, and the packed content bits preceded by their own
4-byte length. -/
theorem global_layout (order : IterationOrder) (tie : List (Byte × Int) → Nat → Nat)
    (files : List FileEntry) (hne : files ≠ []) (hcount : files.length < 2 ^ 32)
    (hlen : ∀ f ∈ files,
      ((makeTree tie (FolderCompressor.globalCharFreqs order files)).encode
        f.relativePath).length < 2 ^ 32 ∧
      ((makeTree tie (FolderCompressor.globalCharFreqs order files)).encode
        f.content).length < 2 ^ 32) :
    (leafPairs (makeTree tie (FolderCompressor.globalCharFreqs order files)).root).Perm
      (FolderCompressor.globalCharFreqs order files) ∧
    (∀ ch, ch ∈ (FolderCompressor.globalCharFreqs order files).map (fun p => p.1) ↔
      ∃ f ∈ files, ch ∈ f.relativePath ∨ ch ∈ f.content) ∧
    ∃ (treeField countField : List Byte) (records : List (List Byte)),
      FolderCompressor.compressWithGlobalTree order tie files =
        some (71 :: (treeField ++ (countField ++ records.flatten))) ∧
      IsPaddedTree treeField (makeTree tie (FolderCompressor.globalCharFreqs order files)).root ∧
      IsVarInt countField files.length ∧
      List.Forall₂ (IsGlobalRecord (makeTree tie (FolderCompressor.globalCharFreqs order files)))
        files records := by
  obtain ⟨records, hw, hrec⟩ := writeGlobalRecords_layout
    (makeTree tie (FolderCompressor.globalCharFreqs order files))
    (makeTree_encode_binary tie _) files
    (71 :: (treeBytes (makeTree tie (FolderCompressor.globalCharFreqs order files)).root ++
      VarInt.encode (files.length % 2 ^ 32))) hlen
  refine ⟨leafPairs_makeTree tie _, mem_keys_globalCharFreqs order files,
    _, _, records, ?_, isPaddedTree_treeBytes _, isVarInt_encode _ hcount, hrec⟩
  rw [compressWithGlobalTree_eq order tie files hne, hw, Nat.mod_eq_of_lt hcount,
    List.cons_append, List.append_assoc]

set_option maxRecDepth 100000 in
theorem global_layout_witness :
    sampleFolder ≠ [] ∧ sampleFolder.length < 2 ^ 32 ∧
    (∀ f ∈ sampleFolder,
      ((makeTree (fun _ _ => 0) (FolderCompressor.globalCharFreqs IterationOrder.insertion
        sampleFolder)).encode f.relativePath).length < 2 ^ 32 ∧
      ((makeTree (fun _ _ => 0) (FolderCompressor.globalCharFreqs IterationOrder.insertion
        sampleFolder)).encode f.content).length < 2 ^ 32) ∧
    (leafPairs (makeTree (fun _ _ => 0) (FolderCompressor.globalCharFreqs
      IterationOrder.insertion sampleFolder)).root).Perm
        (FolderCompressor.globalCharFreqs IterationOrder.insertion sampleFolder) ∧
    (∀ ch, ch ∈ (FolderCompressor.globalCharFreqs IterationOrder.insertion
        sampleFolder).map (fun p => p.1) ↔
      ∃ f ∈ sampleFolder, ch ∈ f.relativePath ∨ ch ∈ f.content) ∧
    ∃ (treeField countField : List Byte) (records : List (List Byte)),
      FolderCompressor.compressWithGlobalTree IterationOrder.insertion (fun _ _ => 0)
          sampleFolder =
        some (71 :: (treeField ++ (countField ++ records.flatten))) ∧
      IsPaddedTree treeField (makeTree (fun _ _ => 0)
        (FolderCompressor.globalCharFreqs IterationOrder.insertion sampleFolder)).root ∧
      IsVarInt countField sampleFolder.length ∧
      List.Forall₂ (IsGlobalRecord (makeTree (fun _ _ => 0)
        (FolderCompressor.globalCharFreqs IterationOrder.insertion sampleFolder)))
        sampleFolder records :=
  ⟨by decide, by decide, by decide,
    global_layout IterationOrder.insertion (fun _ _ => 0) sampleFolder
      (by decide) (by decide) (by decide)⟩

/-- The archive of a folder of `2^32` files holds the file count 0. -/
theorem global_count_field_wraps (order : IterationOrder)
    (tie : List (Byte × Int) → Nat → Nat) (files : List FileEntry)
    (hlen : files.length = 2 ^ 32) :
    ∃ written, FolderCompressor.compressWithGlobalTree order tie files =
      some (71 :: (treeBytes (makeTree tie (FolderCompressor.globalCharFreqs order files)).root ++
        ([0] ++ written))) := by
  have hne : files ≠ [] := by intro h0; rw [h0] at hlen; norm_num at hlen
  obtain ⟨written, hw⟩ := writeGlobalRecords_append
    (makeTree tie (FolderCompressor.globalCharFreqs order files)) files
    (71 :: (treeBytes (makeTree tie (FolderCompressor.globalCharFreqs order files)).root ++
      VarInt.encode (files.length % 2 ^ 32)))
  have h0 : VarInt.encode 0 = [0] := by decide
  refine ⟨written, ?_⟩
  rw [compressWithGlobalTree_eq order tie files hne, hw, hlen, Nat.mod_self, h0,
    List.cons_append, List.append_assoc]

/-- The archive of a folder of `2^32` files is not of the layout with the
VarInt of the file count behind the tree. -/
theorem global_count_field_differs (order : IterationOrder)
    (tie : List (Byte × Int) → Nat → Nat) (files : List FileEntry)
    (hlen : files.length = 2 ^ 32) :
    ¬ ∃ treeField countField rest : List Byte,
      FolderCompressor.compressWithGlobalTree order tie files =
        some (71 :: (treeField ++ (countField ++ rest))) ∧
      IsPaddedTree treeField (makeTree tie (FolderCompressor.globalCharFreqs order files)).root ∧
      IsVarInt countField files.length := by
  rintro ⟨treeField, countField, rest, harch, htree, hcount⟩
  obtain ⟨written, hw⟩ := global_count_field_wraps order tie files hlen
  rw [hw] at harch
  have htf := isPaddedTree_unique htree (isPaddedTree_treeBytes _)
  subst htf
  have hbody := List.append_cancel_left (List.cons.inj (Option.some.inj harch)).2
  rw [hlen] at hcount
  obtain ⟨b, more, hb, hge⟩ := isVarInt_head countField (2 ^ 32) (by norm_num) hcount
  rw [hb] at hbody
  have h0 := (List.cons.inj hbody).1
  rw [← h0] at hge
  simp at hge

/-- C20 fails at the folder of the `2^32` files `numberedFile i`: the field
written for the file count behind the tree is the byte 0, the VarInt of the
number 0, so the archive is not the tag, the tree and the VarInt of the file
count followed by more bytes. -/
theorem global_layout_counterexample :
    ((List.range (2 ^ 32)).map numberedFile).length = 2 ^ 32 ∧
    (∃ written, FolderCompressor.compressWithGlobalTree IterationOrder.insertion
        (fun _ _ => 0) ((List.range (2 ^ 32)).map numberedFile) =
      some (71 :: (treeBytes (makeTree (fun _ _ => 0)
        (FolderCompressor.globalCharFreqs IterationOrder.insertion
          ((List.range (2 ^ 32)).map numberedFile))).root ++ ([0] ++ written)))) ∧
    IsVarInt [0] 0 ∧
    ¬ ∃ treeField countField rest : List Byte,
      FolderCompressor.compressWithGlobalTree IterationOrder.insertion (fun _ _ => 0)
          ((List.range (2 ^ 32)).map numberedFile) =
        some (71 :: (treeField ++ (countField ++ rest))) ∧
      IsPaddedTree treeField (makeTree (fun _ _ => 0)
        (FolderCompressor.globalCharFreqs IterationOrder.insertion
          ((List.range (2 ^ 32)).map numberedFile))).root ∧
      IsVarInt countField ((List.range (2 ^ 32)).map numberedFile).length := by
  have hlen : ((List.range (2 ^ 32)).map numberedFile).length = 2 ^ 32 := by
    rw [List.length_map, List.length_range]
  exact ⟨hlen, global_count_field_wraps _ _ _ hlen, by simp [IsVarInt],
    global_count_field_differs _ _ _ hlen⟩

/-! ## The layout of the archive with one tree per file -/

/-- The records of the files follow one another in the order of the list,
each with its tree and its four fields. -/
theorem writeSeparateRecords_layout (order : IterationOrder)
    (tie : List (Byte × Int) → Nat → Nat) : ∀ (fs : List FileEntry) (out : List Byte),
    (∀ f ∈ fs,
      ((makeTree tie (getFrequencies order (f.relativePath ++ f.content))).encode
        f.relativePath).length < 2 ^ 32 ∧
      ((makeTree tie (getFrequencies order (f.relativePath ++ f.content))).encode
        f.content).length < 2 ^ 32) →
    ∃ records : List (List Byte),
      FolderCompressor.writeSeparateRecords order tie fs out = out ++ records.flatten ∧
      List.Forall₂ (fun f record => IsSeparateRecord
        (makeTree tie (getFrequencies order (f.relativePath ++ f.content))) f record) fs records
  | [], out, _ => ⟨[], by simp [FolderCompressor.writeSeparateRecords], List.Forall₂.nil⟩
  | f :: fs, out, h => by
    obtain ⟨hp, hc⟩ := h f (List.mem_cons_self _ _)
    obtain ⟨records, hw, hrec⟩ := writeSeparateRecords_layout order tie fs
      (out ++ (treeBytes (makeTree tie (getFrequencies order
            (f.relativePath ++ f.content))).root ++
          (VarInt.encode (((makeTree tie (getFrequencies order
            (f.relativePath ++ f.content))).encode f.relativePath).length % 2 ^ 32) ++
          (VarInt.encode (((makeTree tie (getFrequencies order
            (f.relativePath ++ f.content))).encode f.content).length % 2 ^ 32) ++
          (packBits ((makeTree tie (getFrequencies order
            (f.relativePath ++ f.content))).encode f.relativePath) ++
          packBits ((makeTree tie (getFrequencies order
            (f.relativePath ++ f.content))).encode f.content))))))
      (fun g hg => h g (List.mem_cons_of_mem _ hg))
    refine ⟨(treeBytes (makeTree tie (getFrequencies order
            (f.relativePath ++ f.content))).root ++
          (VarInt.encode (((makeTree tie (getFrequencies order
            (f.relativePath ++ f.content))).encode f.relativePath).length % 2 ^ 32) ++
          (VarInt.encode (((makeTree tie (getFrequencies order
            (f.relativePath ++ f.content))).encode f.content).length % 2 ^ 32) ++
          (packBits ((makeTree tie (getFrequencies order
            (f.relativePath ++ f.content))).encode f.relativePath) ++
          packBits ((makeTree tie (getFrequencies order
            (f.relativePath ++ f.content))).encode f.content))))) :: records,
      ?_, List.Forall₂.cons ?_ hrec⟩
    · rw [writeSeparateRecords_cons, hw, List.flatten_cons, List.append_assoc]
    · refine ⟨_, _, _, _, _, rfl, isPaddedTree_treeBytes _, ?_, ?_,
        isPacked_packBits _ (makeTree_encode_binary _ _ _),
        isPacked_packBits _ (makeTree_encode_binary _ _ _)⟩
      · rw [Nat.mod_eq_of_lt hp]
        exact isVarInt_encode _ hp
      · rw [Nat.mod_eq_of_lt hc]
        exact isVarInt_encode _ hc

/-- C21 as amended: for every non-empty list of fewer than `2^32` files whose
encoded paths and contents are shorter than `2^32` bits, the archive written
by `compressWithSeparateTrees` is exactly the byte `0x53` (`S`), the VarInt
file count, then for each file in list order: the byte-padded serialized tree
built from that file's path-plus-content frequencies only (its leaves are
the entries of that table), VarInt path bit length, VarInt content bit
length, `ceil(pathBits / 8)` bytes of packed path bits and
`ceil(contentBits / 8)` bytes of packed content bits, with no 4-byte length
header. -/
theorem separate_layout (order : IterationOrder) (tie : List (Byte × Int) → Nat → Nat)
    (files : List FileEntry) (hne : files ≠ []) (hcount : files.length < 2 ^ 32)
    (hlen : ∀ f ∈ files,
      ((makeTree tie (getFrequencies order (f.relativePath ++ f.content))).encode
        f.relativePath).length < 2 ^ 32 ∧
      ((makeTree tie (getFrequencies order (f.relativePath ++ f.content))).encode
        f.content).length < 2 ^ 32) :
    (∀ f ∈ files,
      (leafPairs (makeTree tie (getFrequencies order (f.relativePath ++ f.content))).root).Perm
        (getFrequencies order (f.relativePath ++ f.content))) ∧
    ∃ (countField : List Byte) (records : List (List Byte)),
      FolderCompressor.compressWithSeparateTrees order tie files =
        some (83 :: (countField ++ records.flatten)) ∧
      IsVarInt countField files.length ∧
      List.Forall₂ (fun f record => IsSeparateRecord
        (makeTree tie (getFrequencies order (f.relativePath ++ f.content))) f record)
        files records := by
  obtain ⟨records, hw, hrec⟩ := writeSeparateRecords_layout order tie files
    (83 :: VarInt.encode (files.length % 2 ^ 32)) hlen
  refine ⟨fun f _ => leafPairs_makeTree tie _, _, records, ?_, isVarInt_encode _ hcount, hrec⟩
  rw [compressWithSeparateTrees_eq order tie files hne, hw, Nat.mod_eq_of_lt hcount,
    List.cons_append]

set_option maxRecDepth 100000 in
theorem separate_layout_witness :
    sampleFolder ≠ [] ∧ sampleFolder.length < 2 ^ 32 ∧
    (∀ f ∈ sampleFolder,
      ((makeTree (fun _ _ => 0) (getFrequencies IterationOrder.insertion
        (f.relativePath ++ f.content))).encode f.relativePath).length < 2 ^ 32 ∧
      ((makeTree (fun _ _ => 0) (getFrequencies IterationOrder.insertion
        (f.relativePath ++ f.content))).encode f.content).length < 2 ^ 32) ∧
    (∀ f ∈ sampleFolder,
      (leafPairs (makeTree (fun _ _ => 0) (getFrequencies IterationOrder.insertion
        (f.relativePath ++ f.content))).root).Perm
        (getFrequencies IterationOrder.insertion (f.relativePath ++ f.content))) ∧
    ∃ (countField : List Byte) (records : List (List Byte)),
      FolderCompressor.compressWithSeparateTrees IterationOrder.insertion (fun _ _ => 0)
          sampleFolder =
        some (83 :: (countField ++ records.flatten)) ∧
      IsVarInt countField sampleFolder.length ∧
      List.Forall₂ (fun f record => IsSeparateRecord
        (makeTree (fun _ _ => 0) (getFrequencies IterationOrder.insertion
          (f.relativePath ++ f.content))) f record)
        sampleFolder records :=
  ⟨by decide, by decide, by decide,
    separate_layout IterationOrder.insertion (fun _ _ => 0) sampleFolder
      (by decide) (by decide) (by decide)⟩

/-- The archive with separate trees of a folder of `2^32` files holds the file
count 0. -/
theorem separate_count_field_wraps (order : IterationOrder)
    (tie : List (Byte × Int) → Nat → Nat) (files : List FileEntry)
    (hlen : files.length = 2 ^ 32) :
    ∃ written, FolderCompressor.compressWithSeparateTrees order tie files =
      some (83 :: ([0] ++ written)) := by
  have hne : files ≠ [] := by intro h0; rw [h0] at hlen; norm_num at hlen
  obtain ⟨written, hw⟩ := writeSeparateRecords_append order tie files
    (83 :: VarInt.encode (files.length % 2 ^ 32))
  have h0 : VarInt.encode 0 = [0] := by decide
  refine ⟨written, ?_⟩
  rw [compressWithSeparateTrees_eq order tie files hne, hw, hlen, Nat.mod_self, h0,
    List.cons_append]

/-- The archive with separate trees of a folder of `2^32` files is not of the
layout with the VarInt of the file count behind the tag. -/
theorem separate_count_field_differs (order : IterationOrder)
    (tie : List (Byte × Int) → Nat → Nat) (files : List FileEntry)
    (hlen : files.length = 2 ^ 32) :
    ¬ ∃ countField rest : List Byte,
      FolderCompressor.compressWithSeparateTrees order tie files =
        some (83 :: (countField ++ rest)) ∧
      IsVarInt countField files.length := by
  rintro ⟨countField, rest, harch, hcount⟩
  obtain ⟨written, hw⟩ := separate_count_field_wraps order tie files hlen
  rw [hw] at harch
  have hbody := (List.cons.inj (Option.some.inj harch)).2
  rw [hlen] at hcount
  obtain ⟨b, more, hb, hge⟩ := isVarInt_head countField (2 ^ 32) (by norm_num) hcount
  rw [hb] at hbody
  have h0 := (List.cons.inj hbody).1
  rw [← h0] at hge
  simp at hge

/-- C21 fails at the folder of the `2^32` files `numberedFile i`: the field
written for the file count behind the tag is the byte 0, the VarInt of the
number 0, so the archive is not the tag and the VarInt of the file count
followed by more bytes. -/
theorem separate_layout_counterexample :
    ((List.range (2 ^ 32)).map numberedFile).length = 2 ^ 32 ∧
    (∃ written, FolderCompressor.compressWithSeparateTrees IterationOrder.insertion
        (fun _ _ => 0) ((List.range (2 ^ 32)).map numberedFile) =
      some (83 :: ([0] ++ written))) ∧
    IsVarInt [0] 0 ∧
    ¬ ∃ countField rest : List Byte,
      FolderCompressor.compressWithSeparateTrees IterationOrder.insertion (fun _ _ => 0)
          ((List.range (2 ^ 32)).map numberedFile) =
        some (83 :: (countField ++ rest)) ∧
      IsVarInt countField ((List.range (2 ^ 32)).map numberedFile).length := by
  have hlen : ((List.range (2 ^ 32)).map numberedFile).length = 2 ^ 32 := by
    rw [List.length_map, List.length_range]
  exact ⟨hlen, separate_count_field_wraps _ _ _ hlen, by simp [IsVarInt],
    separate_count_field_differs _ _ _ hlen⟩

/-! ## The tree of a single byte value -/

theorem encode_replicate_single (root : HuffmanNode) (b : Byte) (code : BitString) :
    ∀ (n : Nat), (HuffmanTree.mk root [(b, code)]).encode (List.replicate n b) =
      (List.replicate n code).flatten
  | 0 => rfl
  | n + 1 => by
    have ih := encode_replicate_single root b code n
    simp only [List.replicate_succ, HuffmanTree.encode, CodeTable.find, List.lookup_cons,
      beq_self_eq_true, List.flatten_cons]
    rw [ih]

/-- C22: the degenerate tree. For every frequency table with exactly one byte
value `b`, `buildFromFrequencies` yields a single leaf root holding `b`,
`generateCodeTable` yields the table that maps `b` to the one-bit code `0`
and holds nothing else, and `encode` of `n` copies of `b` is the bit sequence
of `n` zeros. -/
theorem degenerate_tree (tie : Nat → Nat) (b : Byte) (f : Int) (n : Nat) :
    (HuffmanTree.new.buildFromFrequencies tie [(b, f)]).root = .node b f .null .null ∧
    ((HuffmanTree.new.buildFromFrequencies tie [(b, f)]).generateCodeTable).codeTable =
      [(b, ['0'])] ∧
    ((HuffmanTree.new.buildFromFrequencies tie [(b, f)]).generateCodeTable).encode
      (List.replicate n b) = List.replicate n '0' := by
  have hroot : (HuffmanTree.new.buildFromFrequencies tie [(b, f)]).root =
      .node b f .null .null := buildFromFrequencies_singleton tie b f
  have htable : ((HuffmanTree.new.buildFromFrequencies tie [(b, f)]).generateCodeTable) =
      HuffmanTree.mk (.node b f .null .null) [(b, ['0'])] := by
    simp [HuffmanTree.generateCodeTable, hroot, generateCodesRecursive, CodeTable.set]
  refine ⟨hroot, by rw [htable], ?_⟩
  rw [htable, encode_replicate_single]
  induction n with
  | zero => rfl
  | succ n ih => simp [List.replicate_succ, ih]

/-! ## The bit writer -/

theorem writeBitList_bits : ∀ (bits : List Bool) (w : BitWriter), w.bitCount < 8 →
    (w.writeBitList bits).bits = w.bits ++ bits ∧ (w.writeBitList bits).bitCount < 8
  | [], w, hw => by simp [BitWriter.writeBitList, hw]
  | b :: rest, w, hw => by
    have h1 := writeBit_bits w (if b then 1 else 0) hw
    have h2 := writeBitList_bits rest _ h1.2
    have hb : decide ((if b then 1 else 0 : Nat) &&& 1 = 1) = b := by cases b <;> rfl
    rw [hb] at h1
    simp only [BitWriter.writeBitList, List.foldl_cons] at h2 ⊢
    refine ⟨?_, h2.2⟩
    rw [h2.1, h1.1, List.append_assoc, List.singleton_append]

/-- What a fresh writer has put out after the bits and a `flush`. -/
theorem writeBitList_flush (bits : List Bool) :
    ((BitWriter.new []).writeBitList bits).flush.out.length = (bits.length + 7) / 8 ∧
    bytesBits ((BitWriter.new []).writeBitList bits).flush.out =
      bits ++ List.replicate
        (8 * ((BitWriter.new []).writeBitList bits).flush.out.length - bits.length) false := by
  have hw := writeBitList_bits bits (BitWriter.new []) (by simp [BitWriter.new])
  have hf := flush_out_bits _ hw.2
  have h0 : (BitWriter.new []).bits = [] := by
    simp [BitWriter.new, BitWriter.bits, BitWriter.pending, bytesBits, byteBits_length]
  rw [hw.1, h0, List.nil_append] at hf
  have hlen := congrArg List.length hf
  rw [bytesBits_length, List.length_append, List.length_replicate] at hlen
  have hpad : (8 - ((BitWriter.new []).writeBitList bits).bitCount) % 8 < 8 :=
    Nat.mod_lt _ (by norm_num)
  refine ⟨by omega, ?_⟩
  rw [hf]
  congr 2
  omega

theorem writeByte_aligned (out : List Byte) (buffer v : Byte) :
    ((BitWriter.mk out buffer 0).writeByte v).out = out ++ [v] ∧
    ((BitWriter.mk out buffer 0).writeByte v).bitCount = 0 := by
  have hpre := prepend_writeByteLoop out v 8 ⟨[], buffer, 0⟩
  simp only [List.append_nil] at hpre
  have hb := writeByte_bits ⟨[], buffer, 0⟩ v (by simp)
  unfold BitWriter.writeByte at hb ⊢
  rw [hpre]
  generalize BitWriter.writeByteLoop v 8 ⟨[], buffer, 0⟩ = w' at hb
  obtain ⟨hbits, hbc⟩ := hb
  have h0 : (BitWriter.mk [] buffer 0).bits = [] := by
    simp [BitWriter.bits, BitWriter.pending, bytesBits, byteBits_length]
  rw [h0, List.nil_append] at hbits
  have hlen := congrArg List.length hbits
  simp only [BitWriter.bits, BitWriter.pending, List.length_append, bytesBits_length,
    List.length_drop, byteBits_length] at hlen
  have hc : w'.bitCount = 0 := by omega
  have hl : w'.out.length = 1 := by omega
  obtain ⟨x, hx⟩ := List.length_eq_one.mp hl
  simp only [BitWriter.bits, BitWriter.pending, hc, hx, bytesBits, List.flatMap_cons,
    List.flatMap_nil, List.append_nil, Nat.sub_zero] at hbits
  rw [List.drop_eq_nil_of_le (by rw [byteBits_length]), List.append_nil] at hbits
  have hxv := byteBits_injective hbits
  simp [hx, hxv, hc]

/-- C23: the packing of the bit writer. For every bit sequence written with
`writeBit` on a fresh writer and followed by `flush`, the output is exactly
`ceil(n / 8)` bytes whose bits, read from the most significant bit on, are
the sequence followed by zero bits only; a `flush` with no pending bits emits
nothing; `writeByte(v)` on a byte-aligned writer emits exactly the byte `v`
and leaves the writer byte-aligned. -/
theorem bitWriter_packing (bits : List Bool) (out : List Byte) (buffer v : Byte) :
    ((BitWriter.new []).writeBitList bits).flush.out.length = (bits.length + 7) / 8 ∧
    bytesBits ((BitWriter.new []).writeBitList bits).flush.out =
      bits ++ List.replicate
        (8 * ((BitWriter.new []).writeBitList bits).flush.out.length - bits.length) false ∧
    (BitWriter.mk out buffer 0).flush.out = out ∧
    ((BitWriter.mk out buffer 0).writeByte v).out = out ++ [v] ∧
    ((BitWriter.mk out buffer 0).writeByte v).bitCount = 0 := by
  refine ⟨(writeBitList_flush bits).1, (writeBitList_flush bits).2, ?_, ?_, ?_⟩
  · simp [BitWriter.flush]
  · exact (writeByte_aligned out buffer v).1
  · exact (writeByte_aligned out buffer v).2

/-! ## The bit reader -/

theorem readBitList_end : ∀ (k : Nat) (r : BitReader), r.stream = [] →
    r.readBitList k = (List.replicate k (-1), r)
  | 0, r, _ => rfl
  | k + 1, r, h => by
    simp only [BitReader.readBitList, readBit_stream_nil r h, readBitList_end k r h,
      List.replicate_succ]

/-- The calls of `readBit` return the bits of the stream in order and then
the value -1, as often as they are made. -/
theorem readBitList_stream : ∀ (s : List Bool) (k : Nat) (r : BitReader), r.bitCount ≤ 8 →
    r.stream = s → (r.readBitList (s.length + k)).1 = s.map bitValue ++ List.replicate k (-1)
  | [], k, r, _, hs => by
    rw [List.length_nil, Nat.zero_add, readBitList_end k r hs]
    rfl
  | b :: s, k, r, hr, hs => by
    have hb := readBit_stream r hr b s hs
    have ih := readBitList_stream s k r.readBit.2 (by omega) hb.2.1
    have hlen : (b :: s).length + k = (s.length + k) + 1 := by
      simp only [List.length_cons]; omega
    rw [hlen]
    simp only [BitReader.readBitList, ih, hb.1, List.map_cons, List.cons_append, bitValue]

/-- The first calls of `readBit` return the first bits of the stream. -/
theorem readBitList_take : ∀ (s t : List Bool) (r : BitReader), r.bitCount ≤ 8 →
    r.stream = s ++ t → (r.readBitList s.length).1 = s.map bitValue
  | [], t, r, _, _ => rfl
  | b :: s, t, r, hr, hs => by
    have hb := readBit_stream r hr b (s ++ t) hs
    have ih := readBitList_take s t r.readBit.2 (by omega) hb.2.1
    simp only [List.length_cons, BitReader.readBitList, ih, hb.1, List.map_cons, bitValue]

theorem stream_new (bytes : List Byte) : (BitReader.new bytes).stream = bytesBits bytes := by
  simp [BitReader.new, BitReader.stream]

/-- C24: order and exhaustion of the bit reader. For every byte sequence of
length `m`, the first `8m` calls of `readBit` return the bits of the bytes in
order, most significant bit first, and every later call returns -1; reading
back the output of the bit writer for a bit sequence returns that sequence
first. -/
theorem bitReader_order (bytes : List Byte) (k : Nat) (bits : List Bool) :
    ((BitReader.new bytes).readBitList (8 * bytes.length + k)).1 =
      (bytesBits bytes).map bitValue ++ List.replicate k (-1) ∧
    ((BitReader.new ((BitWriter.new []).writeBitList bits).flush.out).readBitList
      bits.length).1 = bits.map bitValue := by
  constructor
  · have := readBitList_stream (bytesBits bytes) k (BitReader.new bytes)
      (by simp [BitReader.new]) (stream_new bytes)
    rw [bytesBits_length] at this
    exact this
  · exact readBitList_take bits _ _ (by simp [BitReader.new])
      (by rw [stream_new]; exact (writeBitList_flush bits).2)

/-! ## Reading a byte -/

theorem readBit_ne_of_stream (r : BitReader) (hr : r.bitCount ≤ 8) (b : Bool) (s : List Bool)
    (hs : r.stream = b :: s) : r.readBit.1 ≠ -1 := by
  rw [(readBit_stream r hr b s hs).1]
  cases b <;> decide

/-- When fewer bits are left than the loop of `readByte` still needs, it
returns -1. -/
theorem readByteLoop_short : ∀ (n : Nat) (acc : Byte) (r : BitReader), r.bitCount ≤ 8 →
    r.stream.length < n → (BitReader.readByteLoop n acc r).1 = -1
  | 0, _, _, _, h => by simp at h
  | n + 1, acc, r, hr, h => by
    unfold BitReader.readByteLoop
    cases hs : r.stream with
    | nil =>
      rw [readBit_stream_nil r hs]
      simp
    | cons b s =>
      have hb := readBit_stream r hr b s hs
      have hne := readBit_ne_of_stream r hr b s hs
      simp only [hne, if_false]
      apply readByteLoop_short n _ _ (by omega)
      rw [hb.2.1]
      rw [hs, List.length_cons] at h
      omega

set_option maxRecDepth 100000 in
theorem byteBits_bitsByte : ∀ (b0 b1 b2 b3 b4 b5 b6 b7 : Bool),
    byteBits (bitsByte [b0, b1, b2, b3, b4, b5, b6, b7]) = [b0, b1, b2, b3, b4, b5, b6, b7] := by
  decide

theorem byteBits_bitsByte_take (s : List Bool) (h : 8 ≤ s.length) :
    byteBits (bitsByte (s.take 8)) ++ s.drop 8 = s := by
  match s, h with
  | b0 :: b1 :: b2 :: b3 :: b4 :: b5 :: b6 :: b7 :: rest, _ =>
    simp only [List.take_succ_cons, List.take_zero, List.drop_succ_cons, List.drop_zero]
    rw [byteBits_bitsByte]
    rfl

/-- The states of a reader: `bitCount` starts at 0 and `readBit` keeps it
between 0 and 8. -/
theorem readBit_bitCount_le (r : BitReader) (hr : r.bitCount ≤ 8) :
    (BitReader.new r.input).bitCount ≤ 8 ∧ r.readBit.2.bitCount ≤ 8 := by
  refine ⟨by simp [BitReader.new], ?_⟩
  unfold BitReader.readBit
  split
  · split
    · exact hr
    · simp [BitReader.takeBit]
  · simp only [BitReader.takeBit]
    omega

/-- C25: `readByte` never returns a partial byte. For every state of a reader
(its `bitCount` is between 0 and 8), `readByte` returns -1 when fewer than 8
bits remain in the stream, and otherwise returns the value in 0..255 formed
by the next 8 bits, most significant first, and goes on behind them; so the
value for a failure is not the value of a byte. -/
theorem readByte_whole_or_fail (r : BitReader) (hr : r.bitCount ≤ 8) :
    (r.stream.length < 8 → r.readByte.1 = -1) ∧
    (8 ≤ r.stream.length →
      r.readByte.1 = ((bitsByte (r.stream.take 8)).val : Int) ∧
      r.readByte.2.stream = r.stream.drop 8 ∧
      0 ≤ r.readByte.1 ∧ r.readByte.1 ≤ 255 ∧ r.readByte.1 ≠ -1) := by
  constructor
  · intro h
    exact readByteLoop_short 8 0 r hr h
  · intro h
    obtain ⟨r', hread, hst, _⟩ := readByte_stream r hr (bitsByte (r.stream.take 8))
      (r.stream.drop 8) (byteBits_bitsByte_take r.stream h).symm
    have hlt := (bitsByte (r.stream.take 8)).isLt
    rw [hread]
    refine ⟨rfl, hst, ?_, ?_, ?_⟩ <;> simp only <;> omega

theorem readByte_whole_or_fail_witness :
    (BitReader.new [65, 128]).bitCount ≤ 8 ∧ 8 ≤ (BitReader.new [65, 128]).stream.length ∧
    ((BitReader.new [65, 128]).readByte.1 =
        ((bitsByte ((BitReader.new [65, 128]).stream.take 8)).val : Int) ∧
      (BitReader.new [65, 128]).readByte.2.stream = (BitReader.new [65, 128]).stream.drop 8 ∧
      0 ≤ (BitReader.new [65, 128]).readByte.1 ∧ (BitReader.new [65, 128]).readByte.1 ≤ 255 ∧
      (BitReader.new [65, 128]).readByte.1 ≠ -1) ∧
    (BitReader.mk [] 160 3).bitCount ≤ 8 ∧ (BitReader.mk [] 160 3).stream.length < 8 ∧
    (BitReader.mk [] 160 3).readByte.1 = -1 :=
  ⟨by decide, by decide,
    (readByte_whole_or_fail (BitReader.new [65, 128]) (by decide)).2 (by decide),
    by decide, by decide,
    (readByte_whole_or_fail (BitReader.mk [] 160 3) (by decide)).1 (by decide)⟩

/-! ## The entries of the code table -/

theorem nodup_keys_set (table : CodeTable) (ch : Byte) (code : BitString)
    (h : (table.map (fun e => e.1)).Nodup) :
    ((table.set ch code).map (fun e => e.1)).Nodup := by
  unfold CodeTable.set
  rw [List.map_cons, List.nodup_cons]
  constructor
  · intro hmem
    obtain ⟨e, he, hch⟩ := List.mem_map.mp hmem
    have hne := (List.mem_filter.mp he).2
    simp only [ne_eq, decide_not, Bool.not_eq_true', decide_eq_false_iff_not] at hne
    exact hne hch
  · exact h.sublist ((List.filter_sublist _).map _)

/-- The table never holds two entries for one byte. -/
theorem nodup_keys_generateCodesRecursive : ∀ (t : HuffmanNode) (code : BitString)
    (table : CodeTable), (table.map (fun e => e.1)).Nodup →
    ((generateCodesRecursive t code table).map (fun e => e.1)).Nodup
  | .null, code, table, h => by simpa [generateCodesRecursive] using h
  | .node ch f .null .null, code, table, h => by
    simp only [generateCodesRecursive]
    exact nodup_keys_set table ch _ h
  | .node ch f (.node c1 f1 l1 r1) r, code, table, h => by
    simp only [generateCodesRecursive]
    exact nodup_keys_generateCodesRecursive r _ _
      (nodup_keys_generateCodesRecursive (.node c1 f1 l1 r1) _ _ h)
  | .node ch f .null (.node c1 f1 l1 r1), code, table, h => by
    simp only [generateCodesRecursive]
    exact nodup_keys_generateCodesRecursive (.node c1 f1 l1 r1) _ _ h

theorem lookup_of_mem_nodup {ch : Byte} {code : BitString} : ∀ {table : CodeTable},
    (table.map (fun e => e.1)).Nodup → (ch, code) ∈ table → List.lookup ch table = some code
  | [], _, h => by simp at h
  | (c, p) :: rest, hnd, h => by
    simp only [List.map_cons, List.nodup_cons] at hnd
    rw [List.lookup_cons]
    rcases List.mem_cons.mp h with h | h
    · obtain ⟨h1, h2⟩ := Prod.mk.inj h
      subst h1; subst h2
      simp
    · have hne : (ch == c) = false := by
        apply beq_false_of_ne
        intro hcc
        apply hnd.1
        rw [← hcc]
        exact List.mem_map.mpr ⟨(ch, code), h, rfl⟩
      rw [hne]
      exact lookup_of_mem_nodup hnd.2 h

/-- C26: the contents of the code table. For every frequency table with
distinct byte values, at least two of them, the code table that
`generateCodeTable` derives from the built tree has exactly one entry per
byte value of the table and no others, every code is non-empty and made of
`0` and `1` only, and the entry of a byte is the path from the root to the
leaf of that byte, with `0` for a left edge and `1` for a right edge. -/
theorem codeTable_contents (tie : Nat → Nat) (charFreqs : List (Byte × Int))
    (hkeys : (charFreqs.map (fun p => p.1)).Nodup) (h2 : 2 ≤ charFreqs.length) :
    (((HuffmanTree.new.buildFromFrequencies tie charFreqs).generateCodeTable).codeTable.map
      (fun e => e.1)).Perm (charFreqs.map (fun p => p.1)) ∧
    ∀ e ∈ ((HuffmanTree.new.buildFromFrequencies tie charFreqs).generateCodeTable).codeTable,
      e.2 ≠ [] ∧ (∀ c ∈ e.2, c = '0' ∨ c = '1') ∧
      e ∈ paths ((HuffmanTree.new.buildFromFrequencies tie charFreqs).generateCodeTable).root := by
  have hne : charFreqs ≠ [] := by intro h0; rw [h0] at h2; simp at h2
  have hfull := (buildFromFrequencies_full tie charFreqs hne).1
  have hinner := buildFromFrequencies_inner tie charFreqs h2
  have hleaf := leafChars_buildFromFrequencies tie charFreqs hne
  have htable : ((HuffmanTree.new.buildFromFrequencies tie charFreqs).generateCodeTable) =
      HuffmanTree.mk (buildFromFrequencies tie charFreqs)
        (generateCodesRecursive (buildFromFrequencies tie charFreqs) [] []) := rfl
  rw [htable]
  simp only
  have hnd := nodup_keys_generateCodesRecursive (buildFromFrequencies tie charFreqs) [] []
    (by simp)
  have hentry : ∀ e ∈ generateCodesRecursive (buildFromFrequencies tie charFreqs) [] [],
      e.1 ∈ leafChars (buildFromFrequencies tie charFreqs) ∧
      e ∈ paths (buildFromFrequencies tie charFreqs) ∧ e.2 ≠ [] := by
    intro e he
    have hlook : (generateCodesRecursive (buildFromFrequencies tie charFreqs) [] []).find e.1 =
        some e.2 := lookup_of_mem_nodup hnd he
    have hmem := find_some_mem_leafChars hfull hlook
    obtain ⟨p, hp, hpne, hfind⟩ := find_generateCodeTable hfull hinner hmem
    rw [hlook] at hfind
    have hpe : e.2 = p := Option.some.inj hfind
    have he' : e = (e.1, p) := by rw [← hpe]
    rw [hpe]
    exact ⟨hmem, by rw [he']; exact hp, hpne⟩
  constructor
  · rw [List.perm_ext_iff_of_nodup hnd hkeys]
    intro c
    constructor
    · intro hc
      obtain ⟨e, he, hec⟩ := List.mem_map.mp hc
      rw [← hec]
      exact (hleaf e.1).mp (hentry e he).1
    · intro hc
      obtain ⟨p, _, _, hfind⟩ := find_generateCodeTable hfull hinner ((hleaf c).mpr hc)
      exact List.mem_map.mpr ⟨(c, p), mem_of_lookup_eq_some hfind, rfl⟩
  · intro e he
    obtain ⟨_, hp, hpne⟩ := hentry e he
    obtain ⟨b, code⟩ := e
    exact ⟨hpne, fun c hc => paths_binary hfull hp c hc, hp⟩

set_option maxRecDepth 100000 in
theorem codeTable_contents_witness :
    (((HuffmanTree.new.buildFromFrequencies (fun _ => 0)
      [(97, 4), (98, 3), (99, 2), (100, 1)]).generateCodeTable).codeTable.map
      (fun e => e.1)).Perm ([(97, 4), (98, 3), (99, 2), (100, 1)].map (fun p => p.1)) ∧
    ∀ e ∈ ((HuffmanTree.new.buildFromFrequencies (fun _ => 0)
        [(97, 4), (98, 3), (99, 2), (100, 1)]).generateCodeTable).codeTable,
      e.2 ≠ [] ∧ (∀ c ∈ e.2, c = '0' ∨ c = '1') ∧
      e ∈ paths ((HuffmanTree.new.buildFromFrequencies (fun _ => 0)
        [(97, 4), (98, 3), (99, 2), (100, 1)]).generateCodeTable).root :=
  codeTable_contents (fun _ => 0) [(97, 4), (98, 3), (99, 2), (100, 1)] (by decide) (by decide)

/-! ## The bytes of a VarInt -/

/-- Every byte of the encoding holds one group of seven bits of the value, and
the value 128 on top when another byte follows. -/
theorem encodeLoop_entry : ∀ (fuel v : Nat), v ≤ fuel → ∀ (k : Nat) (x : Byte),
    (VarInt.encodeLoop fuel v)[k]? = some x →
    x.val = (v / 128 ^ k) % 128 +
      (if k + 1 < (VarInt.encodeLoop fuel v).length then 128 else 0)
  | 0, v, hv, k, x, h => by
    have hv0 : v = 0 := by omega
    subst hv0
    cases k with
    | zero =>
      simp only [VarInt.encodeLoop, List.getElem?_cons_zero, Option.some.injEq] at h
      rw [← h]
      decide
    | succ j => simp [VarInt.encodeLoop] at h
  | fuel + 1, v, hv, k, x, h => by
    unfold VarInt.encodeLoop at h ⊢
    by_cases hge : v ≥ 0x80
    · rw [if_pos hge] at h ⊢
      have hpos : 0 < (VarInt.encodeLoop fuel (v >>> 7)).length :=
        List.length_pos.mpr (encodeLoop_ne_nil fuel _)
      cases k with
      | zero =>
        simp only [List.getElem?_cons_zero, Option.some.injEq] at h
        rw [← h]
        have h1 : v % 128 < 128 := Nat.mod_lt _ (by norm_num)
        simp only [VarInt.and_7F, VarInt.or_80 _ h1, Fin.ofNat, List.length_cons, pow_zero,
          Nat.div_one]
        rw [if_pos (by omega)]
        omega
      | succ j =>
        simp only [List.getElem?_cons_succ] at h
        have hshift : v >>> 7 = v / 128 := by rw [Nat.shiftRight_eq_div_pow]
        have ih := encodeLoop_entry fuel (v >>> 7) (by rw [hshift]; omega) j x h
        rw [ih, hshift, Nat.div_div_eq_div_mul, pow_succ, Nat.mul_comm 128]
        simp only [List.length_cons, Nat.add_lt_add_iff_right]
    · rw [if_neg hge] at h ⊢
      cases k with
      | zero =>
        simp only [List.getElem?_cons_zero, Option.some.injEq] at h
        rw [← h]
        simp only [VarInt.and_7F, Fin.ofNat, List.length_cons, List.length_nil, pow_zero,
          Nat.div_one]
        rw [if_neg (by omega)]
        omega
      | succ j => simp at h

theorem encodeLoop_length_le : ∀ (fuel v n : Nat), v < 128 ^ (n + 1) →
    (VarInt.encodeLoop fuel v).length ≤ n + 1
  | 0, v, n, _ => by simp [VarInt.encodeLoop]
  | fuel + 1, v, n, h => by
    unfold VarInt.encodeLoop
    by_cases hge : v ≥ 0x80
    · rw [if_pos hge]
      cases n with
      | zero => simp at h; omega
      | succ m =>
        have hshift : v >>> 7 = v / 128 := by rw [Nat.shiftRight_eq_div_pow]
        have hlt : v >>> 7 < 128 ^ (m + 1) := by
          rw [hshift, Nat.div_lt_iff_lt_mul (by norm_num)]
          rw [pow_succ] at h
          exact h
        have := encodeLoop_length_le fuel (v >>> 7) m hlt
        simp only [List.length_cons]
        omega
    · rw [if_neg hge]
      simp

/-- C27: the byte format of a VarInt. For every 32-bit unsigned value `v`,
`encode(v)` has between 1 and 5 bytes, every byte but the last has its top
bit set and the last has it clear, and the low 7 bits of the `k`-th byte are
the bits `7k` to `7k + 6` of `v`, the least significant group first. -/
theorem varint_byte_format (v : Nat) (hv : v < 2 ^ 32) :
    1 ≤ (VarInt.encode v).length ∧ (VarInt.encode v).length ≤ 5 ∧
    ∀ (k : Nat) (hk : k < (VarInt.encode v).length),
      ((VarInt.encode v)[k]).val &&& 0x7F = (v >>> (7 * k)) &&& 0x7F ∧
      (((VarInt.encode v)[k]).val &&& 0x80 ≠ 0 ↔ k + 1 < (VarInt.encode v).length) := by
  refine ⟨List.length_pos.mpr (encodeLoop_ne_nil v v),
    encodeLoop_length_le v v 4 (by norm_num at hv ⊢; omega), ?_⟩
  intro k hk
  have hx := encodeLoop_entry v v le_rfl k ((VarInt.encode v)[k])
    (by unfold VarInt.encode at hk ⊢; exact List.getElem?_eq_getElem hk)
  have ha : (v / 128 ^ k) % 128 < 128 := Nat.mod_lt _ (by norm_num)
  have hpow : (2 : Nat) ^ (7 * k) = 128 ^ k := by rw [pow_mul]; norm_num
  rw [VarInt.and_7F, VarInt.and_7F, Nat.shiftRight_eq_div_pow, hpow]
  change _ = _ + (if k + 1 < (VarInt.encode v).length then 128 else 0) at hx
  by_cases hlast : k + 1 < (VarInt.encode v).length
  · rw [if_pos hlast] at hx
    rw [hx]
    refine ⟨by omega, ?_⟩
    simp only [hlast, iff_true]
    exact VarInt.and_80_ne_zero _ ha
  · rw [if_neg hlast, Nat.add_zero] at hx
    rw [hx]
    refine ⟨by omega, ?_⟩
    simp only [hlast, iff_false, not_not]
    exact VarInt.and_80_eq_zero _ ha

theorem varint_byte_format_witness :
    1 ≤ (VarInt.encode 300).length ∧ (VarInt.encode 300).length ≤ 5 ∧
    ∀ (k : Nat) (hk : k < (VarInt.encode 300).length),
      ((VarInt.encode 300)[k]).val &&& 0x7F = (300 >>> (7 * k)) &&& 0x7F ∧
      (((VarInt.encode 300)[k]).val &&& 0x80 ≠ 0 ↔ k + 1 < (VarInt.encode 300).length) :=
  varint_byte_format 300 (by norm_num)

/-! ## Packed bits, written and read back -/

/-- C28 as amended: for every sequence `bits` of `0` and `1` characters of
length `n` up to `2^31 - 8` (the empty sequence included) and every following
byte sequence `rest`, `FileCompressor::readBits` without a count on the bytes
written by `FileCompressor::writeBits(bits)` followed by `rest` returns
`bits`, and `readBits` with the explicit count `n` on the `ceil(n / 8)` packed
payload bytes followed by `rest` returns `bits`; in both cases the zero
padding of the last byte is not part of the result and `rest` is left
unread. -/
theorem packed_bits_roundtrip (bits : BitString) (rest : List Byte)
    (hbin : ∀ c ∈ bits, c = '0' ∨ c = '1') (hlen : bits.length ≤ 2 ^ 31 - 8) :
    FileCompressor.readBits (FileCompressor.writeBits bits [] ++ rest) (-1) = (bits, rest) ∧
    (packBits bits).length = (bits.length + 7) / 8 ∧
    FileCompressor.readBits (packBits bits ++ rest) (bits.length : Int) = (bits, rest) := by
  refine ⟨?_, (isPacked_packBits bits hbin).1, ?_⟩
  · obtain ⟨written, hw, hread⟩ := readBits_writeBits bits [] rest hbin hlen
    rw [List.nil_append] at hw
    rw [hw]
    exact hread
  · unfold FileCompressor.readBits
    have hneg : ¬ ((bits.length : Int) < 0) := by omega
    simp only [hneg, if_false]
    exact readBitsBody_packBits bits rest hbin hlen

theorem packed_bits_roundtrip_witness :
    FileCompressor.readBits (FileCompressor.writeBits ['1', '0', '1'] [] ++ [7]) (-1) =
      (['1', '0', '1'], [7]) ∧
    (packBits ['1', '0', '1']).length = (['1', '0', '1'].length + 7) / 8 ∧
    FileCompressor.readBits (packBits ['1', '0', '1'] ++ [7])
      ((['1', '0', '1'] : BitString).length : Int) = (['1', '0', '1'], [7]) :=
  packed_bits_roundtrip ['1', '0', '1'] [7] (by decide) (by decide)

/-- A bit string of `2^31 - 7` to `2^31 - 1` equal characters is read back as
the empty string, with its count read from the stream or handed over. -/
theorem readBits_long_replicate (n : Nat) (c : Char) (rest : List Byte)
    (h1 : 2 ^ 31 - 7 ≤ n) (h2 : n < 2 ^ 31) :
    (FileCompressor.readBits
      (FileCompressor.writeBits (List.replicate n c) [] ++ rest) (-1)).1 = [] ∧
    (FileCompressor.readBits (packBits (List.replicate n c) ++ rest)
      ((List.replicate n c).length : Int)).1 = [] := by
  have h31 : (2 : Nat) ^ 31 = 2147483648 := by norm_num
  constructor
  · unfold FileCompressor.writeBits
    rw [List.length_replicate, List.nil_append, List.append_assoc]
    exact readBits_overflow (n : Int) _ (by omega) (by omega)
  · rw [List.length_replicate]
    unfold FileCompressor.readBits
    have hneg : ¬ ((n : Int) < 0) := by omega
    simp only [hneg, if_false]
    rw [readBitsBody_overflow _ (n : Int) (by omega) (by omega)]

/-- C28 fails at the sequence of `2^31 - 7` characters `0`, which is shorter
than `2^31`: `readBits` computes `(bitCount + 7) / 8` in `int`, reads no byte
and returns the empty sequence, with the count read from the four bytes in
front as well as with the count handed over. -/
theorem packed_bits_counterexample :
    (List.replicate (2 ^ 31 - 7) '0').length < 2 ^ 31 ∧
    (FileCompressor.readBits
      (FileCompressor.writeBits (List.replicate (2 ^ 31 - 7) '0') [] ++ []) (-1)).1 = [] ∧
    (FileCompressor.readBits (packBits (List.replicate (2 ^ 31 - 7) '0') ++ [])
      ((List.replicate (2 ^ 31 - 7) '0').length : Int)).1 = [] ∧
    ([] : BitString) ≠ List.replicate (2 ^ 31 - 7) '0' := by
  have h := readBits_long_replicate (2 ^ 31 - 7) '0' [] le_rfl (by norm_num)
  refine ⟨?_, h.1, h.2, ?_⟩
  · rw [List.length_replicate]
    norm_num
  · intro h0
    have hl := congrArg List.length h0
    rw [List.length_replicate, List.length_nil] at hl
    norm_num at hl

/-! ## The bytes of a serialized tree -/

/-- A tree with `L` leaves is written in `10 L - 1` bits: nine for a leaf, one
for an inner node. -/
theorem treeBits_length {t : HuffmanNode} (h : Full t) :
    (treeBits t).length + 1 = 10 * (leafPairs t).length := by
  induction h with
  | leaf c f => simp [treeBits, leafPairs, byteBits_length]
  | inner c f l r hl hr ihl ihr =>
    rw [treeBits_inner hl, leafPairs_inner hl]
    simp only [List.length_cons, List.length_append]
    omega

/-- C29: the framing of a tree. For every tree with `L >= 1` leaves in which
each inner node has two children, `serialize` followed by `flush` emits
exactly `10 L - 1` bits in `ceil((10 L - 1) / 8)` bytes (the bits of the tree,
then zero bits), and `deserialize` on those bytes followed by any byte
sequence `rest` consumes exactly those bytes and leaves `rest` unread. -/
theorem tree_framing {t : HuffmanNode} (h : Full t) (rest : List Byte) :
    1 ≤ (leafPairs t).length ∧
    (TreeSerializer.serialize t (BitWriter.new [])).bits = treeBits t ∧
    (treeBits t).length = 10 * (leafPairs t).length - 1 ∧
    IsPaddedTree (treeBytes t) t ∧
    (treeBytes t).length = (10 * (leafPairs t).length - 1 + 7) / 8 ∧
    ∃ r', TreeSerializer.deserialize (BitReader.new (treeBytes t ++ rest)) = (skeleton t, r') ∧
      r'.input = rest := by
  have hbits := treeBits_length h
  have hpos := leafPairs_length_pos h
  have hs := serialize_bits t (BitWriter.new []) (by simp [BitWriter.new])
  have h0 : (BitWriter.new []).bits = [] := by
    simp [BitWriter.new, BitWriter.bits, BitWriter.pending, bytesBits, byteBits_length]
  obtain ⟨k, hk, hpad⟩ := isPaddedTree_treeBytes t
  have hlen := congrArg List.length hpad
  rw [bytesBits_length, List.length_append, List.length_replicate] at hlen
  refine ⟨hpos, ?_, by omega, ⟨k, hk, hpad⟩, by omega, deserialize_serialize h rest⟩
  rw [hs.1, h0, List.nil_append]

theorem tree_framing_witness :
    1 ≤ (leafPairs sampleTree).length ∧
    (TreeSerializer.serialize sampleTree (BitWriter.new [])).bits = treeBits sampleTree ∧
    (treeBits sampleTree).length = 10 * (leafPairs sampleTree).length - 1 ∧
    IsPaddedTree (treeBytes sampleTree) sampleTree ∧
    (treeBytes sampleTree).length = (10 * (leafPairs sampleTree).length - 1 + 7) / 8 ∧
    ∃ r', TreeSerializer.deserialize (BitReader.new (treeBytes sampleTree ++ [1, 2, 3])) =
        (skeleton sampleTree, r') ∧ r'.input = [1, 2, 3] :=
  tree_framing (Full.inner 0 0 _ _ (Full.leaf 97 0)
    (Full.inner 0 0 _ _ (Full.leaf 98 0) (Full.leaf 99 0))) [1, 2, 3]

/-! ## The shape of a built tree -/

theorem treeWeight_nonneg_of_le (t : HuffmanNode) (hpos : ∀ p ∈ leafPairs t, 0 ≤ p.2) :
    0 ≤ treeWeight t := by
  unfold treeWeight
  apply List.sum_nonneg
  intro x hx
  obtain ⟨p, hp, rfl⟩ := List.mem_map.mp hx
  exact hpos p hp

/-- The step of the loop keeps the sums: the new node holds the sum of the
frequencies of the two nodes it is made of, and this sum does not overflow. -/
theorem merge_step_summed (heap : List HuffmanNode) (l r : HuffmanNode) (h : QueueSummed heap)
    (hl : l ∈ topCandidates heap) (hr : r ∈ topCandidates (heap.erase l)) :
    QueueSummed (.node 0 (toInt32 (l.frequency + r.frequency)) l r :: (heap.erase l).erase r) := by
  obtain ⟨hall, hsum⟩ := h
  have hperm := perm_of_candidates hl hr
  have hlm : l ∈ heap := hperm.mem_iff.mpr (by simp)
  have hrm : r ∈ heap := hperm.mem_iff.mpr (by simp)
  obtain ⟨hlf, hls, hlw, hlp⟩ := hall l hlm
  obtain ⟨hrf, hrs, hrw, hrp⟩ := hall r hrm
  have hrest : ∀ t ∈ (heap.erase l).erase r, t ∈ heap :=
    fun t ht => hperm.mem_iff.mpr (by simp [ht])
  have hsum' : treeWeight l + (treeWeight r + (((heap.erase l).erase r).map treeWeight).sum)
      < 2 ^ 31 := by
    rw [sum_map_perm treeWeight hperm] at hsum
    simpa using hsum
  have hnn : 0 ≤ (((heap.erase l).erase r).map treeWeight).sum := by
    apply List.sum_nonneg
    intro x hx
    obtain ⟨t, ht, rfl⟩ := List.mem_map.mp hx
    exact treeWeight_nonneg_of_le t (hall t (hrest t ht)).2.2.2
  have hl0 := treeWeight_nonneg_of_le l hlp
  have hr0 := treeWeight_nonneg_of_le r hrp
  have hto : toInt32 (l.frequency + r.frequency) = l.frequency + r.frequency := by
    rw [hlw, hrw]
    exact toInt32_of_range _ (by omega) (by omega)
  refine ⟨?_, ?_⟩
  · intro t ht
    rcases List.mem_cons.mp ht with rfl | ht
    · refine ⟨Full.inner _ _ _ _ hlf hrf, ?_, ?_, ?_⟩
      · rw [hto]; exact Summed.inner 0 l r hls hrs
      · rw [treeWeight_inner hlf, ← hlw, ← hrw]; exact hto
      · intro p hp
        rw [leafPairs_inner hlf] at hp
        rcases List.mem_append.mp hp with hp | hp
        · exact hlp p hp
        · exact hrp p hp
    · exact hall t (hrest t ht)
  · simp only [List.map_cons, List.sum_cons]
    rw [treeWeight_inner hlf]
    omega

/-- C30 as amended: the shape of a built tree. For every non-empty frequency
table with distinct byte values, no negative count and a total count below
`2^31`, and for every tie-breaking, the loop of `buildFromFrequencies` ends
with a queue of one tree, the root; in it every inner node has exactly two
children and holds the sum of the frequencies of its children, the leaves
hold exactly the entries of the table, each byte value once, and the
frequency of the root is the sum of all counts. -/
theorem built_tree_shape (tie : Nat → Nat) (charFreqs : List (Byte × Int))
    (hne : charFreqs ≠ []) (hkeys : (charFreqs.map (fun p => p.1)).Nodup)
    (hpos : ∀ p ∈ charFreqs, 0 ≤ p.2) (htotal : (charFreqs.map (fun p => p.2)).sum < 2 ^ 31) :
    (buildLoop tie (pushLeaves [] charFreqs).length 0 (pushLeaves [] charFreqs)).2 =
      [buildFromFrequencies tie charFreqs] ∧
    Full (buildFromFrequencies tie charFreqs) ∧
    Summed (buildFromFrequencies tie charFreqs) ∧
    (leafPairs (buildFromFrequencies tie charFreqs)).Perm charFreqs ∧
    (leafChars (buildFromFrequencies tie charFreqs)).Nodup ∧
    (buildFromFrequencies tie charFreqs).frequency = (charFreqs.map (fun p => p.2)).sum := by
  have hperm := pushLeaves_nil_perm charFreqs
  have hheap : pushLeaves [] charFreqs ≠ [] := by
    intro h0; rw [h0] at hperm
    have := hperm.length_eq
    simp at this
    exact hne (List.length_eq_zero.mp this.symm)
  have hleaf : ∀ t ∈ pushLeaves [] charFreqs, ∃ p ∈ charFreqs, t = .node p.1 p.2 .null .null := by
    intro t ht
    obtain ⟨p, hp, rfl⟩ := List.mem_map.mp (hperm.mem_iff.mp ht)
    exact ⟨p, hp, rfl⟩
  have h0 : QueueSummed (pushLeaves [] charFreqs) := by
    refine ⟨?_, ?_⟩
    · intro t ht
      obtain ⟨p, hp, rfl⟩ := hleaf t ht
      refine ⟨Full.leaf _ _, Summed.leaf _ _, by rw [treeWeight_leaf]; rfl, ?_⟩
      intro q hq
      simp only [leafPairs, List.mem_singleton] at hq
      rw [hq]; exact hpos p hp
    · rw [sum_map_perm treeWeight hperm, List.map_map]
      have : (treeWeight ∘ fun p : Byte × Int => HuffmanNode.node p.1 p.2 .null .null)
          = fun p => p.2 := by
        funext p; simp [treeWeight_leaf]
      rw [this]; exact htotal
  obtain ⟨root, hroot, hsound⟩ := buildLoop_invariant tie QueueSummed
    (fun heap l r h hl hr => merge_step_summed heap l r h hl hr)
    (pushLeaves [] charFreqs).length 0 (pushLeaves [] charFreqs) h0 hheap (by omega)
  have hbuild : buildFromFrequencies tie charFreqs = root := by
    unfold buildFromFrequencies
    have : charFreqs.isEmpty = false := by
      cases charFreqs with
      | nil => exact absurd rfl hne
      | cons _ _ => rfl
    simp only [this, Bool.false_eq_true, if_false]
    rw [hroot, heapTop_singleton]
  obtain ⟨hfull, hleaves⟩ := buildFromFrequencies_full tie charFreqs hne
  rw [hbuild] at hfull hleaves ⊢
  obtain ⟨_, hsummed, hweight, _⟩ := hsound.1 root (by simp)
  refine ⟨hroot, hfull, hsummed, hleaves, ?_, ?_⟩
  · unfold leafChars
    exact (hleaves.map (fun p => p.1)).nodup_iff.mpr hkeys
  · rw [hweight]
    unfold treeWeight
    exact sum_map_perm (fun p => p.2) hleaves

set_option maxRecDepth 100000 in
theorem built_tree_shape_witness :
    ([(97, 4), (98, 3), (99, 0), (100, 1)] : List (Byte × Int)) ≠ [] ∧
    (([(97, 4), (98, 3), (99, 0), (100, 1)] : List (Byte × Int)).map (fun p => p.1)).Nodup ∧
    (∀ p ∈ ([(97, 4), (98, 3), (99, 0), (100, 1)] : List (Byte × Int)), 0 ≤ p.2) ∧
    (([(97, 4), (98, 3), (99, 0), (100, 1)] : List (Byte × Int)).map (fun p => p.2)).sum
      < 2 ^ 31 ∧
    (buildLoop (fun _ => 0) (pushLeaves [] [(97, 4), (98, 3), (99, 0), (100, 1)]).length 0
      (pushLeaves [] [(97, 4), (98, 3), (99, 0), (100, 1)])).2 =
      [buildFromFrequencies (fun _ => 0) [(97, 4), (98, 3), (99, 0), (100, 1)]] ∧
    Full (buildFromFrequencies (fun _ => 0) [(97, 4), (98, 3), (99, 0), (100, 1)]) ∧
    Summed (buildFromFrequencies (fun _ => 0) [(97, 4), (98, 3), (99, 0), (100, 1)]) ∧
    (leafPairs (buildFromFrequencies (fun _ => 0)
      [(97, 4), (98, 3), (99, 0), (100, 1)])).Perm [(97, 4), (98, 3), (99, 0), (100, 1)] ∧
    (leafChars (buildFromFrequencies (fun _ => 0)
      [(97, 4), (98, 3), (99, 0), (100, 1)])).Nodup ∧
    (buildFromFrequencies (fun _ => 0) [(97, 4), (98, 3), (99, 0), (100, 1)]).frequency =
      ([(97, 4), (98, 3), (99, 0), (100, 1)].map (fun p : Byte × Int => p.2)).sum :=
  ⟨by decide, by decide, by decide, by decide,
    built_tree_shape (fun _ => 0) [(97, 4), (98, 3), (99, 0), (100, 1)]
      (by decide) (by decide) (by decide) (by decide)⟩

/-! ## A table with negative counts -/

/-- What a node with the property `Summed` is: a leaf, or a node that holds
the sum of the frequencies of its two children, which have the property. -/
theorem summed_node {c : Byte} {f : Int} {l r : HuffmanNode} (h : Summed (.node c f l r)) :
    (l = .null ∧ r = .null) ∨ (f = l.frequency + r.frequency ∧ Summed l ∧ Summed r) := by
  generalize hn : HuffmanNode.node c f l r = t at h
  cases h with
  | leaf c1 f1 =>
    injection hn with _ _ hl hr
    exact Or.inl ⟨hl, hr⟩
  | inner c1 l1 r1 hl1 hr1 =>
    injection hn with _ hf hl hr
    subst hl hr
    exact Or.inr ⟨hf, hl1, hr1⟩

/-- The first step of the loop on `signedTable` takes the two leaves with the
count `-2^31`, whatever the order among equal counts is. -/
theorem signedTable_first_step (l r : HuffmanNode)
    (hl : l ∈ topCandidates (pushLeaves [] signedTable))
    (hr : r ∈ topCandidates ((pushLeaves [] signedTable).erase l)) :
    l.frequency = -2147483648 ∧ r.frequency = -2147483648 ∧ l ≠ .null := by
  have hc : topCandidates (pushLeaves [] signedTable) =
      [.node 98 (-2147483648) .null .null, .node 97 (-2147483648) .null .null] := by decide
  rw [hc] at hl
  rcases List.mem_cons.mp hl with rfl | hl
  · have hc2 : topCandidates ((pushLeaves [] signedTable).erase
        (.node 98 (-2147483648) .null .null)) = [.node 97 (-2147483648) .null .null] := by
      decide
    rw [hc2] at hr
    rw [List.mem_singleton.mp hr]
    exact ⟨rfl, rfl, by simp⟩
  · rw [List.mem_singleton.mp hl] at hr ⊢
    have hc2 : topCandidates ((pushLeaves [] signedTable).erase
        (.node 97 (-2147483648) .null .null)) = [.node 98 (-2147483648) .null .null] := by
      decide
    rw [hc2] at hr
    rw [List.mem_singleton.mp hr]
    exact ⟨rfl, rfl, by simp⟩

/-- From the first step on the queue built from `signedTable` holds a tree
with an inner node that does not hold the sum of its children. -/
theorem signedTable_step (heap : List HuffmanNode) (l r : HuffmanNode)
    (h : (∀ t ∈ heap, t ≠ .null) ∧
      (heap = pushLeaves [] signedTable ∨ ∃ t ∈ heap, ¬ Summed t))
    (hl : l ∈ topCandidates heap) (hr : r ∈ topCandidates (heap.erase l)) :
    (∀ t ∈ HuffmanNode.node 0 (toInt32 (l.frequency + r.frequency)) l r ::
        (heap.erase l).erase r, t ≠ .null) ∧
      ((HuffmanNode.node 0 (toInt32 (l.frequency + r.frequency)) l r ::
          (heap.erase l).erase r) = pushLeaves [] signedTable ∨
        ∃ t ∈ HuffmanNode.node 0 (toInt32 (l.frequency + r.frequency)) l r ::
          (heap.erase l).erase r, ¬ Summed t) := by
  obtain ⟨hnull, hcase⟩ := h
  have hperm := perm_of_candidates hl hr
  have hlm : l ∈ heap := hperm.mem_iff.mpr (by simp)
  have hrm : r ∈ heap := hperm.mem_iff.mpr (by simp)
  refine ⟨?_, Or.inr ?_⟩
  · intro t ht
    rcases List.mem_cons.mp ht with rfl | ht
    · simp
    · exact hnull t (hperm.mem_iff.mpr (by simp [ht]))
  · rcases hcase with rfl | ⟨t, ht, hbad⟩
    · obtain ⟨hlf, hrf, hln⟩ := signedTable_first_step l r hl hr
      refine ⟨_, List.mem_cons_self _ _, fun hs => ?_⟩
      rcases summed_node hs with ⟨h1, _⟩ | ⟨hf, _, _⟩
      · exact hln h1
      · rw [hlf, hrf] at hf
        revert hf
        decide
    · rcases List.mem_cons.mp (hperm.mem_iff.mp ht) with rfl | ht1
      · refine ⟨_, List.mem_cons_self _ _, fun hs => ?_⟩
        rcases summed_node hs with ⟨h1, _⟩ | ⟨_, h2, _⟩
        · exact hnull _ hlm h1
        · exact hbad h2
      · rcases List.mem_cons.mp ht1 with rfl | ht2
        · refine ⟨_, List.mem_cons_self _ _, fun hs => ?_⟩
          rcases summed_node hs with ⟨_, h1⟩ | ⟨_, _, h2⟩
          · exact hnull _ hrm h1
          · exact hbad h2
        · exact ⟨t, List.mem_cons_of_mem _ ht2, hbad⟩

/-- The tree built from `signedTable` has an inner node that does not hold
the sum of its children, whatever the order among equal counts is. -/
theorem signedTable_not_summed (tie : Nat → Nat) :
    ¬ Summed (buildFromFrequencies tie signedTable) := by
  have h0 : (∀ t ∈ pushLeaves [] signedTable, t ≠ .null) ∧
      (pushLeaves [] signedTable = pushLeaves [] signedTable ∨
        ∃ t ∈ pushLeaves [] signedTable, ¬ Summed t) := ⟨by decide, Or.inl rfl⟩
  obtain ⟨root, hroot, _, hcase⟩ := buildLoop_invariant tie
    (fun heap => (∀ t ∈ heap, t ≠ .null) ∧
      (heap = pushLeaves [] signedTable ∨ ∃ t ∈ heap, ¬ Summed t))
    signedTable_step (pushLeaves [] signedTable).length 0 (pushLeaves [] signedTable) h0
    (by decide) (by omega)
  have hbuild : buildFromFrequencies tie signedTable = root := by
    unfold buildFromFrequencies
    have : signedTable.isEmpty = false := rfl
    simp only [this, Bool.false_eq_true, if_false]
    rw [hroot, heapTop_singleton]
  rw [hbuild]
  rcases hcase with h1 | ⟨t, ht, hbad⟩
  · have hlen := congrArg List.length h1
    have h5 : (pushLeaves [] signedTable).length = 5 := by decide
    rw [h5] at hlen
    simp at hlen
  · rw [List.mem_singleton.mp ht] at hbad
    exact hbad

/-- C30 fails at the table `signedTable`: its byte values are distinct, its
counts are values of an `int` and their total is `2^31 - 3`, but the two
counts `-2^31` are merged first and their sum `-2^32` is kept as the `int` 0,
so the built tree has an inner node that does not hold the sum of the
frequencies of its children. -/
theorem built_tree_counterexample :
    signedTable ≠ [] ∧ (signedTable.map (fun p => p.1)).Nodup ∧
    (∀ p ∈ signedTable, -2 ^ 31 ≤ p.2 ∧ p.2 < 2 ^ 31) ∧
    (signedTable.map (fun p => p.2)).sum < 2 ^ 31 ∧
    toInt32 (-2147483648 + -2147483648) = 0 ∧
    ∀ tie : Nat → Nat, ¬ Summed (buildFromFrequencies tie signedTable) :=
  ⟨by decide, by decide, by decide, by decide, by decide, signedTable_not_summed⟩

end EasyCompress
